import Mathlib

/-!
Verification of the roam note manager's content & link-graph engine.

The development shallowly embeds the TypeScript sources:
  * `src/services/link-service.ts` (link reconciliation engine),
  * `src/stores/note-store.ts` (tree mutator `moveNote`),
  * `src/utils/backup.ts` (`NoteService`) together with the Dexie storage
    backend (`storage-service`),
  * `src/utils/markdown.ts` (markdown converter and `isMarkdown`).

Draft.js content states are embedded at per-character granularity: a block is
a list of characters, each carrying its inline-style set and an optional
entity key, which is exactly the information Draft.js stores in a
`CharacterMetadata` list.  Raw content (the JSON form produced by
`convertToRaw`) is represented by the same structure; `convertToRawM`
performs the normalisation `convertToRaw` applies (entity-key renumbering by
first use and restriction of the entity map to referenced entities) and
`convertFromRawM` performs the cleanup `convertFromRaw` applies (block-key
deduplication with OrderedMap semantics, dropping dangling entity
references, canonical per-character style sets).

A serialized content string is modelled by `ContentStr`: either an
unparsable string (`malformed`, tagged so distinct garbage strings stay
distinct) or a string that parses to a raw content value, flagged by whether
the string is the canonical `JSON.stringify(convertToRaw ...)` rendering of
that value.  Equality of `ContentStr` values models equality of the
underlying strings: canonical renderings are injective and never equal a
non-canonical or malformed string.
-/

namespace Roam

/-- A dynamic JSON-ish value stored in entity `data` records.  Non-string
values are kept abstract but distinguishable. -/
inductive DVal where
  | str (s : String)
  | other (tag : Nat)
deriving DecidableEq, Repr

abbrev DataMap := List (String × DVal)

/-- JS object spread `{...old, ...new}`: keys of `old` keep their position
(with values overridden by `new`), keys of `new` not present in `old` are
appended in order. -/
def mergeData (old new : DataMap) : DataMap :=
  old.map (fun p => (p.1, ((new.lookup p.1).getD p.2))) ++
    new.filter (fun p => (old.lookup p.1).isNone)

/-- A Draft.js entity: `{type, mutability, data}`. -/
structure Entity where
  etype : String
  mutability : String
  data : DataMap
deriving DecidableEq, Repr

abbrev EntityMap := List (Nat × Entity)

/-- One character of a content block with its style set and entity key
(`CharacterMetadata`). -/
structure CChar where
  ch : Char
  styles : List String
  entity : Option Nat
deriving DecidableEq, Repr

/-- A content block (text is the character list). -/
structure CBlock where
  key : String
  btype : String
  depth : Nat
  bdata : DataMap
  chars : List CChar
deriving DecidableEq, Repr

/-- A Draft.js content state / raw content value, at per-character
granularity. -/
structure ContentState where
  blocks : List CBlock
  entityMap : EntityMap
deriving DecidableEq, Repr

/-- A serialized note content string. -/
inductive ContentStr where
  | malformed (tag : Nat)
  | jsonOf (r : ContentState) (canonical : Bool)
deriving DecidableEq, Repr

/-- Outbound/inbound link arrays of a note. -/
structure Links where
  outbound : List String
  inbound : List String
deriving DecidableEq, Repr

/-- A note (`src/types/note.ts`).  `parentId = none` models `undefined`;
timestamps are abstract integers; embeds are opaque tags. -/
structure MNote where
  id : String
  title : String
  content : ContentStr
  createdAt : Int
  updatedAt : Int
  parentId : Option String
  order : Int
  links : Option Links
  embeds : List Nat
deriving DecidableEq, Repr

/-! ### Kernel-computable string primitives

Core `String` operations (`<`, `trim`, `split`, ...) are byte-position
based; the following characterwise versions model the corresponding
JavaScript string operations. -/

/-- JS string `<`: lexicographic on code units (code points for the BMP). -/
def charListLt : List Char → List Char → Bool
  | [], [] => false
  | [], _ :: _ => true
  | _ :: _, [] => false
  | a :: as, b :: bs =>
    if a.val < b.val then true
    else if b.val < a.val then false
    else charListLt as bs

def strLtB (a b : String) : Bool := charListLt a.data b.data

/-- JS `String.prototype.trim`. -/
def jsTrim (s : String) : String :=
  ⟨((s.data.dropWhile Char.isWhitespace).reverse.dropWhile
      Char.isWhitespace).reverse⟩

/-- JS `String.prototype.toLowerCase` (ASCII-faithful). -/
def jsToLower (s : String) : String := ⟨s.data.map Char.toLower⟩

/-- JS `split('\n')`. -/
def splitLinesAux : List Char → List Char → List String
  | [], acc => [⟨acc.reverse⟩]
  | c :: rest, acc =>
    if c = '\n' then ⟨acc.reverse⟩ :: splitLinesAux rest []
    else splitLinesAux rest (c :: acc)

def splitLines (s : String) : List String := splitLinesAux s.data []

/-- JS `Array.prototype.join(sep)`. -/
def joinWith (sep : String) : List String → String
  | [] => ""
  | [x] => x
  | x :: y :: xs => x ++ sep ++ joinWith sep (y :: xs)

/-- JS `String.prototype.startsWith`. -/
def startsWithS (s pre : String) : Bool := pre.data.isPrefixOf s.data

/-- JS `String.prototype.slice(n)` (drop the first `n` characters). -/
def dropS (s : String) (n : Nat) : String := ⟨s.data.drop n⟩

/-! ### Generic JS-style containers -/

/-- JS `Map.set`: an existing key keeps its insertion position and gets the
new value, a new key is appended. -/
def mapSet {β : Type} (m : List (String × β)) (k : String) (v : β) :
    List (String × β) :=
  if m.any (fun p => p.1 = k) then
    m.map (fun p => if p.1 = k then (k, v) else p)
  else m ++ [(k, v)]

/-- JS `Set.add`: append if not already present (insertion order kept). -/
def setAdd (l : List String) (x : String) : List String :=
  if l.contains x then l else l ++ [x]

abbrev TitleMap := List (String × String)

/-! ### Draft.js model: cleanup (`convertFromRaw`) -/

/-- Insert a string into a sorted list, dropping duplicates. -/
def insertStr (x : String) : List String → List String
  | [] => [x]
  | y :: ys =>
    if x = y then y :: ys
    else if strLtB x y then x :: y :: ys
    else y :: insertStr x ys

/-- Canonical (sorted, duplicate-free) representation of a character's style
set. -/
def sortDedupStr (l : List String) : List String := l.foldr insertStr []

/-- OrderedMap-style deduplication of blocks by key: a repeated key keeps the
first position and the last value. -/
def upsertBlock (acc : List CBlock) (b : CBlock) : List CBlock :=
  if acc.any (fun x => x.key = b.key) then
    acc.map (fun x => if x.key = b.key then b else x)
  else acc ++ [b]

def dedupBlocks (bs : List CBlock) : List CBlock := bs.foldl upsertBlock []

def upsertEntity (acc : EntityMap) (p : Nat × Entity) : EntityMap :=
  if acc.any (fun x => x.1 = p.1) then
    acc.map (fun x => if x.1 = p.1 then p else x)
  else acc ++ [p]

def dedupEntityMap (em : EntityMap) : EntityMap := em.foldl upsertEntity []

/-- `convertFromRaw`: deduplicate block/entity keys, drop entity references
to keys missing from the entity map, canonicalise style sets. -/
def convertFromRawM (r : ContentState) : ContentState :=
  let em := dedupEntityMap r.entityMap
  { blocks := dedupBlocks (r.blocks.map (fun b =>
      { b with chars := b.chars.map (fun c =>
          { ch := c.ch
            styles := sortDedupStr c.styles
            entity := match c.entity with
              | some k => if (em.lookup k).isSome then some k else none
              | none => none }) })),
    entityMap := em }

/-! ### Draft.js model: normalisation (`convertToRaw`) -/

/-- Entity keys in order of first appearance over the document's characters,
restricted to keys present in the entity map (`convertToRaw` renumbers these
`0, 1, 2, ...`). -/
def usedEntityKeys (S : ContentState) : List Nat :=
  S.blocks.foldl (fun acc b =>
    b.chars.foldl (fun acc c =>
      match c.entity with
      | some k =>
        if (S.entityMap.lookup k).isSome ∧ ¬ acc.contains k then acc ++ [k]
        else acc
      | none => acc) acc) []

def renumberKey (used : List Nat) (k : Nat) : Option Nat := used.indexOf? k

/-- `convertToRaw`: renumber entity keys by first use and restrict the
entity map to the referenced entities, in renumbered order. -/
def convertToRawM (S : ContentState) : ContentState :=
  let used := usedEntityKeys S
  { blocks := S.blocks.map (fun b =>
      { b with chars := b.chars.map (fun c =>
          { c with entity := match c.entity with
              | some k => renumberKey used k
              | none => none }) }),
    entityMap := (used.enum).filterMap (fun p =>
      (S.entityMap.lookup p.2).map (fun e => (p.1, e))) }

/-! ### Link-service primitives (`src/services/link-service.ts`) -/

/-- `sanitizeLinkId`: a string whose trim is non-empty, returned untrimmed. -/
def sanitizeLinkId : Option DVal → Option String
  | some (.str s) => if (jsTrim s).length > 0 then some s else none
  | _ => none

/-- The entity key of a character that belongs to a NOTE_LINK entity range
(the predicate passed to `findEntityRanges`). -/
def isLinkChar (em : EntityMap) (c : CChar) : Option Nat :=
  match c.entity with
  | some k =>
    match em.lookup k with
    | some e => if e.etype = "NOTE_LINK" then some k else none
    | none => none
  | none => none

/-- `findEntityRanges` for NOTE_LINK entities, in the boundary-scanning
style of Draft.js `findRangesImmutable`: characters are walked once, a run
is open while adjacent characters share the same NOTE_LINK entity key, and
a `(start, end, key)` range is emitted at each boundary. -/
def linkRunsGo (em : EntityMap) : Nat → Option (Nat × Nat) → List CChar →
    List (Nat × Nat × Nat)
  | _, none, [] => []
  | i, some (s, k), [] => [(s, i, k)]
  | i, none, c :: cs =>
    match isLinkChar em c with
    | none => linkRunsGo em (i + 1) none cs
    | some k => linkRunsGo em (i + 1) (some (i, k)) cs
  | i, some (s, k), c :: cs =>
    match isLinkChar em c with
    | none => (s, i, k) :: linkRunsGo em (i + 1) none cs
    | some k' =>
      if k' = k then linkRunsGo em (i + 1) (some (s, k)) cs
      else (s, i, k) :: linkRunsGo em (i + 1) (some (i, k')) cs

def linkRuns (em : EntityMap) (chars : List CChar) : List (Nat × Nat × Nat) :=
  linkRunsGo em 0 none chars

/-- Stable insertion into a list sorted descending by `f` (models the stable
JS sort with comparator `(a, b) => f b - f a`). -/
def insertDescBy {α : Type} (f : α → Nat) (x : α) : List α → List α
  | [] => [x]
  | y :: ys => if f x > f y then x :: y :: ys else y :: insertDescBy f x ys

def sortDescBy {α : Type} (f : α → Nat) (l : List α) : List α :=
  l.foldr (insertDescBy f) []

/-- `Modifier.replaceText` restricted to one block: characters `[s, e)` are
replaced by the new text, whose characters carry no styles and the given
entity key. -/
def replaceInBlock (b : CBlock) (s e : Nat) (ek : Option Nat) (txt : String) :
    CBlock :=
  { b with chars :=
      b.chars.take s ++ txt.data.map (fun c => ⟨c, [], ek⟩) ++ b.chars.drop e }

def replaceTextM (S : ContentState) (bk : String) (s e : Nat) (ek : Option Nat)
    (txt : String) : ContentState :=
  { S with blocks := S.blocks.map (fun b =>
      if b.key = bk then replaceInBlock b s e ek txt else b) }

/-- `contentState.mergeEntityData`. -/
def mergeEntityDataM (S : ContentState) (k : Nat) (new : DataMap) :
    ContentState :=
  { S with entityMap := S.entityMap.map (fun p =>
      if p.1 = k then (p.1, { p.2 with data := mergeData p.2.data new }) else p) }

/-- The `data.title` field when it is a string (`storedTitle`). -/
def storedTitleOf (d : DataMap) : Option String :=
  match d.lookup "title" with
  | some (.str t) => some t
  | _ => none

/-- Accumulator of `analyzeNoteContent`'s scan: the outbound id set and the
evolving content state. -/
structure AnalyzeAcc where
  outbound : List String
  state : ContentState
deriving DecidableEq, Repr

/-- The body of the per-range loop in `analyzeNoteContent` (lines 163-194 of
`link-service.ts`). -/
def processRange (T : TitleMap) (bk : String) (acc : AnalyzeAcc)
    (r : Nat × Nat × Nat) : AnalyzeAcc :=
  let data := ((acc.state.entityMap.lookup r.2.2).map Entity.data).getD []
  let storedTitle := storedTitleOf data
  match sanitizeLinkId (data.lookup "noteId") with
  | some id =>
    match T.lookup id with
    | some t =>
      let resolvedTitle := t
      let st := mergeEntityDataM acc.state r.2.2
        [("noteId", .str id), ("title", .str resolvedTitle)]
      let st2 := replaceTextM st bk r.1 r.2.1 (some r.2.2) ("[[" ++ resolvedTitle ++ "]]")
      { outbound := setAdd acc.outbound id, state := st2 }
    | none =>
      let st2 := replaceTextM acc.state bk r.1 r.2.1 none
        ("[[" ++ storedTitle.getD "Untitled" ++ "]]")
      { acc with state := st2 }
  | none =>
    let st2 := replaceTextM acc.state bk r.1 r.2.1 none
      ("[[" ++ storedTitle.getD "Untitled" ++ "]]")
    { acc with state := st2 }

/-- Per-block part of `analyzeNoteContent`'s scan: compute the NOTE_LINK
ranges of the block, sort them by descending start, and process each. -/
def processBlock (T : TitleMap) (acc : AnalyzeAcc) (bk : String) : AnalyzeAcc :=
  match acc.state.blocks.find? (fun b => b.key = bk) with
  | none => acc
  | some b =>
    let ranges := linkRuns acc.state.entityMap b.chars
    if ranges.isEmpty then acc
    else (sortDescBy (fun r => r.1) ranges).foldl (processRange T bk) acc

/-- `analyzeNoteContent`: unparsable content yields no outbound links and
the content unchanged; otherwise every block is scanned and the rewritten
state is re-serialized (canonically). -/
def analyzeNoteContent (n : MNote) (T : TitleMap) : List String × ContentStr :=
  match n.content with
  | .malformed _ => ([], n.content)
  | .jsonOf r _ =>
    let S0 := convertFromRawM r
    let acc := (S0.blocks.map CBlock.key).foldl (processBlock T) ⟨[], S0⟩
    (acc.outbound, .jsonOf (convertToRawM acc.state) true)

/-! ### `ensureUniqueSorted` and `reconcileNoteLinks` -/

/-- Stable insertion by case-insensitive title (models the stable JS sort
with `localeCompare(..., {sensitivity: 'base'})`). -/
def insertByTitle (T : TitleMap) (x : String) : List String → List String
  | [] => [x]
  | y :: ys =>
    if strLtB (jsToLower ((T.lookup x).getD "")) (jsToLower ((T.lookup y).getD "")) then
      x :: y :: ys
    else y :: insertByTitle T x ys

/-- `ensureUniqueSorted`: keep ids present in the title map, deduplicate
preserving first occurrence, sort by referenced title (case-insensitive,
stable). -/
def ensureUniqueSorted (vals : List String) (T : TitleMap) : List String :=
  let unique := vals.foldl (fun acc v =>
    if (T.lookup v).isSome then setAdd acc v else acc) []
  unique.foldr (insertByTitle T) []

/-- `join('\u0000')`. -/
def joinNul (l : List String) : String := joinWith "\u0000" l

def origOutbound (n : MNote) : List String :=
  match n.links with
  | some l => l.outbound
  | none => []

def origInbound (n : MNote) : List String :=
  match n.links with
  | some l => l.inbound
  | none => []

/-- Final per-note step of `reconcileNoteLinks` (lines 279-302): compare the
computed `(outbound, inbound, content)` against the note and return either
the unchanged note or an updated copy. -/
def finalizeNote (T : TitleMap) (outboundMap : List (String × List String))
    (inboundMap : List (String × List String))
    (contentMap : List (String × ContentStr)) (n : MNote) : MNote :=
  let out := ensureUniqueSorted ((outboundMap.lookup n.id).getD []) T
  let inb := ensureUniqueSorted ((inboundMap.lookup n.id).getD []) T
  let updatedContent := (contentMap.lookup n.id).getD n.content
  if joinNul out = joinNul (origOutbound n) ∧
      joinNul inb = joinNul (origInbound n) ∧ updatedContent = n.content then
    n
  else
    { n with
      content := if updatedContent = n.content then n.content else updatedContent
      links := some ⟨out, inb⟩ }

def buildTitleMap (notes : List MNote) : TitleMap :=
  notes.foldl (fun m n => mapSet m n.id n.title) []

def buildOutboundMap (notes : List MNote) (T : TitleMap) :
    List (String × List String) :=
  notes.foldl (fun m n => mapSet m n.id (analyzeNoteContent n T).1) []

def buildContentMap (notes : List MNote) (T : TitleMap) :
    List (String × ContentStr) :=
  notes.foldl (fun m n => mapSet m n.id (analyzeNoteContent n T).2) []

/-- Inversion of the outbound map into the inbound map (lines 261-277):
self references are skipped, sources are added to existing inbound sets
only. -/
def buildInboundMap (notes : List MNote)
    (outboundMap : List (String × List String)) :
    List (String × List String) :=
  let base := notes.foldl (fun m n => mapSet m n.id ([] : List String)) []
  outboundMap.foldl (fun im p =>
    p.2.foldl (fun im tgt =>
      if tgt = p.1 then im
      else
        match im.lookup tgt with
        | some s => mapSet im tgt (setAdd s p.1)
        | none => im) im) base

/-- `LinkService.reconcileNoteLinks`. -/
def reconcileNoteLinks (notes : List MNote) : List MNote :=
  if notes.isEmpty then notes
  else
    let T := buildTitleMap notes
    let outboundMap := buildOutboundMap notes T
    let contentMap := buildContentMap notes T
    let inboundMap := buildInboundMap notes outboundMap
    notes.map (finalizeNote T outboundMap inboundMap contentMap)

/-! ### Note-store tree mutator (`src/stores/note-store.ts`, `moveNote`) -/

/-- Stable insertion into a list sorted ascending by an integer key (models
the stable JS sort with comparator `(a, b) => f a - f b`). -/
def insertAscBy {α : Type} (f : α → Int) (x : α) : List α → List α
  | [] => [x]
  | y :: ys => if f x < f y then x :: y :: ys else y :: insertAscBy f x ys

def sortAscBy {α : Type} (f : α → Int) (l : List α) : List α :=
  l.foldr (insertAscBy f) []

/-- `value ?? null`: stored `parentId` values are `string | undefined`, the
move target is `string | null`; both normalise to `Option String`. -/
def normalizeParent (p : Option String) : Option String := p

/-- JS truthiness of a `string | null | undefined` value: a missing value
and the empty string are falsy. -/
def truthyStr : Option String → Bool
  | some s => ¬ s = ""
  | none => false

/-- The `while (currentParentId)` ancestor walk of `moveNote`, which rejects
the move when the target's ancestor chain reaches the moved note.  The JS
loop diverges on a pre-existing parent cycle not containing `id`; the fuel
(always called with `notes.length + 1`) covers every terminating run. -/
def walkRejects (notes : List MNote) (id : String) :
    Nat → Option String → Bool
  | 0, _ => true
  | fuel + 1, cur =>
    match cur with
    | none => false
    | some s =>
      if s = "" then false
      else if s = id then true
      else
        match notes.find? (fun n => n.id = s) with
        | none => false
        | some p => walkRejects notes id fuel p.parentId

/-- `reorderSiblings`: renumber the `order` of the notes sharing `pid` to
their index in the stable order-sorted sibling list (in-place object
mutation is modelled by positional identity). -/
def renumberSiblings (ns : List MNote) (pid : Option String) : List MNote :=
  let sibs := sortAscBy (fun p => p.2.order)
    (ns.enum.filter (fun p => normalizeParent p.2.parentId = pid))
  ns.enum.map (fun p =>
    match sibs.findIdx? (fun q => q.1 = p.1) with
    | some newOrd => { p.2 with order := (newOrd : Int) }
    | none => p.2)

/-- `moveNote` of the zustand note store (lines 134-234); `now` stands for
`new Date()`. -/
def moveNote (notes : List MNote) (id : String) (targetParentId : Option String)
    (targetIndex : Int) (now : Int) : List MNote :=
  match notes.find? (fun n => n.id = id) with
  | none => notes
  | some existingNote =>
    if targetParentId = some id then notes
    else if truthyStr targetParentId ∧
        walkRejects notes id (notes.length + 1) targetParentId then notes
    else if truthyStr targetParentId &&
        (match notes.find? (fun n => some n.id = targetParentId) with
          | none => true
          | some p => truthyStr p.parentId) then
      notes
    else
      let sourceParentId := normalizeParent existingNote.parentId
      let destinationParentId := normalizeParent targetParentId
      let adjustedIndex := max 0 targetIndex
      match notes.findIdx? (fun n => n.id = id) with
      | none => notes
      | some noteIndex =>
        let originalOrder := existingNote.order
        let cloned := notes.eraseIdx noteIndex
        let insertionIndex :=
          if sourceParentId = destinationParentId ∧
              adjustedIndex > originalOrder then
            adjustedIndex - 1
          else adjustedIndex
        let cloned2 := renumberSiblings cloned sourceParentId
        let destSibs := sortAscBy (fun n => MNote.order n)
          (cloned2.filter (fun n => normalizeParent n.parentId = destinationParentId))
        let clampedIndex := min (max 0 insertionIndex) (destSibs.length : Int)
        let movedNote : MNote :=
          { existingNote with
            parentId := targetParentId
            order := clampedIndex
            updatedAt := now }
        let destSibs2 := destSibs.insertIdx clampedIndex.toNat movedNote
        let destSibs3 := destSibs2.enum.map (fun p =>
          { p.2 with order := (p.1 : Int) })
        let remaining := cloned2.filter (fun n =>
          ¬ normalizeParent n.parentId = destinationParentId)
        reconcileNoteLinks (remaining ++ destSibs3)

/-- The two-level hierarchy invariant: every note with a parent references a
root note. -/
def TwoLevel (notes : List MNote) : Prop :=
  ∀ n ∈ notes, ∀ p, n.parentId = some p →
    ∀ m ∈ notes, m.id = p → m.parentId = none

instance : DecidablePred TwoLevel := fun notes => by
  unfold TwoLevel; infer_instance

/-! ### Note service with Dexie storage
(`src/utils/backup.ts` NoteService, `storage-service` backend) -/

/-- The IndexedDB table: rows are read back in primary-key (id) order. -/
structure Db where
  rows : List MNote
deriving DecidableEq, Repr

def sortById (ns : List MNote) : List MNote :=
  ns.foldr (fun n acc => insertById n acc) []
where
  insertById (n : MNote) : List MNote → List MNote
    | [] => [n]
    | y :: ys => if strLtB n.id y.id then n :: y :: ys else y :: insertById n ys

/-- `table.get(id)`. -/
def dbGet (db : Db) (id : String) : Option MNote :=
  db.rows.find? (fun n => n.id = id)

/-- `table.put`: replace the row with the same id, or add. -/
def dbPut (db : Db) (n : MNote) : Db :=
  if db.rows.any (fun x => x.id = n.id) then
    ⟨db.rows.map (fun x => if x.id = n.id then n else x)⟩
  else ⟨db.rows ++ [n]⟩

/-- `table.delete(id)`. -/
def dbDelete (db : Db) (id : String) : Db :=
  ⟨db.rows.filter (fun x => ¬ x.id = id)⟩

/-- JS strict equality `note.parentId === parentId` between a stored
`string | undefined` and a filter `string | null`: true only for equal
strings (`undefined === null` is false). -/
def strictParentEq (stored filt : Option String) : Bool :=
  match stored, filt with
  | some a, some b => a = b
  | _, _ => false

/-- `getNotesByParent`: filter rows by strict parent equality, then stable
sort on `order` ascending. -/
def storageGetNotesByParent (db : Db) (pid : Option String) : List MNote :=
  sortAscBy (fun n => MNote.order n)
    ((sortById db.rows).filter (fun n => strictParentEq n.parentId pid))

/-- `note.parentId || undefined` (an empty-string parent id is falsy). -/
def jsOrUndefined (p : Option String) : Option String :=
  match p with
  | some s => if s = "" then none else some s
  | none => none

/-- Storage `updateNote(id, {parentId})` as used by `NoteService.deleteNote`:
spread the update over the existing row and bump `updatedAt`. -/
def storageUpdateParent (db : Db) (id : String) (pid : Option String)
    (now : Int) : Db :=
  match dbGet db id with
  | none => db
  | some ex => dbPut db { ex with parentId := pid, updatedAt := now }

/-- `NoteService.deleteNote`: reparent all direct children of the deleted
note to the note's own parent, then delete the note (lines 416-444 of the
note service). -/
def serviceDeleteNote (db : Db) (id : String) (now : Int) : Db :=
  match dbGet db id with
  | none => db
  | some note =>
    let children := storageGetNotesByParent db (some id)
    let db2 := children.foldl (fun d child =>
      storageUpdateParent d child.id (jsOrUndefined note.parentId) now) db
    dbDelete db2 id

/-- Multiset of order values in the bucket of notes sharing `pid`. -/
def bucketOrders (ns : List MNote) (pid : Option String) : Multiset Int :=
  ((ns.filter (fun n => n.parentId = pid)).map MNote.order : List Int)

/-- Order contiguity of one bucket: the orders are exactly
`{0, ..., n - 1}`. -/
def BucketContiguous (ns : List MNote) (pid : Option String) : Prop :=
  bucketOrders ns pid =
    (((List.range (ns.filter (fun n => n.parentId = pid)).length).map
      (fun i => (i : Int))) : List Int)

instance (ns : List MNote) (pid : Option String) :
    Decidable (BucketContiguous ns pid) := by
  unfold BucketContiguous; infer_instance

end Roam

namespace Roam.Md

/-!
Markdown converter (`src/utils/markdown.ts`).  Here raw Draft.js content is
kept at the range granularity the converter manipulates directly: block text
plus inline style ranges and entity ranges.
-/

structure StyleRange where
  offset : Nat
  length : Nat
  style : String
deriving DecidableEq, Repr

structure EntityRange where
  offset : Nat
  length : Nat
  key : Nat
deriving DecidableEq, Repr

/-- A `LINK` entity created by the converter (`data.url`/`data.href`). -/
structure MdEntity where
  etype : String
  mutability : String
  url : Option String
  href : Option String
deriving DecidableEq, Repr

structure MdBlock where
  key : String
  btype : String
  text : String
  depth : Nat
  inlineStyleRanges : List StyleRange
  entityRanges : List EntityRange
deriving DecidableEq, Repr

structure MdRaw where
  blocks : List MdBlock
  entityMap : List (Nat × MdEntity)
deriving DecidableEq, Repr

/-- `text.slice(a, b)` on the character list (JS slice clamps). -/
def sliceChars (cs : List Char) (a b : Nat) : List Char :=
  (cs.take b).drop a

/-- A range tagged with its kind, as built by
`[...inlineStyles.map(...), ...entityRanges.map(...)]`. -/
inductive MixedRange where
  | style (r : StyleRange)
  | ent (r : EntityRange)
deriving DecidableEq, Repr

def MixedRange.offset : MixedRange → Nat
  | .style r => r.offset
  | .ent r => r.offset

def MixedRange.length : MixedRange → Nat
  | .style r => r.length
  | .ent r => r.length

/-- Stable descending sort by offset (`sort((a, b) => b.offset - a.offset)`),
reusing the generic stable insertion sort. -/
def sortRangesDesc (l : List MixedRange) : List MixedRange :=
  Roam.sortDescBy MixedRange.offset l

/-- Truthy string selection `data.url || data.href`; interpolating a missing
value renders the literal `undefined`. -/
def urlOf (e : MdEntity) : String :=
  match e.url with
  | some s => if s = "" then (match e.href with
      | some h => if h = "" then "undefined" else h
      | none => "undefined")
    else s
  | none =>
    match e.href with
    | some h => if h = "" then "undefined" else h
    | none => "undefined"

/-- Apply one range's formatting to the current text (the loop body of
`rawContentToMarkdown`). -/
def applyRange (em : List (Nat × MdEntity)) (text : List Char)
    (r : MixedRange) : List Char :=
  match r with
  | .style sr =>
    let selected := sliceChars text sr.offset (sr.offset + sr.length)
    let formatted :=
      if sr.style = "BOLD" then "**".data ++ selected ++ "**".data
      else if sr.style = "ITALIC" then "*".data ++ selected ++ "*".data
      else if sr.style = "CODE" then "`".data ++ selected ++ "`".data
      else if sr.style = "UNDERLINE" then "<u>".data ++ selected ++ "</u>".data
      else selected
    text.take sr.offset ++ formatted ++ text.drop (sr.offset + sr.length)
  | .ent er =>
    match em.lookup er.key with
    | some e =>
      if e.etype = "LINK" then
        let selected := sliceChars text er.offset (er.offset + er.length)
        let formatted := "[".data ++ selected ++ "](".data ++ (urlOf e).data ++ ")".data
        text.take er.offset ++ formatted ++ text.drop (er.offset + er.length)
      else text
    | none => text

/-- Inline formatting of one block's text: ranges applied right-to-left by
descending offset. -/
def formatInline (em : List (Nat × MdEntity)) (b : MdBlock) : String :=
  let allRanges := b.inlineStyleRanges.map MixedRange.style ++
    b.entityRanges.map MixedRange.ent
  ⟨(sortRangesDesc allRanges).foldl (applyRange em) b.text.data⟩

/-- The block-type prefix switch of `rawContentToMarkdown`. -/
def renderBlock (em : List (Nat × MdEntity)) (b : MdBlock) : String :=
  let text := formatInline em b
  if b.btype = "header-one" then "# " ++ text
  else if b.btype = "header-two" then "## " ++ text
  else if b.btype = "header-three" then "### " ++ text
  else if b.btype = "header-four" then "#### " ++ text
  else if b.btype = "header-five" then "##### " ++ text
  else if b.btype = "header-six" then "###### " ++ text
  else if b.btype = "blockquote" then "> " ++ text
  else if b.btype = "code-block" then "```\n" ++ text ++ "\n```"
  else if b.btype = "unordered-list-item" then "- " ++ text
  else if b.btype = "ordered-list-item" then "1. " ++ text
  else text

/-- `rawContentToMarkdown`. -/
def rawContentToMarkdown (raw : MdRaw) : String :=
  joinWith "\n\n" (raw.blocks.map (renderBlock raw.entityMap))

/-! #### `markdownToRawContent` -/

/-- Forced match of `/\*\*([^*]+)\*\*/` at the head of `cs`: `[^*]+` cannot
cross a star, so backtracking never helps.  Returns (full length, inner). -/
def tryBoldAt (cs : List Char) : Option (Nat × List Char) :=
  match cs with
  | '*' :: '*' :: rest =>
    let inner := rest.takeWhile (fun c => ¬ c = '*')
    if inner.isEmpty then none
    else
      match rest.drop inner.length with
      | '*' :: '*' :: _ => some (inner.length + 4, inner)
      | _ => none
  | _ => none

/-- Forced match of `/\*([^*]+)\*/` at the head. -/
def tryItalicAt (cs : List Char) : Option (Nat × List Char) :=
  match cs with
  | '*' :: rest =>
    let inner := rest.takeWhile (fun c => ¬ c = '*')
    if inner.isEmpty then none
    else
      match rest.drop inner.length with
      | '*' :: _ => some (inner.length + 2, inner)
      | _ => none
  | _ => none

/-- Forced match of `` /`([^`]+)`/ `` at the head. -/
def tryCodeAt (cs : List Char) : Option (Nat × List Char) :=
  match cs with
  | '`' :: rest =>
    let inner := rest.takeWhile (fun c => ¬ c = '`')
    if inner.isEmpty then none
    else
      match rest.drop inner.length with
      | '`' :: _ => some (inner.length + 2, inner)
      | _ => none
  | _ => none

/-- Forced match of `/\[([^\]]+)\]\(([^)]+)\)/` at the head.  Returns
(full length, link text, url). -/
def tryLinkAt (cs : List Char) : Option (Nat × List Char × List Char) :=
  match cs with
  | '[' :: rest =>
    let a := rest.takeWhile (fun c => ¬ c = ']')
    if a.isEmpty then none
    else
      match rest.drop a.length with
      | ']' :: '(' :: rest2 =>
        let b := rest2.takeWhile (fun c => ¬ c = ')')
        if b.isEmpty then none
        else
          match rest2.drop b.length with
          | ')' :: _ => some (a.length + b.length + 4, a, b)
          | _ => none
      | _ => none
  | _ => none

/-- `regex.exec(text)` from `lastIndex`: the first index `≥ from` where the
pattern matches.  Returns (index, full length, payload). -/
def scanFrom {β : Type} (tryAt : List Char → Option (Nat × β)) :
    Nat → List Char → Option (Nat × Nat × β)
  | _, [] => none
  | i, c :: cs =>
    match tryAt (c :: cs) with
    | some (len, b) => some (i, len, b)
    | none => scanFrom tryAt (i + 1) cs

def execFrom {β : Type} (tryAt : List Char → Option (Nat × β))
    (text : List Char) (lastIndex : Nat) : Option (Nat × Nat × β) :=
  scanFrom tryAt lastIndex (text.drop lastIndex)

/-- State of one inline regex loop over a mutating `text`: the JS `offset`
bookkeeping double-counts removals because `exec` already reports indices in
the mutated string; the model reproduces that bug faithfully. -/
structure InlineState where
  text : List Char
  offset : Nat
  lastIndex : Nat
  styles : List StyleRange
  entityRanges : List EntityRange
  entityMap : List (Nat × MdEntity)
  entityKey : Nat
deriving Repr

/-- One style-pattern loop (`bold`/`italic`/`code`), fuelled: every matched
iteration advances `lastIndex` by at least 3, so `text.length + 1` fuel is
ample. -/
def styleLoop (tryAt : List Char → Option (Nat × List Char)) (style : String) :
    Nat → InlineState → InlineState
  | 0, st => st
  | fuel + 1, st =>
    match execFrom tryAt st.text st.lastIndex with
    | none => { st with lastIndex := 0 }
    | some (idx, fullLen, inner) =>
      let matchStart := idx - st.offset
      let st' :=
        { st with
          styles := st.styles ++ [⟨matchStart, inner.length, style⟩]
          text := st.text.take (idx - st.offset) ++ inner ++
            st.text.drop (idx - st.offset + fullLen)
          offset := st.offset + (fullLen - inner.length)
          lastIndex := idx + fullLen }
      styleLoop tryAt style fuel st'

/-- The link loop: creates a `LINK` entity and an entity range per match. -/
def linkLoop : Nat → InlineState → InlineState
  | 0, st => st
  | fuel + 1, st =>
    match execFrom tryLinkAt st.text st.lastIndex with
    | none => { st with lastIndex := 0 }
    | some (idx, fullLen, linkText, url) =>
      let matchStart := idx - st.offset
      let st' :=
        { st with
          entityMap := st.entityMap ++
            [(st.entityKey, ⟨"LINK", "MUTABLE", some ⟨url⟩, none⟩)]
          entityRanges := st.entityRanges ++
            [⟨matchStart, linkText.length, st.entityKey⟩]
          entityKey := st.entityKey + 1
          text := st.text.take (idx - st.offset) ++ linkText ++
            st.text.drop (idx - st.offset + fullLen)
          offset := st.offset + (fullLen - linkText.length)
          lastIndex := idx + fullLen }
      linkLoop fuel st'

/-- Leading-token prefix classification of `parseMarkdownLine`. -/
def classifyLine (line : String) : String × String :=
  if startsWithS line "# " then ("header-one", dropS line 2)
  else if startsWithS line "## " then ("header-two", dropS line 3)
  else if startsWithS line "### " then ("header-three", dropS line 4)
  else if startsWithS line "#### " then ("header-four", dropS line 5)
  else if startsWithS line "##### " then ("header-five", dropS line 6)
  else if startsWithS line "###### " then ("header-six", dropS line 7)
  else if startsWithS line "> " then ("blockquote", dropS line 2)
  else if startsWithS line "- " || startsWithS line "* " then
    ("unordered-list-item", dropS line 2)
  else
    match line.data with
    | c :: _ =>
      if c.isDigit then
        let ds := line.data.takeWhile Char.isDigit
        match line.data.drop ds.length with
        | '.' :: w :: rest =>
          if w.isWhitespace then ("ordered-list-item", ⟨rest⟩)
          else ("unstyled", line)
        | _ => ("unstyled", line)
      else ("unstyled", line)
    | [] => ("unstyled", line)

/-- `parseMarkdownLine`: classify the block type, then run the four inline
loops in order (links, bold, italic, code). -/
def parseMarkdownLine (line : String) (em : List (Nat × MdEntity))
    (startEntityKey : Nat) (blockKey : String) :
    MdBlock × List (Nat × MdEntity) × Nat :=
  let (btype, text) := classifyLine line
  let st0 : InlineState :=
    ⟨text.data, 0, 0, [], [], em, startEntityKey⟩
  let st1 := linkLoop (st0.text.length + 1) st0
  let st2 := styleLoop tryBoldAt "BOLD" (st1.text.length + 1)
    { st1 with offset := 0, lastIndex := 0 }
  let st3 := styleLoop tryItalicAt "ITALIC" (st2.text.length + 1)
    { st2 with offset := 0, lastIndex := 0 }
  let st4 := styleLoop tryCodeAt "CODE" (st3.text.length + 1)
    { st3 with offset := 0, lastIndex := 0 }
  (⟨blockKey, btype, ⟨st4.text⟩, 0, st4.styles, st4.entityRanges⟩,
    st4.entityMap, st4.entityKey)

/-- The main line loop of `markdownToRawContent`; block keys come from a
counter (a deterministic stand-in for the random key generator — nothing in
the converter reads them back).  The loop is fuelled by the number of input
lines: every iteration consumes at least one line. -/
def buildBlocks : Nat → List String → List (Nat × MdEntity) → Nat → Nat →
    List MdBlock × List (Nat × MdEntity)
  | _, [], em, _, _ => ([], em)
  | 0, _, em, _, _ => ([], em)
  | fuel + 1, line :: rest, em, entityKey, keyCtr =>
    if jsTrim line = "" then buildBlocks fuel rest em entityKey keyCtr
    else if startsWithS line "```" then
      let codeLines := rest.takeWhile (fun l => ¬ startsWithS l "```")
      let rest' := (rest.drop codeLines.length).drop 1
      let blk : MdBlock :=
        ⟨"k" ++ toString keyCtr, "code-block",
          joinWith "\n" codeLines, 0, [], []⟩
      let (bs, em') := buildBlocks fuel rest' em entityKey (keyCtr + 1)
      (blk :: bs, em')
    else
      let (blk, em', ek') := parseMarkdownLine line em entityKey
        ("k" ++ toString keyCtr)
      let (bs, em'') := buildBlocks fuel rest em' ek' (keyCtr + 1)
      (blk :: bs, em'')

/-- `markdownToRawContent`. -/
def markdownToRawContent (markdown : String) : MdRaw :=
  let lines := splitLines markdown
  let (blocks, em) := buildBlocks lines.length lines [] 0 0
  if blocks.isEmpty then
    ⟨[⟨"k", "unstyled", "", 0, [], []⟩], em⟩
  else ⟨blocks, em⟩

/-! #### `isMarkdown` -/

/-- `/^#{1,6}\s/` on the trimmed line. -/
def patHeading (cs : List Char) : Bool :=
  let h := (cs.takeWhile (fun c => c = '#')).length
  decide (1 ≤ h) && decide (h ≤ 6) &&
    (match cs.drop h with
     | c :: _ => c.isWhitespace
     | [] => false)

/-- Whether `sub` occurs as a pair of adjacent stars (`\*\*`) somewhere. -/
def hasStarPair : List Char → Bool
  | '*' :: '*' :: _ => true
  | _ :: rest => hasStarPair rest
  | [] => false

/-- `/^\*\*.*\*\*/`. -/
def patBold (cs : List Char) : Bool :=
  match cs with
  | '*' :: '*' :: rest => hasStarPair rest
  | _ => false

/-- `/^\*.*\*/`. -/
def patItalic (cs : List Char) : Bool :=
  match cs with
  | '*' :: rest => rest.contains '*'
  | _ => false

/-- `` /^`.*`/ ``. -/
def patCode (cs : List Char) : Bool :=
  match cs with
  | '`' :: rest => rest.contains '`'
  | _ => false

/-- `/^```/`. -/
def patFence (cs : List Char) : Bool :=
  match cs with
  | '`' :: '`' :: '`' :: _ => true
  | _ => false

/-- Whether `](` occurs followed later by `)` (the tail of the link
pattern after an initial `[`). -/
def hasLinkTail : List Char → Bool
  | ']' :: '(' :: rest => rest.contains ')' || hasLinkTail ('(' :: rest)
  | _ :: rest => hasLinkTail rest
  | [] => false

/-- `/^\[.*\]\(.*\)/`. -/
def patLink (cs : List Char) : Bool :=
  match cs with
  | '[' :: rest => hasLinkTail rest
  | _ => false

/-- `/^>\s/`. -/
def patQuote (cs : List Char) : Bool :=
  match cs with
  | '>' :: c :: _ => c.isWhitespace
  | _ => false

/-- `/^[-*+]\s/`. -/
def patUl (cs : List Char) : Bool :=
  match cs with
  | c :: w :: _ => (c = '-' ∨ c = '*' ∨ c = '+') ∧ w.isWhitespace
  | _ => false

/-- `/^\d+\.\s/`. -/
def patOl (cs : List Char) : Bool :=
  match cs with
  | c :: _ =>
    c.isDigit &&
      (let ds := cs.takeWhile Char.isDigit
       match cs.drop ds.length with
       | '.' :: w :: _ => w.isWhitespace
       | _ => false)
  | [] => false

/-- Whether a line matches at least one Markdown pattern (tested against the
trimmed line, as in the source). -/
def matchesMarkdownLine (line : String) : Bool :=
  let cs := (jsTrim line).data
  patHeading cs || patBold cs || patItalic cs || patCode cs || patFence cs ||
    patLink cs || patQuote cs || patUl cs || patOl cs

/-- `isMarkdown`: more than 20% of all split lines match (the division is
modelled over the rationals). -/
def isMarkdown (content : String) : Bool :=
  let lines := splitLines content
  let markdownLineCount : Nat := lines.foldl (fun n l =>
    if matchesMarkdownLine l then n + 1 else n) 0
  ((markdownLineCount : ℚ) / (lines.length : ℚ) > 1 / 5 : Bool)

/-! #### Helper lemmas about `isMarkdown` -/

theorem count_foldl_eq_filter_length (p : String → Bool) (l : List String)
    (n : Nat) :
    l.foldl (fun n x => if p x then n + 1 else n) n = n + (l.filter p).length := by
  induction l generalizing n with
  | nil => simp
  | cons x xs ih =>
    by_cases h : p x
    · simp only [List.foldl_cons, List.filter_cons, h, if_pos, List.length_cons, ih]
      omega
    · simp [h, ih]

theorem ratio_gt_iff (c n : Nat) (hcn : c ≤ n) :
    ((c : ℚ) / (n : ℚ) > 1 / 5) ↔ 5 * c > n := by
  rcases Nat.eq_zero_or_pos n with hn | hn
  · subst hn
    interval_cases c
    simp
  · have hnq : (0 : ℚ) < (n : ℚ) := by exact_mod_cast hn
    rw [gt_iff_lt, div_lt_div_iff₀ (by norm_num) hnq]
    constructor
    · intro h
      have : (n : ℚ) < (c : ℚ) * 5 := by linarith
      have : (n : Nat) < c * 5 := by exact_mod_cast this
      omega
    · intro h
      have : (n : Nat) < 5 * c := h
      have : (n : ℚ) < 5 * (c : ℚ) := by exact_mod_cast this
      linarith

/-- Characterisation of `isMarkdown`: true iff strictly more than 20% of all
lines produced by splitting on newline (empty lines included in the
denominator) match a Markdown pattern. -/
theorem isMarkdown_iff (content : String) :
    isMarkdown content = true ↔
      5 * ((splitLines content).filter matchesMarkdownLine).length >
        (splitLines content).length := by
  unfold isMarkdown
  rw [decide_eq_true_iff]
  rw [count_foldl_eq_filter_length matchesMarkdownLine (splitLines content) 0]
  simp only [Nat.zero_add]
  exact ratio_gt_iff _ _ (List.length_filter_le _ _)

end Roam.Md

namespace Roam

/-! ### Lemmas about the JS-style containers -/

theorem lookup_eq_none_of_not_any {β : Type} (m : List (String × β))
    (k : String) (h : m.any (fun p => p.1 = k) = false) :
    m.lookup k = none := by
  induction m with
  | nil => rfl
  | cons p rest ih =>
    simp only [List.any_cons, Bool.or_eq_false_iff, decide_eq_false_iff_not] at h
    simp only [List.lookup]
    have : (k == p.1) = false := by
      simp only [beq_eq_false_iff_ne, ne_eq]
      exact fun hk => h.1 (hk ▸ rfl)
    rw [this]
    exact ih (by simpa using h.2)

theorem lookup_map_overwrite {β : Type} (m : List (String × β)) (k : String)
    (v : β) (h : m.any (fun p => p.1 = k) = true) :
    (m.map (fun p => if p.1 = k then (k, v) else p)).lookup k = some v := by
  induction m with
  | nil => simp at h
  | cons p rest ih =>
    by_cases hp : p.1 = k
    · rw [List.map_cons, if_pos hp]
      simp [List.lookup]
    · rw [List.map_cons, if_neg hp]
      have hne : (k == p.1) = false := by
        simp only [beq_eq_false_iff_ne, ne_eq]
        exact fun hk => hp hk.symm
      simp only [List.lookup, hne]
      apply ih
      simp only [List.any_cons, decide_eq_true_eq, Bool.or_eq_true] at h ⊢
      rcases h with h | h
      · exact absurd h hp
      · exact h

theorem lookup_map_keep {β : Type} (m : List (String × β)) (k k' : String)
    (v : β) (h : k' ≠ k) :
    (m.map (fun p => if p.1 = k then (k, v) else p)).lookup k' =
      m.lookup k' := by
  induction m with
  | nil => rfl
  | cons p rest ih =>
    by_cases hp : p.1 = k
    · rw [List.map_cons, if_pos hp]
      have h1 : (k' == k) = false := by
        simp only [beq_eq_false_iff_ne, ne_eq]; exact h
      have h2 : (k' == p.1) = false := by
        simp only [beq_eq_false_iff_ne, ne_eq]
        exact fun hk => h (hk.trans hp)
      simp only [List.lookup, h1, h2, ih]
    · rw [List.map_cons, if_neg hp]
      simp only [List.lookup]
      cases k' == p.1 with
      | true => rfl
      | false => exact ih

theorem lookup_mapSet_self {β : Type} (m : List (String × β)) (k : String)
    (v : β) : (mapSet m k v).lookup k = some v := by
  unfold mapSet
  by_cases h : m.any (fun p => p.1 = k)
  · rw [if_pos h]
    exact lookup_map_overwrite m k v h
  · rw [if_neg h, List.lookup_append,
      lookup_eq_none_of_not_any m k (by rwa [Bool.not_eq_true] at h)]
    simp [List.lookup]

theorem lookup_mapSet_ne {β : Type} (m : List (String × β)) (k k' : String)
    (v : β) (h : k' ≠ k) : (mapSet m k v).lookup k' = m.lookup k' := by
  unfold mapSet
  by_cases ha : m.any (fun p => p.1 = k)
  · rw [if_pos ha]
    exact lookup_map_keep m k k' v h
  · rw [if_neg ha, List.lookup_append]
    have h2 : (k' == k) = false := by
      simp only [beq_eq_false_iff_ne, ne_eq]; exact h
    have : List.lookup k' [(k, v)] = none := by
      simp [List.lookup, h2]
    rw [this]
    cases m.lookup k' <;> rfl

theorem mem_setAdd_iff (l : List String) (x y : String) :
    y ∈ setAdd l x ↔ y ∈ l ∨ y = x := by
  unfold setAdd
  by_cases h : l.contains x
  · simp only [h, if_true]
    constructor
    · exact Or.inl
    · rintro (hy | rfl)
      · exact hy
      · simpa using h
  · simp only [h, Bool.false_eq_true, if_false, List.mem_append,
      List.mem_singleton]

theorem mem_insertByTitle (T : TitleMap) (x y : String) (l : List String) :
    y ∈ insertByTitle T x l ↔ y ∈ l ∨ y = x := by
  induction l with
  | nil => simp [insertByTitle]
  | cons z zs ih =>
    unfold insertByTitle
    by_cases h : strLtB (jsToLower ((T.lookup x).getD ""))
        (jsToLower ((T.lookup z).getD ""))
    · simp only [h, if_true, List.mem_cons]
      tauto
    · simp only [h, Bool.false_eq_true, if_false, List.mem_cons, ih]
      tauto

theorem mem_sortByTitle (T : TitleMap) (vals : List String) (y : String) :
    y ∈ vals.foldr (insertByTitle T) [] ↔ y ∈ vals := by
  induction vals with
  | nil => simp
  | cons v vs ih =>
    simp only [List.foldr_cons, mem_insertByTitle, ih, List.mem_cons]
    tauto

theorem foldl_setAdd_mem (T : TitleMap) (vals : List String) :
    ∀ (acc : List String) (z : String),
      z ∈ vals.foldl (fun acc v =>
        if (T.lookup v).isSome then setAdd acc v else acc) acc →
      z ∈ acc ∨ (z ∈ vals ∧ (T.lookup z).isSome) := by
  induction vals with
  | nil => intro acc z hz; exact Or.inl hz
  | cons v vs ih =>
    intro acc z hz
    simp only [List.foldl_cons] at hz
    rcases ih _ z hz with hacc | ⟨hvs, hok⟩
    · by_cases hv : (T.lookup v).isSome
      · rw [if_pos hv, mem_setAdd_iff] at hacc
        rcases hacc with hacc | rfl
        · exact Or.inl hacc
        · exact Or.inr ⟨List.mem_cons_self _ _, hv⟩
      · rw [if_neg hv] at hacc
        exact Or.inl hacc
    · exact Or.inr ⟨List.mem_cons_of_mem _ hvs, hok⟩

theorem mem_ensureUniqueSorted (vals : List String) (T : TitleMap)
    (y : String) (h : y ∈ ensureUniqueSorted vals T) :
    y ∈ vals ∧ (T.lookup y).isSome := by
  unfold ensureUniqueSorted at h
  rw [mem_sortByTitle] at h
  rcases foldl_setAdd_mem T vals [] y h with hc | hc
  · simp at hc
  · exact hc

/-! ### Injectivity of the NUL join on clean id lists -/

def nulChar : Char := '\u0000'

/-- A string usable as a collision-free join component: non-empty and free
of the NUL separator. -/
def CleanStr (s : String) : Prop := s ≠ "" ∧ nulChar ∉ s.data

instance : DecidablePred CleanStr := fun s => by unfold CleanStr; infer_instance

theorem strData_inj {x y : String} (h : x.data = y.data) : x = y := by
  cases x; cases y; exact congrArg String.mk h

theorem nulfree_append_inj (a : List Char) :
    ∀ (b r s : List Char), nulChar ∉ a → nulChar ∉ b →
      a ++ nulChar :: r = b ++ nulChar :: s → a = b ∧ r = s := by
  induction a with
  | nil =>
    intro b r s _ hb h
    cases b with
    | nil => simpa using h
    | cons c bs =>
      simp only [List.nil_append, List.cons_append, List.cons.injEq] at h
      exact absurd (h.1 ▸ List.mem_cons_self c bs) hb
  | cons c as ih =>
    intro b r s ha hb h
    cases b with
    | nil =>
      simp only [List.cons_append, List.nil_append, List.cons.injEq] at h
      exact absurd (h.1 ▸ List.mem_cons_self c as) ha
    | cons c' bs =>
      simp only [List.cons_append, List.cons.injEq] at h
      obtain ⟨rfl, h2⟩ := h
      have := ih bs r s (fun hm => ha (List.mem_cons_of_mem _ hm))
        (fun hm => hb (List.mem_cons_of_mem _ hm)) h2
      exact ⟨by rw [this.1], this.2⟩

theorem nulString_data : ("\u0000" : String).data = [nulChar] := rfl

theorem joinNul_data_cons (x y : String) (xs : List String) :
    (joinNul (x :: y :: xs)).data =
      x.data ++ nulChar :: (joinNul (y :: xs)).data := by
  show (x ++ "\u0000" ++ joinNul (y :: xs)).data = _
  rw [String.data_append, String.data_append, nulString_data]
  simp

theorem joinNul_inj (l₁ : List String) :
    ∀ (l₂ : List String), (∀ s ∈ l₁, CleanStr s) → (∀ s ∈ l₂, CleanStr s) →
      joinNul l₁ = joinNul l₂ → l₁ = l₂ := by
  induction l₁ with
  | nil =>
    intro l₂ _ h2 h
    cases l₂ with
    | nil => rfl
    | cons y ys =>
      exfalso
      cases ys with
      | nil =>
        exact (h2 y (List.mem_cons_self _ _)).1 (by simpa [joinNul, joinWith] using h.symm)
      | cons y2 ys2 =>
        have hd := congrArg String.data h
        rw [joinNul_data_cons] at hd
        have hempty : (joinNul ([] : List String)).data = [] := rfl
        rw [hempty] at hd
        rcases List.append_eq_nil.mp hd.symm with ⟨_, h3⟩
        exact List.noConfusion h3
  | cons x xs ih =>
    intro l₂ h1 h2 h
    cases l₂ with
    | nil =>
      exfalso
      cases xs with
      | nil =>
        exact (h1 x (List.mem_cons_self _ _)).1 (by simpa [joinNul, joinWith] using h)
      | cons x2 xs2 =>
        have hd := congrArg String.data h
        rw [joinNul_data_cons] at hd
        have hempty : (joinNul ([] : List String)).data = [] := rfl
        rw [hempty] at hd
        rcases List.append_eq_nil.mp hd with ⟨_, h3⟩
        exact List.noConfusion h3
    | cons y ys =>
      cases xs with
      | nil =>
        cases ys with
        | nil => simpa [joinNul, joinWith] using h
        | cons y2 ys2 =>
          exfalso
          have hd := congrArg String.data h
          have hx : (joinNul [x]).data = x.data := rfl
          rw [hx, joinNul_data_cons] at hd
          exact (h1 x (List.mem_cons_self _ _)).2
            (hd ▸ List.mem_append_right _ (List.mem_cons_self _ _))
      | cons x2 xs2 =>
        cases ys with
        | nil =>
          exfalso
          have hd := congrArg String.data h
          have hy : (joinNul [y]).data = y.data := rfl
          rw [hy, joinNul_data_cons] at hd
          exact (h2 y (List.mem_cons_self _ _)).2
            (hd ▸ List.mem_append_right _ (List.mem_cons_self _ _))
        | cons y2 ys2 =>
          have hd := congrArg String.data h
          rw [joinNul_data_cons, joinNul_data_cons] at hd
          obtain ⟨hxy, hrest⟩ := nulfree_append_inj x.data y.data
            (joinNul (x2 :: xs2)).data (joinNul (y2 :: ys2)).data
            (h1 x (List.mem_cons_self _ _)).2 (h2 y (List.mem_cons_self _ _)).2 hd
          have hx : x = y := strData_inj hxy
          have htail : x2 :: xs2 = y2 :: ys2 := by
            apply ih (y2 :: ys2)
              (fun s hs => h1 s (List.mem_cons_of_mem _ hs))
              (fun s hs => h2 s (List.mem_cons_of_mem _ hs))
            exact strData_inj hrest
          rw [hx, htail]

/-! ### Inbound-map invariants -/

theorem keys_mapSet {β : Type} (m : List (String × β)) (k : String) (v : β)
    (z : String) (h : z ∈ (mapSet m k v).map Prod.fst) :
    z ∈ m.map Prod.fst ∨ z = k := by
  unfold mapSet at h
  by_cases ha : m.any (fun p => p.1 = k)
  · rw [if_pos ha] at h
    rw [List.map_map] at h
    rcases List.mem_map.mp h with ⟨p, hp, hz⟩
    by_cases hpk : p.1 = k
    · right
      simp only [Function.comp, if_pos hpk] at hz
      exact hz.symm
    · left
      simp only [Function.comp, if_neg hpk] at hz
      exact hz ▸ List.mem_map.mpr ⟨p, hp, rfl⟩
  · rw [if_neg ha, List.map_append] at h
    rcases List.mem_append.mp h with h | h
    · exact Or.inl h
    · simp only [List.map_cons, List.map_nil, List.mem_singleton] at h
      exact Or.inr h

theorem keys_buildOutboundMap (notes : List MNote) (T : TitleMap)
    (z : String) (h : z ∈ (buildOutboundMap notes T).map Prod.fst) :
    z ∈ notes.map MNote.id := by
  unfold buildOutboundMap at h
  suffices main : ∀ (m : List (String × List String)),
      z ∈ (notes.foldl (fun m n => mapSet m n.id (analyzeNoteContent n T).1) m).map Prod.fst →
      z ∈ m.map Prod.fst ∨ z ∈ notes.map MNote.id by
    rcases main [] h with hc | hc
    · simp at hc
    · exact hc
  clear h
  induction notes with
  | nil => intro m hm; exact Or.inl hm
  | cons n ns ih =>
    intro m hm
    simp only [List.foldl_cons] at hm
    rcases ih _ hm with hc | hc
    · rcases keys_mapSet m n.id _ z hc with hc2 | hc2
      · exact Or.inl hc2
      · exact Or.inr (hc2 ▸ List.mem_map.mpr ⟨n, List.mem_cons_self _ _, rfl⟩)
    · exact Or.inr (by
        rcases List.mem_map.mp hc with ⟨a, ha, rfl⟩
        exact List.mem_map.mpr ⟨a, List.mem_cons_of_mem _ ha, rfl⟩)

/-- Invariant of the inbound map: no key is a member of its own value list,
and every member of a value list is a key of the outbound map. -/
def InboundInv (om : List (String × List String))
    (im : List (String × List String)) : Prop :=
  ∀ t l, im.lookup t = some l → t ∉ l ∧ ∀ z ∈ l, z ∈ om.map Prod.fst

theorem inboundInv_base (om : List (String × List String))
    (notes : List MNote) :
    InboundInv om (notes.foldl (fun m n => mapSet m n.id ([] : List String)) []) := by
  suffices main : ∀ (m : List (String × List String)), InboundInv om m →
      InboundInv om (notes.foldl (fun m n => mapSet m n.id ([] : List String)) m) by
    apply main
    intro t l hl
    simp [List.lookup] at hl
  induction notes with
  | nil => intro m hm; exact hm
  | cons n ns ih =>
    intro m hm
    simp only [List.foldl_cons]
    apply ih
    intro t l hl
    by_cases ht : t = n.id
    · subst ht
      rw [lookup_mapSet_self] at hl
      cases hl
      exact ⟨List.not_mem_nil _, by simp⟩
    · rw [lookup_mapSet_ne _ _ _ _ ht] at hl
      exact hm t l hl

theorem inboundInv_inner (om : List (String × List String)) (src : String)
    (hsrc : ∀ z : String, z = src → z ∈ om.map Prod.fst)
    (outs : List String) :
    ∀ (im : List (String × List String)), InboundInv om im →
      InboundInv om (outs.foldl (fun im tgt =>
        if tgt = src then im
        else
          match im.lookup tgt with
          | some s => mapSet im tgt (setAdd s src)
          | none => im) im) := by
  induction outs with
  | nil => intro im him; exact him
  | cons tgt rest ih =>
    intro im him
    simp only [List.foldl_cons]
    apply ih
    by_cases htgt : tgt = src
    · rw [if_pos htgt]; exact him
    · rw [if_neg htgt]
      cases hl : im.lookup tgt with
      | none => exact him
      | some s =>
        intro t l hlt
        by_cases ht : t = tgt
        · subst ht
          rw [lookup_mapSet_self] at hlt
          cases hlt
          constructor
          · intro hmem
            rcases (mem_setAdd_iff s src t).mp hmem with hmem | rfl
            · exact (him t s hl).1 hmem
            · exact htgt rfl
          · intro z hz
            rcases (mem_setAdd_iff s src z).mp hz with hz | hzs
            · exact (him t s hl).2 z hz
            · exact hzs ▸ hsrc src rfl
        · rw [lookup_mapSet_ne _ _ _ _ ht] at hlt
          exact him t l hlt

theorem inboundInv_build (notes : List MNote)
    (om : List (String × List String)) :
    InboundInv om (buildInboundMap notes om) := by
  unfold buildInboundMap
  suffices main : ∀ (suffix : List (String × List String))
      (im : List (String × List String)),
      (∀ p ∈ suffix, p.1 ∈ om.map Prod.fst) → InboundInv om im →
      InboundInv om (suffix.foldl (fun im p =>
        p.2.foldl (fun im tgt =>
          if tgt = p.1 then im
          else
            match im.lookup tgt with
            | some s => mapSet im tgt (setAdd s p.1)
            | none => im) im) im) by
    apply main om _ (fun p hp => List.mem_map.mpr ⟨p, hp, rfl⟩)
      (inboundInv_base om notes)
  intro suffix
  induction suffix with
  | nil => intro im _ him; exact him
  | cons p rest ihs =>
    intro im hmem him
    simp only [List.foldl_cons]
    apply ihs _ (fun q hq => hmem q (List.mem_cons_of_mem _ hq))
    exact inboundInv_inner om p.1
      (fun z hz => hz ▸ hmem p (List.mem_cons_self _ _)) p.2 im him

/-! ### Analysis-level lemmas -/

/-- Every id the scan adds to the outbound set resolves in the title map. -/
theorem processRange_outbound_live (T : TitleMap) (bk : String)
    (acc : AnalyzeAcc) (r : Nat × Nat × Nat) (id : String)
    (hmem : id ∈ (processRange T bk acc r).outbound) :
    id ∈ acc.outbound ∨ (T.lookup id).isSome := by
  unfold processRange at hmem
  simp only [] at hmem
  split at hmem
  · rename_i nid hnid
    split at hmem
    · rename_i t ht
      simp only at hmem
      rcases (mem_setAdd_iff acc.outbound nid id).mp hmem with hmem | rfl
      · exact Or.inl hmem
      · exact Or.inr (by rw [ht]; rfl)
    · exact Or.inl hmem
  · exact Or.inl hmem

theorem foldl_processRange_outbound_live (T : TitleMap) (bk : String)
    (ranges : List (Nat × Nat × Nat)) :
    ∀ (acc : AnalyzeAcc) (id : String),
      id ∈ (ranges.foldl (processRange T bk) acc).outbound →
      id ∈ acc.outbound ∨ (T.lookup id).isSome := by
  induction ranges with
  | nil => intro acc id h; exact Or.inl h
  | cons r rest ih =>
    intro acc id h
    simp only [List.foldl_cons] at h
    rcases ih _ id h with hc | hc
    · exact processRange_outbound_live T bk acc r id hc
    · exact Or.inr hc

theorem processBlock_outbound_live (T : TitleMap) (acc : AnalyzeAcc)
    (bk : String) (id : String)
    (hmem : id ∈ (processBlock T acc bk).outbound) :
    id ∈ acc.outbound ∨ (T.lookup id).isSome := by
  unfold processBlock at hmem
  split at hmem
  · exact Or.inl hmem
  · simp only [] at hmem
    split at hmem
    · exact Or.inl hmem
    · exact foldl_processRange_outbound_live T bk _ acc id hmem

theorem foldl_processBlock_outbound_live (T : TitleMap) (keys : List String) :
    ∀ (acc : AnalyzeAcc) (id : String),
      id ∈ (keys.foldl (processBlock T) acc).outbound →
      id ∈ acc.outbound ∨ (T.lookup id).isSome := by
  induction keys with
  | nil => intro acc id h; exact Or.inl h
  | cons bk rest ih =>
    intro acc id h
    simp only [List.foldl_cons] at h
    rcases ih _ id h with hc | hc
    · exact processBlock_outbound_live T acc bk id hc
    · exact Or.inr hc

/-- `analyzeNoteContent` only reports outbound ids that resolve in the title
map. -/
theorem analyze_outbound_live (n : MNote) (T : TitleMap) (id : String)
    (h : id ∈ (analyzeNoteContent n T).1) : (T.lookup id).isSome := by
  unfold analyzeNoteContent at h
  cases hc : n.content with
  | malformed tag =>
    rw [hc] at h
    simp at h
  | jsonOf r canonical =>
    rw [hc] at h
    simp only at h
    rcases foldl_processBlock_outbound_live T _ _ id h with hc2 | hc2
    · simp at hc2
    · exact hc2

/-- A block with no NOTE_LINK ranges is left untouched by the scan. -/
theorem processBlock_no_ranges (T : TitleMap) (acc : AnalyzeAcc) (bk : String)
    (h : ∀ b ∈ acc.state.blocks, b.key = bk →
      linkRuns acc.state.entityMap b.chars = []) :
    processBlock T acc bk = acc := by
  unfold processBlock
  split
  · rfl
  · rename_i b hf
    have hb : b ∈ acc.state.blocks := List.mem_of_find?_eq_some hf
    have hkey : b.key = bk := by simpa using List.find?_some hf
    rw [h b hb hkey]
    rfl

/-! ### Idempotence machinery: spans, liveness, entity-map evolution

The scan in `analyzeNoteContent` rewrites every NOTE_LINK run to a settled
span and merges resolved titles into the entity map.  The lemmas below
characterise that behaviour well enough to show that a second scan of the
re-serialized result is the identity.
-/

/-- The `data` record of an entity (`entity.getData() ?? {}`). -/
def entityData (em : EntityMap) (k : Nat) : DataMap :=
  match em.lookup k with
  | some e => e.data
  | none => []

theorem entityData_eq (em : EntityMap) (k : Nat) :
    entityData em k = ((em.lookup k).map Entity.data).getD [] := by
  unfold entityData
  cases em.lookup k <;> rfl

/-- The `data` payload merged into a live entity. -/
def livePayload (id t : String) : DataMap :=
  [("noteId", .str id), ("title", .str t)]

/-- The id a NOTE_LINK entity resolves to, when it is live. -/
def runLive (em : EntityMap) (T : TitleMap) (k : Nat) : Option String :=
  match sanitizeLinkId ((entityData em k).lookup "noteId") with
  | some id => if (T.lookup id).isSome then some id else none
  | none => none

/-- The replacement text of a broken (unresolved) range. -/
def brokenSpan (em : EntityMap) (k : Nat) : List CChar :=
  ("[[" ++ (storedTitleOf (entityData em k)).getD "Untitled" ++ "]]").data.map
    (fun c => ⟨c, [], none⟩)

/-- The replacement text of a live range resolving to `id`. -/
def liveSpan (T : TitleMap) (id : String) (k : Nat) : List CChar :=
  ("[[" ++ ((T.lookup id).getD "") ++ "]]").data.map (fun c => ⟨c, [], some k⟩)

/-- The characters a processed range is replaced with. -/
def spanFor (em : EntityMap) (T : TitleMap) (k : Nat) : List CChar :=
  match runLive em T k with
  | some id => liveSpan T id k
  | none => brokenSpan em k

/-- The entity-map part of `mergeEntityDataM`. -/
def mergeEmData (em : EntityMap) (k : Nat) (new : DataMap) : EntityMap :=
  em.map (fun p =>
    if p.1 = k then (p.1, { p.2 with data := mergeData p.2.data new }) else p)

theorem mergeEntityDataM_em (S : ContentState) (k : Nat) (new : DataMap) :
    mergeEntityDataM S k new =
      { S with entityMap := mergeEmData S.entityMap k new } := rfl

/-- The relation between the entity map at the start of the scan and any of
its later states: `noteId` fields and entity types never change, and
entities that are not live are never touched at all. -/
def EmEvolved (T : TitleMap) (em0 em : EntityMap) : Prop :=
  (∀ k, (entityData em k).lookup "noteId" = (entityData em0 k).lookup "noteId") ∧
  (∀ k, (em.lookup k).map Entity.etype = (em0.lookup k).map Entity.etype) ∧
  (∀ k, runLive em0 T k = none → em.lookup k = em0.lookup k)

theorem emEvolved_refl (T : TitleMap) (em : EntityMap) : EmEvolved T em em :=
  ⟨fun _ => rfl, fun _ => rfl, fun _ _ => rfl⟩

theorem emEvolved_runLive {T : TitleMap} {em0 em : EntityMap}
    (h : EmEvolved T em0 em) (k : Nat) : runLive em T k = runLive em0 T k := by
  unfold runLive
  rw [h.1 k]

theorem emEvolved_trans {T : TitleMap} {em0 em1 em2 : EntityMap}
    (h1 : EmEvolved T em0 em1) (h2 : EmEvolved T em1 em2) :
    EmEvolved T em0 em2 := by
  refine ⟨fun k => (h2.1 k).trans (h1.1 k), fun k => (h2.2.1 k).trans (h1.2.1 k),
    fun k hk => ?_⟩
  have hk1 : runLive em1 T k = none := by
    rw [emEvolved_runLive h1 k]; exact hk
  exact (h2.2.2 k hk1).trans (h1.2.2 k hk)

theorem emEvolved_isLinkChar {T : TitleMap} {em0 em : EntityMap}
    (h : EmEvolved T em0 em) (c : CChar) : isLinkChar em c = isLinkChar em0 c := by
  have ht := h.2.1
  cases hc : c.entity with
  | none => simp [isLinkChar, hc]
  | some k =>
    simp only [isLinkChar, hc]
    have hety := ht k
    cases h0 : List.lookup k em0 with
    | none =>
      rw [h0] at hety
      cases hm : List.lookup k em with
      | none => rfl
      | some e => rw [hm] at hety; simp at hety
    | some e0 =>
      rw [h0] at hety
      cases hm : List.lookup k em with
      | none => rw [hm] at hety; simp at hety
      | some e =>
        rw [hm] at hety
        simp at hety
        simp only [hety]

theorem brokenSpan_congr {em0 em : EntityMap} {k : Nat}
    (h : em.lookup k = em0.lookup k) : brokenSpan em k = brokenSpan em0 k := by
  unfold brokenSpan entityData
  rw [h]

theorem emEvolved_spanFor {T : TitleMap} {em0 em : EntityMap}
    (h : EmEvolved T em0 em) (k : Nat) : spanFor em T k = spanFor em0 T k := by
  unfold spanFor
  rw [emEvolved_runLive h k]
  cases hr : runLive em0 T k with
  | some id => rfl
  | none =>
    show brokenSpan em k = brokenSpan em0 k
    exact brokenSpan_congr (h.2.2 k hr)

theorem emEvolved_linkRunsGo {T : TitleMap} {em0 em : EntityMap}
    (h : EmEvolved T em0 em) :
    ∀ (cs : List CChar) (i : Nat) (st : Option (Nat × Nat)),
      linkRunsGo em i st cs = linkRunsGo em0 i st cs := by
  intro cs
  induction cs with
  | nil => intro i st; cases st <;> rfl
  | cons c cs ih =>
    intro i st
    cases st with
    | none =>
      show linkRunsGo em i none (c :: cs) = linkRunsGo em0 i none (c :: cs)
      unfold linkRunsGo
      rw [emEvolved_isLinkChar h c]
      cases isLinkChar em0 c <;> simp only [ih]
    | some sk =>
      obtain ⟨s, k⟩ := sk
      show linkRunsGo em i (some (s, k)) (c :: cs) =
        linkRunsGo em0 i (some (s, k)) (c :: cs)
      unfold linkRunsGo
      rw [emEvolved_isLinkChar h c]
      cases hc : isLinkChar em0 c with
      | none => simp only [ih]
      | some k2 =>
        by_cases hk : k2 = k
        · simp [hk, ih]
        · simp [hk, ih]

theorem emEvolved_linkRuns {T : TitleMap} {em0 em : EntityMap}
    (h : EmEvolved T em0 em) (cs : List CChar) :
    linkRuns em cs = linkRuns em0 cs :=
  emEvolved_linkRunsGo h cs 0 none

/-! ### Entity-data merge lemmas -/

theorem sanitizeLinkId_eq_some {o : Option DVal} {id : String}
    (h : sanitizeLinkId o = some id) :
    o = some (.str id) ∧ 0 < (jsTrim id).length := by
  match o with
  | some (.str s) =>
    have h2 : (if (jsTrim s).length > 0 then some s else none) = some id := h
    by_cases hg : (jsTrim s).length > 0
    · rw [if_pos hg] at h2
      cases h2
      exact ⟨rfl, hg⟩
    · rw [if_neg hg] at h2
      cases h2
  | some (.other n) => cases h
  | none => cases h

theorem runLive_eq_some {em : EntityMap} {T : TitleMap} {k : Nat} {id : String}
    (h : runLive em T k = some id) :
    (entityData em k).lookup "noteId" = some (.str id) ∧
      (T.lookup id).isSome = true ∧ 0 < (jsTrim id).length := by
  unfold runLive at h
  cases hs : sanitizeLinkId ((entityData em k).lookup "noteId") with
  | none => rw [hs] at h; cases h
  | some id2 =>
    rw [hs] at h
    have h2 : (if (T.lookup id2).isSome = true then some id2 else none) =
      some id := h
    by_cases ht : (T.lookup id2).isSome = true
    · rw [if_pos ht] at h2
      cases h2
      obtain ⟨ho, hj⟩ := sanitizeLinkId_eq_some hs
      exact ⟨ho, ht, hj⟩
    · rw [if_neg ht] at h2
      cases h2

theorem lookup_mapPart (old new : DataMap) (k : String) :
    (old.map (fun p => (p.1, (new.lookup p.1).getD p.2))).lookup k =
      (old.lookup k).map (fun v => (new.lookup k).getD v) := by
  induction old with
  | nil => rfl
  | cons p rest ih =>
    obtain ⟨x, v⟩ := p
    simp only [List.map_cons, List.lookup_cons]
    cases hk : k == x with
    | false => exact ih
    | true =>
      have hkp : k = x := eq_of_beq hk
      subst hkp
      rfl

theorem lookup_filter_key {α β : Type} [BEq α] [LawfulBEq α]
    (p : α → Bool) (m : List (α × β)) (k : α) (hk : p k = true) :
    (m.filter (fun q => p q.1)).lookup k = m.lookup k := by
  induction m with
  | nil => rfl
  | cons q qs ih =>
    obtain ⟨x, v⟩ := q
    rw [List.filter_cons]
    by_cases hx : p (x, v).1 = true
    · rw [if_pos hx]
      rw [List.lookup_cons, List.lookup_cons]
      cases hk2 : k == x with
      | true => rfl
      | false => exact ih
    · rw [if_neg hx]
      cases hk2 : k == x with
      | true =>
        have hkx : k = x := eq_of_beq hk2
        subst hkx
        rw [hk] at hx
        exact absurd rfl hx
      | false =>
        rw [ih, List.lookup_cons, hk2]

theorem lookup_mergeData (old new : DataMap) (k : String) :
    (mergeData old new).lookup k =
      match old.lookup k with
      | some v => some ((new.lookup k).getD v)
      | none => new.lookup k := by
  unfold mergeData
  rw [List.lookup_append, lookup_mapPart]
  cases h : old.lookup k with
  | some v => rfl
  | none =>
    show (new.filter (fun q => (List.lookup q.1 old).isNone)).lookup k =
      new.lookup k
    refine lookup_filter_key (fun x => (List.lookup x old).isNone) new k ?_
    show (List.lookup k old).isNone = true
    rw [h]
    rfl

theorem mergeData_merge_self (old new : DataMap)
    (hnew : ∀ q ∈ new, new.lookup q.1 = some q.2) :
    mergeData (mergeData old new) new = mergeData old new := by
  have hval : ∀ q ∈ mergeData old new, (new.lookup q.1).getD q.2 = q.2 := by
    intro q hq
    unfold mergeData at hq
    rcases List.mem_append.mp hq with hq | hq
    · obtain ⟨x, hx, hxq⟩ := List.mem_map.mp hq
      cases hn : new.lookup x.1 with
      | none =>
        have hq1 : q.1 = x.1 := by rw [← hxq]
        rw [hq1, hn]
        rfl
      | some w =>
        have hq1 : q.1 = x.1 := by rw [← hxq]
        have hq2 : q.2 = w := by rw [← hxq]; simp [hn]
        rw [hq1, hq2, hn]
        rfl
    · have hq2 := List.mem_of_mem_filter hq
      rw [hnew q hq2]
      rfl
  have hmap : ∀ l : DataMap, (∀ q ∈ l, (new.lookup q.1).getD q.2 = q.2) →
      l.map (fun p => (p.1, (new.lookup p.1).getD p.2)) = l := by
    intro l
    induction l with
    | nil => intro h2; rfl
    | cons q qs ih =>
      intro h2
      obtain ⟨a, b⟩ := q
      have h1 : (new.lookup a).getD b = b :=
        h2 (a, b) (List.mem_cons_self _ _)
      show (a, (new.lookup a).getD b) :: qs.map
        (fun p => (p.1, (new.lookup p.1).getD p.2)) = (a, b) :: qs
      rw [h1, ih (fun r hr => h2 r (List.mem_cons_of_mem _ hr))]
  have hfil : new.filter
      (fun p => (List.lookup p.1 (mergeData old new)).isNone) = [] := by
    rw [List.filter_eq_nil_iff]
    intro q hq
    rw [lookup_mergeData]
    cases h : old.lookup q.1 with
    | some v => simp
    | none =>
      rw [hnew q hq]
      simp
  have hdef : mergeData (mergeData old new) new =
      (mergeData old new).map (fun p => (p.1, (new.lookup p.1).getD p.2)) ++
        new.filter (fun p => (List.lookup p.1 (mergeData old new)).isNone) := rfl
  rw [hdef, hmap (mergeData old new) hval, hfil, List.append_nil]

theorem livePayload_noteId (id t : String) :
    (livePayload id t).lookup "noteId" = some (.str id) := by
  simp [livePayload, List.lookup]

theorem livePayload_title (id t : String) :
    (livePayload id t).lookup "title" = some (.str t) := by
  simp [livePayload, List.lookup]

theorem livePayload_self (id t : String) :
    ∀ q ∈ livePayload id t, (livePayload id t).lookup q.1 = some q.2 := by
  intro q hq
  simp only [livePayload, List.mem_cons, List.not_mem_nil, or_false] at hq
  rcases hq with rfl | rfl
  · exact livePayload_noteId id t
  · exact livePayload_title id t

theorem lookup_mergeEmData_self (em : EntityMap) (k : Nat) (new : DataMap) :
    (mergeEmData em k new).lookup k =
      (em.lookup k).map (fun e => { e with data := mergeData e.data new }) := by
  unfold mergeEmData
  induction em with
  | nil => rfl
  | cons p rest ih =>
    obtain ⟨x, e⟩ := p
    simp only [List.map_cons]
    by_cases hx : x = k
    · rw [if_pos hx]
      subst hx
      rw [List.lookup_cons, List.lookup_cons, beq_self_eq_true]
      rfl
    · rw [if_neg hx]
      have hb : (k == x) = false := by
        simp only [beq_eq_false_iff_ne, ne_eq]
        exact fun hkx => hx hkx.symm
      rw [List.lookup_cons, List.lookup_cons, hb]
      exact ih

theorem lookup_mergeEmData_ne (em : EntityMap) (k j : Nat) (new : DataMap)
    (hj : j ≠ k) :
    (mergeEmData em k new).lookup j = em.lookup j := by
  unfold mergeEmData
  induction em with
  | nil => rfl
  | cons p rest ih =>
    obtain ⟨x, e⟩ := p
    simp only [List.map_cons]
    by_cases hx : x = k
    · rw [if_pos hx]
      subst hx
      have hb : (j == x) = false := by
        simp only [beq_eq_false_iff_ne, ne_eq]
        exact hj
      rw [List.lookup_cons, List.lookup_cons, hb]
      exact ih
    · rw [if_neg hx]
      rw [List.lookup_cons, List.lookup_cons]
      cases j == x with
      | true => rfl
      | false => exact ih

theorem emEvolved_merge {T : TitleMap} {em0 em : EntityMap} {k : Nat}
    {id : String} (t : String)
    (h : EmEvolved T em0 em) (hl : runLive em0 T k = some id) :
    EmEvolved T em0 (mergeEmData em k (livePayload id t)) := by
  have h0 := (runLive_eq_some hl).1
  have h1 : (entityData em k).lookup "noteId" = some (.str id) :=
    (h.1 k).trans h0
  refine ⟨fun j => ?_, fun j => ?_, fun j hj => ?_⟩
  · by_cases hjk : j = k
    · subst hjk
      unfold entityData at h1 ⊢
      rw [lookup_mergeEmData_self]
      cases hm : em.lookup j with
      | none =>
        rw [hm] at h1
        cases h1
      | some e =>
        rw [hm] at h1
        have h2 : e.data.lookup "noteId" = some (.str id) := h1
        show (mergeData e.data (livePayload id t)).lookup "noteId" =
          (entityData em0 j).lookup "noteId"
        rw [lookup_mergeData, h2, livePayload_noteId]
        unfold entityData at h0
        rw [← h.1 j]
        unfold entityData
        rw [hm]
        exact h2.symm
    · unfold entityData
      rw [lookup_mergeEmData_ne em k j _ hjk]
      exact h.1 j
  · by_cases hjk : j = k
    · subst hjk
      rw [lookup_mergeEmData_self]
      cases hm : em.lookup j with
      | none =>
        have := h.2.1 j
        rw [hm] at this
        rw [← this]
        rfl
      | some e =>
        have := h.2.1 j
        rw [hm] at this
        rw [← this]
        rfl
    · rw [lookup_mergeEmData_ne em k j _ hjk]
      exact h.2.1 j
  · by_cases hjk : j = k
    · subst hjk
      rw [hl] at hj
      cases hj
    · rw [lookup_mergeEmData_ne em k j _ hjk]
      exact h.2.2 j hj

/-! ### Settled characters and pure models of the scan -/

/-- The characters a block settles to: every NOTE_LINK run is replaced by
its span, scanning with the same open-run state machine as `linkRunsGo`. -/
def settleGo (em : EntityMap) (T : TitleMap) :
    Option Nat → List CChar → List CChar
  | none, [] => []
  | some k, [] => spanFor em T k
  | none, c :: cs =>
    match isLinkChar em c with
    | none => c :: settleGo em T none cs
    | some k => settleGo em T (some k) cs
  | some k, c :: cs =>
    match isLinkChar em c with
    | none => spanFor em T k ++ c :: settleGo em T none cs
    | some k2 =>
      if k2 = k then settleGo em T (some k) cs
      else spanFor em T k ++ settleGo em T (some k2) cs

def settleChars (em : EntityMap) (T : TitleMap) (cs : List CChar) :
    List CChar :=
  settleGo em T none cs

/-- `replaceInBlock` at the character-list level. -/
def splice (cs : List CChar) (s e : Nat) (repl : List CChar) : List CChar :=
  cs.take s ++ repl ++ cs.drop e

/-- Live ids of a run list, in run order. -/
def liveIdsOf (em : EntityMap) (T : TitleMap)
    (rs : List (Nat × Nat × Nat)) : List String :=
  rs.filterMap (fun r => runLive em T r.2.2)

/-- The pure effect of a run-list fold on the block's characters. -/
def applyRuns (em : EntityMap) (T : TitleMap) (cs : List CChar)
    (rs : List (Nat × Nat × Nat)) : List CChar :=
  rs.foldl (fun l r => splice l r.1 r.2.1 (spanFor em T r.2.2)) cs

/-- The pure effect of a run-list fold on the entity map. -/
def applyMerges (em0 : EntityMap) (T : TitleMap) (em : EntityMap)
    (rs : List (Nat × Nat × Nat)) : EntityMap :=
  rs.foldl (fun m r =>
    match runLive em0 T r.2.2 with
    | some id => mergeEmData m r.2.2 (livePayload id ((T.lookup id).getD ""))
    | none => m) em

/-! ### Structure of `linkRunsGo` traces -/

theorem linkRunsGo_shift (em : EntityMap) (n : Nat) :
    ∀ (cs : List CChar) (i : Nat) (st : Option (Nat × Nat)),
      linkRunsGo em (i + n) (st.map (fun p => (p.1 + n, p.2))) cs =
        (linkRunsGo em i st cs).map
          (fun r => (r.1 + n, r.2.1 + n, r.2.2)) := by
  intro cs
  induction cs with
  | nil =>
    intro i st
    cases st with
    | none => rfl
    | some p => obtain ⟨s, k⟩ := p; rfl
  | cons c cs ih =>
    intro i st
    cases st with
    | none =>
      show linkRunsGo em (i + n) none (c :: cs) = _
      unfold linkRunsGo
      cases isLinkChar em c with
      | none =>
        have h := ih (i + 1) none
        rw [Nat.add_right_comm] at h
        exact h
      | some k =>
        have h := ih (i + 1) (some (i, k))
        rw [Nat.add_right_comm] at h
        exact h
    | some sk =>
      obtain ⟨s, k⟩ := sk
      show linkRunsGo em (i + n) (some (s + n, k)) (c :: cs) = _
      unfold linkRunsGo
      cases isLinkChar em c with
      | none =>
        simp only [List.map_cons]
        have h : linkRunsGo em (i + 1 + n) none cs =
            List.map (fun r => (r.1 + n, r.2.1 + n, r.2.2))
              (linkRunsGo em (i + 1) none cs) := ih (i + 1) none
        rw [Nat.add_right_comm] at h
        rw [h]
      | some k2 =>
        by_cases hk : k2 = k
        · simp only [if_pos hk]
          have h : linkRunsGo em (i + 1 + n) (some (s + n, k)) cs =
              List.map (fun r => (r.1 + n, r.2.1 + n, r.2.2))
                (linkRunsGo em (i + 1) (some (s, k)) cs) :=
            ih (i + 1) (some (s, k))
          rw [Nat.add_right_comm] at h
          exact h
        · simp only [if_neg hk, List.map_cons]
          have h : linkRunsGo em (i + 1 + n) (some (i + n, k2)) cs =
              List.map (fun r => (r.1 + n, r.2.1 + n, r.2.2))
                (linkRunsGo em (i + 1) (some (i, k2)) cs) :=
            ih (i + 1) (some (i, k2))
          rw [Nat.add_right_comm] at h
          rw [h]

theorem linkRunsGo_le (em : EntityMap) :
    ∀ (cs : List CChar) (i : Nat),
      (∀ r ∈ linkRunsGo em i none cs, i ≤ r.1 ∧ r.1 < r.2.1) ∧
      (∀ s k, s < i → ∀ r ∈ linkRunsGo em i (some (s, k)) cs,
        s ≤ r.1 ∧ r.1 < r.2.1) := by
  intro cs
  induction cs with
  | nil =>
    intro i
    refine ⟨fun r hr => absurd hr (List.not_mem_nil r), fun s k hs r hr => ?_⟩
    rw [show linkRunsGo em i (some (s, k)) [] = [(s, i, k)] from rfl] at hr
    rcases List.mem_singleton.mp hr with rfl
    exact ⟨Nat.le_refl s, hs⟩
  | cons c cs ih =>
    intro i
    constructor
    · intro r hr
      rw [show linkRunsGo em i none (c :: cs) =
        (match isLinkChar em c with
          | none => linkRunsGo em (i + 1) none cs
          | some k => linkRunsGo em (i + 1) (some (i, k)) cs) from rfl] at hr
      cases hc : isLinkChar em c with
      | none =>
        rw [hc] at hr
        have := ((ih (i + 1)).1 r hr)
        exact ⟨Nat.le_of_succ_le this.1, this.2⟩
      | some k =>
        rw [hc] at hr
        have := (ih (i + 1)).2 i k (Nat.lt_succ_self i) r hr
        exact this
    · intro s k hs r hr
      rw [show linkRunsGo em i (some (s, k)) (c :: cs) =
        (match isLinkChar em c with
          | none => (s, i, k) :: linkRunsGo em (i + 1) none cs
          | some k2 =>
            if k2 = k then linkRunsGo em (i + 1) (some (s, k)) cs
            else (s, i, k) :: linkRunsGo em (i + 1) (some (i, k2)) cs)
        from rfl] at hr
      cases hc : isLinkChar em c with
      | none =>
        rw [hc] at hr
        rcases List.mem_cons.mp hr with h | h
        · rcases h with rfl
          exact ⟨Nat.le_refl s, hs⟩
        · have := (ih (i + 1)).1 r h
          exact ⟨Nat.le_trans (Nat.le_of_lt hs) (Nat.le_of_succ_le this.1),
            this.2⟩
      | some k2 =>
        rw [hc] at hr
        have hr2 : r ∈ (if k2 = k then linkRunsGo em (i + 1) (some (s, k)) cs
            else (s, i, k) :: linkRunsGo em (i + 1) (some (i, k2)) cs) := hr
        by_cases hk : k2 = k
        · rw [if_pos hk] at hr2
          exact (ih (i + 1)).2 s k (Nat.lt_succ_of_lt hs) r hr2
        · rw [if_neg hk] at hr2
          rcases List.mem_cons.mp hr2 with h | h
          · rcases h with rfl
            exact ⟨Nat.le_refl s, hs⟩
          · have := (ih (i + 1)).2 i k2 (Nat.lt_succ_self i) r h
            exact ⟨Nat.le_trans (Nat.le_of_lt hs) this.1, this.2⟩

theorem linkRunsGo_pairwise (em : EntityMap) :
    ∀ (cs : List CChar) (i : Nat),
      List.Pairwise (fun a b => a.1 < b.1) (linkRunsGo em i none cs) ∧
      (∀ s k, s < i → List.Pairwise (fun a b => a.1 < b.1)
        (linkRunsGo em i (some (s, k)) cs)) := by
  intro cs
  induction cs with
  | nil =>
    intro i
    exact ⟨List.Pairwise.nil, fun s k _ => List.pairwise_singleton _ _⟩
  | cons c cs ih =>
    intro i
    constructor
    · show List.Pairwise _
        (match isLinkChar em c with
          | none => linkRunsGo em (i + 1) none cs
          | some k => linkRunsGo em (i + 1) (some (i, k)) cs)
      cases isLinkChar em c with
      | none => exact (ih (i + 1)).1
      | some k => exact (ih (i + 1)).2 i k (Nat.lt_succ_self i)
    · intro s k hs
      show List.Pairwise _
        (match isLinkChar em c with
          | none => (s, i, k) :: linkRunsGo em (i + 1) none cs
          | some k2 =>
            if k2 = k then linkRunsGo em (i + 1) (some (s, k)) cs
            else (s, i, k) :: linkRunsGo em (i + 1) (some (i, k2)) cs)
      cases isLinkChar em c with
      | none =>
        refine List.pairwise_cons.mpr ⟨fun r hr => ?_, (ih (i + 1)).1⟩
        have := (linkRunsGo_le em cs (i + 1)).1 r hr
        exact Nat.lt_of_lt_of_le hs (Nat.le_of_succ_le this.1)
      | some k2 =>
        show List.Pairwise (fun a b => a.1 < b.1)
          (if k2 = k then linkRunsGo em (i + 1) (some (s, k)) cs
            else (s, i, k) :: linkRunsGo em (i + 1) (some (i, k2)) cs)
        by_cases hk : k2 = k
        · rw [if_pos hk]
          exact (ih (i + 1)).2 s k (Nat.lt_succ_of_lt hs)
        · rw [if_neg hk]
          refine List.pairwise_cons.mpr
            ⟨fun r hr => ?_, (ih (i + 1)).2 i k2 (Nat.lt_succ_self i)⟩
          have := (linkRunsGo_le em cs (i + 1)).2 i k2 (Nat.lt_succ_self i) r hr
          exact Nat.lt_of_lt_of_le hs this.1

theorem linkRunsGo_some_ne_nil (em : EntityMap) :
    ∀ (cs : List CChar) (i s k : Nat),
      linkRunsGo em i (some (s, k)) cs ≠ [] := by
  intro cs
  induction cs with
  | nil => intro i s k h; cases h
  | cons c cs ih =>
    intro i s k h
    rw [show linkRunsGo em i (some (s, k)) (c :: cs) =
      (match isLinkChar em c with
        | none => (s, i, k) :: linkRunsGo em (i + 1) none cs
        | some k2 =>
          if k2 = k then linkRunsGo em (i + 1) (some (s, k)) cs
          else (s, i, k) :: linkRunsGo em (i + 1) (some (i, k2)) cs)
      from rfl] at h
    cases hc : isLinkChar em c with
    | none => rw [hc] at h; cases h
    | some k2 =>
      rw [hc] at h
      have h2 : (if k2 = k then linkRunsGo em (i + 1) (some (s, k)) cs
          else (s, i, k) :: linkRunsGo em (i + 1) (some (i, k2)) cs) = [] := h
      by_cases hk : k2 = k
      · rw [if_pos hk] at h2
        exact ih (i + 1) s k h2
      · rw [if_neg hk] at h2
        cases h2

theorem linkRunsGo_some_inv (em : EntityMap) :
    ∀ (cs : List CChar) (i s0 k0 : Nat) (r : Nat × Nat × Nat)
      (rs : List (Nat × Nat × Nat)),
      linkRunsGo em i (some (s0, k0)) cs = r :: rs →
      ∃ u rest, cs = u ++ rest ∧ (∀ c ∈ u, isLinkChar em c = some k0) ∧
        r = (s0, i + u.length, k0) ∧
        linkRunsGo em (i + u.length) none rest = rs ∧
        (∀ d ∈ rest.head?, isLinkChar em d ≠ some k0) := by
  intro cs
  induction cs with
  | nil =>
    intro i s0 k0 r rs h
    have h2 : ([(s0, i, k0)] : List (Nat × Nat × Nat)) = r :: rs := h
    cases h2
    exact ⟨[], [], rfl, fun c hc => absurd hc (List.not_mem_nil c), rfl, rfl,
      fun d hd => by cases hd⟩
  | cons c cs ih =>
    intro i s0 k0 r rs h
    have h2 : (match isLinkChar em c with
        | none => (s0, i, k0) :: linkRunsGo em (i + 1) none cs
        | some k2 =>
          if k2 = k0 then linkRunsGo em (i + 1) (some (s0, k0)) cs
          else (s0, i, k0) :: linkRunsGo em (i + 1) (some (i, k2)) cs)
        = r :: rs := h
    cases hc : isLinkChar em c with
    | none =>
      rw [hc] at h2
      have h3 : (s0, i, k0) :: linkRunsGo em (i + 1) none cs = r :: rs := h2
      cases h3
      refine ⟨[], c :: cs, rfl, fun x hx => absurd hx (List.not_mem_nil x),
        rfl, ?_, ?_⟩
      · rw [show linkRunsGo em (i + List.length ([] : List CChar)) none
            (c :: cs) =
          (match isLinkChar em c with
            | none => linkRunsGo em (i + 1) none cs
            | some k => linkRunsGo em (i + 1) (some (i, k)) cs) from rfl, hc]
      · intro d hd
        have hdc : d = c := by
          simp only [List.head?_cons, Option.mem_def, Option.some.injEq] at hd
          exact hd.symm
        rw [hdc, hc]
        intro hne
        cases hne
    | some k2 =>
      rw [hc] at h2
      have h3 : (if k2 = k0 then linkRunsGo em (i + 1) (some (s0, k0)) cs
          else (s0, i, k0) :: linkRunsGo em (i + 1) (some (i, k2)) cs)
          = r :: rs := h2
      by_cases hk : k2 = k0
      · rw [if_pos hk] at h3
        obtain ⟨u', rest, hcs, hu, hr, hrs, hbd⟩ := ih (i + 1) s0 k0 r rs h3
        refine ⟨c :: u', rest, by rw [hcs]; rfl, ?_, ?_, ?_, hbd⟩
        · intro x hx
          rcases List.mem_cons.mp hx with rfl | hx
          · rw [hc, hk]
          · exact hu x hx
        · rw [hr]
          have harith : i + (c :: u').length = i + 1 + u'.length := by
            simp only [List.length_cons]
            omega
          rw [harith]
        · have harith : i + (c :: u').length = i + 1 + u'.length := by
            simp only [List.length_cons]
            omega
          rw [harith]
          exact hrs
      · rw [if_neg hk] at h3
        cases h3
        refine ⟨[], c :: cs, rfl, fun x hx => absurd hx (List.not_mem_nil x),
          rfl, ?_, ?_⟩
        · rw [show linkRunsGo em (i + List.length ([] : List CChar)) none
              (c :: cs) =
            (match isLinkChar em c with
              | none => linkRunsGo em (i + 1) none cs
              | some k => linkRunsGo em (i + 1) (some (i, k)) cs) from rfl, hc]
        · intro d hd
          have hdc : d = c := by
            simp only [List.head?_cons, Option.mem_def, Option.some.injEq] at hd
            exact hd.symm
          rw [hdc, hc]
          intro hne
          have : k2 = k0 := by
            injection hne
          exact hk this

theorem linkRunsGo_none_inv (em : EntityMap) :
    ∀ (cs : List CChar) (i : Nat) (r : Nat × Nat × Nat)
      (rs : List (Nat × Nat × Nat)),
      linkRunsGo em i none cs = r :: rs →
      ∃ pre u rest k, cs = pre ++ u ++ rest ∧
        (∀ c ∈ pre, isLinkChar em c = none) ∧
        (∀ c ∈ u, isLinkChar em c = some k) ∧ u ≠ [] ∧
        r = (i + pre.length, i + pre.length + u.length, k) ∧
        linkRunsGo em (i + pre.length + u.length) none rest = rs ∧
        (∀ d ∈ rest.head?, isLinkChar em d ≠ some k) := by
  intro cs
  induction cs with
  | nil => intro i r rs h; cases h
  | cons c cs ih =>
    intro i r rs h
    have h2 : (match isLinkChar em c with
        | none => linkRunsGo em (i + 1) none cs
        | some k => linkRunsGo em (i + 1) (some (i, k)) cs) = r :: rs := h
    cases hc : isLinkChar em c with
    | none =>
      rw [hc] at h2
      obtain ⟨pre', u, rest, k, hcs, hpre, hu, hne, hr, hrs, hbd⟩ :=
        ih (i + 1) r rs h2
      refine ⟨c :: pre', u, rest, k, by rw [hcs]; rfl, ?_, hu, hne, ?_, ?_,
        hbd⟩
      · intro x hx
        rcases List.mem_cons.mp hx with rfl | hx
        · exact hc
        · exact hpre x hx
      · rw [hr]
        have h1 : i + (c :: pre').length = i + 1 + pre'.length := by
          simp only [List.length_cons]
          omega
        rw [h1]
      · have harith : i + (c :: pre').length + u.length =
            i + 1 + pre'.length + u.length := by
          simp only [List.length_cons]
          omega
        rw [harith]
        exact hrs
    | some k1 =>
      rw [hc] at h2
      obtain ⟨u', rest, hcs, hu, hr, hrs, hbd⟩ :=
        linkRunsGo_some_inv em cs (i + 1) i k1 r rs h2
      refine ⟨[], c :: u', rest, k1, by rw [hcs]; rfl,
        fun x hx => absurd hx (List.not_mem_nil x), ?_, by simp, ?_, ?_, hbd⟩
      · intro x hx
        rcases List.mem_cons.mp hx with rfl | hx
        · exact hc
        · exact hu x hx
      · rw [hr]
        have h1 : i + ([] : List CChar).length = i := rfl
        have h2 : i + ([] : List CChar).length + (c :: u').length =
            i + 1 + u'.length := by
          simp only [List.length_nil, List.length_cons]
          omega
        rw [h1] at h2 ⊢
        rw [h2]
      · have harith : i + ([] : List CChar).length + (c :: u').length =
            i + 1 + u'.length := by
          simp only [List.length_nil, List.length_cons]
          omega
        rw [harith]
        exact hrs

theorem linkRunsGo_nonlink_append (em : EntityMap) :
    ∀ (pre : List CChar), (∀ c ∈ pre, isLinkChar em c = none) →
      ∀ (X : List CChar) (i : Nat),
        linkRunsGo em i none (pre ++ X) =
          linkRunsGo em (i + pre.length) none X := by
  intro pre
  induction pre with
  | nil => intro _ X i; rfl
  | cons c pre ih =>
    intro hpre X i
    rw [show linkRunsGo em i none ((c :: pre) ++ X) =
      (match isLinkChar em c with
        | none => linkRunsGo em (i + 1) none (pre ++ X)
        | some k => linkRunsGo em (i + 1) (some (i, k)) (pre ++ X)) from rfl,
      hpre c (List.mem_cons_self c pre)]
    show linkRunsGo em (i + 1) none (pre ++ X) = _
    rw [ih (fun x hx => hpre x (List.mem_cons_of_mem c hx)) X (i + 1)]
    have harith : i + (c :: pre).length = i + 1 + pre.length := by
      simp only [List.length_cons]
      omega
    rw [harith]

theorem linkRunsGo_run_append (em : EntityMap) :
    ∀ (u : List CChar) (k : Nat), (∀ c ∈ u, isLinkChar em c = some k) →
      ∀ (X : List CChar), (∀ d ∈ X.head?, isLinkChar em d ≠ some k) →
      ∀ (i s : Nat),
        linkRunsGo em i (some (s, k)) (u ++ X) =
          (s, i + u.length, k) :: linkRunsGo em (i + u.length) none X := by
  intro u k
  induction u with
  | nil =>
    intro _ X hX i s
    cases X with
    | nil => rfl
    | cons d X' =>
      have hd := hX d rfl
      show linkRunsGo em i (some (s, k)) (d :: X') = _
      unfold linkRunsGo
      cases hcd : isLinkChar em d with
      | none => rfl
      | some k2 =>
        have hk2 : k2 ≠ k := fun he => hd (by rw [hcd, he])
        show (if k2 = k then linkRunsGo em (i + 1) (some (s, k)) X'
            else (s, i, k) :: linkRunsGo em (i + 1) (some (i, k2)) X') =
          (s, i, k) :: linkRunsGo em (i + 1) (some (i, k2)) X'
        rw [if_neg hk2]
  | cons c u ih =>
    intro hu X hX i s
    rw [show linkRunsGo em i (some (s, k)) ((c :: u) ++ X) =
      (match isLinkChar em c with
        | none => (s, i, k) :: linkRunsGo em (i + 1) none (u ++ X)
        | some k2 =>
          if k2 = k then linkRunsGo em (i + 1) (some (s, k)) (u ++ X)
          else (s, i, k) :: linkRunsGo em (i + 1) (some (i, k2)) (u ++ X))
      from rfl, hu c (List.mem_cons_self c u)]
    show (if k = k then linkRunsGo em (i + 1) (some (s, k)) (u ++ X)
        else (s, i, k) :: linkRunsGo em (i + 1) (some (i, k)) (u ++ X)) = _
    rw [if_pos rfl]
    rw [ih (fun x hx => hu x (List.mem_cons_of_mem c hx)) X hX (i + 1) s]
    have harith : i + (c :: u).length = i + 1 + u.length := by
      simp only [List.length_cons]
      omega
    rw [harith]

theorem linkRunsGo_open_append (em : EntityMap) :
    ∀ (c : CChar) (u : List CChar) (k : Nat),
      (∀ x ∈ c :: u, isLinkChar em x = some k) →
      ∀ (X : List CChar), (∀ d ∈ X.head?, isLinkChar em d ≠ some k) →
      ∀ (i : Nat),
        linkRunsGo em i none ((c :: u) ++ X) =
          (i, i + (c :: u).length, k) ::
            linkRunsGo em (i + (c :: u).length) none X := by
  intro c u k hu X hX i
  rw [show linkRunsGo em i none ((c :: u) ++ X) =
    (match isLinkChar em c with
      | none => linkRunsGo em (i + 1) none (u ++ X)
      | some k2 => linkRunsGo em (i + 1) (some (i, k2)) (u ++ X)) from rfl,
    hu c (List.mem_cons_self c u)]
  show linkRunsGo em (i + 1) (some (i, k)) (u ++ X) = _
  rw [linkRunsGo_run_append em u k
    (fun x hx => hu x (List.mem_cons_of_mem c hx)) X hX (i + 1) i]
  have harith : i + (c :: u).length = i + 1 + u.length := by
    simp only [List.length_cons]
    omega
  rw [harith]

/-! ### Settling lemmas -/

theorem settleGo_nonlink_append (em : EntityMap) (T : TitleMap) :
    ∀ (pre : List CChar), (∀ c ∈ pre, isLinkChar em c = none) →
      ∀ (X : List CChar),
        settleGo em T none (pre ++ X) = pre ++ settleGo em T none X := by
  intro pre
  induction pre with
  | nil => intro _ X; rfl
  | cons c pre ih =>
    intro hpre X
    rw [show settleGo em T none ((c :: pre) ++ X) =
      (match isLinkChar em c with
        | none => c :: settleGo em T none (pre ++ X)
        | some k => settleGo em T (some k) (pre ++ X)) from rfl,
      hpre c (List.mem_cons_self c pre)]
    show c :: settleGo em T none (pre ++ X) = _
    rw [ih (fun x hx => hpre x (List.mem_cons_of_mem c hx)) X]
    rfl

theorem settleGo_run_append (em : EntityMap) (T : TitleMap) :
    ∀ (u : List CChar) (k : Nat), (∀ c ∈ u, isLinkChar em c = some k) →
      ∀ (X : List CChar), (∀ d ∈ X.head?, isLinkChar em d ≠ some k) →
        settleGo em T (some k) (u ++ X) =
          spanFor em T k ++ settleGo em T none X := by
  intro u k
  induction u with
  | nil =>
    intro _ X hX
    cases X with
    | nil =>
      show spanFor em T k = spanFor em T k ++ ([] : List CChar)
      rw [List.append_nil]
    | cons d X' =>
      have hd := hX d rfl
      rw [show settleGo em T (some k) (([] : List CChar) ++ d :: X') =
        (match isLinkChar em d with
          | none => spanFor em T k ++ d :: settleGo em T none X'
          | some k2 =>
            if k2 = k then settleGo em T (some k) X'
            else spanFor em T k ++ settleGo em T (some k2) X') from rfl,
        show settleGo em T none (d :: X') =
        (match isLinkChar em d with
          | none => d :: settleGo em T none X'
          | some k2 => settleGo em T (some k2) X') from rfl]
      cases hcd : isLinkChar em d with
      | none => rfl
      | some k2 =>
        have hk2 : k2 ≠ k := fun he => hd (by rw [hcd, he])
        show (if k2 = k then settleGo em T (some k) X'
            else spanFor em T k ++ settleGo em T (some k2) X') =
          spanFor em T k ++ settleGo em T (some k2) X'
        rw [if_neg hk2]
  | cons c u ih =>
    intro hu X hX
    rw [show settleGo em T (some k) ((c :: u) ++ X) =
      (match isLinkChar em c with
        | none => spanFor em T k ++ c :: settleGo em T none (u ++ X)
        | some k2 =>
          if k2 = k then settleGo em T (some k) (u ++ X)
          else spanFor em T k ++ settleGo em T (some k2) (u ++ X)) from rfl,
      hu c (List.mem_cons_self c u)]
    show (if k = k then settleGo em T (some k) (u ++ X)
        else spanFor em T k ++ settleGo em T (some k) (u ++ X)) = _
    rw [if_pos rfl]
    exact ih (fun x hx => hu x (List.mem_cons_of_mem c hx)) X hX

theorem settleGo_open_append (em : EntityMap) (T : TitleMap) :
    ∀ (c : CChar) (u : List CChar) (k : Nat),
      (∀ x ∈ c :: u, isLinkChar em x = some k) →
      ∀ (X : List CChar), (∀ d ∈ X.head?, isLinkChar em d ≠ some k) →
        settleGo em T none ((c :: u) ++ X) =
          spanFor em T k ++ settleGo em T none X := by
  intro c u k hu X hX
  rw [show settleGo em T none ((c :: u) ++ X) =
    (match isLinkChar em c with
      | none => c :: settleGo em T none (u ++ X)
      | some k2 => settleGo em T (some k2) (u ++ X)) from rfl,
    hu c (List.mem_cons_self c u)]
  show settleGo em T (some k) (u ++ X) = _
  exact settleGo_run_append em T u k
    (fun x hx => hu x (List.mem_cons_of_mem c hx)) X hX

theorem settleGo_no_runs (em : EntityMap) (T : TitleMap) :
    ∀ (cs : List CChar) (i : Nat), linkRunsGo em i none cs = [] →
      settleGo em T none cs = cs := by
  intro cs
  induction cs with
  | nil => intro _ _; rfl
  | cons c cs ih =>
    intro i h
    have h2 : (match isLinkChar em c with
        | none => linkRunsGo em (i + 1) none cs
        | some k => linkRunsGo em (i + 1) (some (i, k)) cs) = [] := h
    cases hc : isLinkChar em c with
    | none =>
      rw [hc] at h2
      show settleGo em T none (c :: cs) = c :: cs
      unfold settleGo
      rw [hc]
      show c :: settleGo em T none cs = c :: cs
      rw [ih (i + 1) h2]
    | some k =>
      rw [hc] at h2
      exact absurd h2 (linkRunsGo_some_ne_nil em cs (i + 1) i k)

/-! ### Descending sort of an ascending run list -/

theorem insertDescBy_append {α : Type} (f : α → Nat) (x : α) :
    ∀ (l : List α), (∀ y ∈ l, ¬ f x > f y) →
      insertDescBy f x l = l ++ [x] := by
  intro l
  induction l with
  | nil => intro _; rfl
  | cons y ys ih =>
    intro h
    show (if f x > f y then x :: y :: ys else y :: insertDescBy f x ys) = _
    rw [if_neg (h y (List.mem_cons_self y ys))]
    rw [ih (fun z hz => h z (List.mem_cons_of_mem y hz))]
    rfl

theorem sortDescBy_of_pairwise {α : Type} (f : α → Nat) :
    ∀ (l : List α), List.Pairwise (fun a b => f a < f b) l →
      sortDescBy f l = l.reverse := by
  intro l
  induction l with
  | nil => intro _; rfl
  | cons x xs ih =>
    intro h
    have hp := List.pairwise_cons.mp h
    show insertDescBy f x (sortDescBy f xs) = _
    rw [ih hp.2]
    rw [insertDescBy_append f x xs.reverse
      (fun y hy => Nat.not_lt.mpr (Nat.le_of_lt (hp.1 y (List.mem_reverse.mp hy))))]
    rw [List.reverse_cons]

/-! ### Splicing -/

theorem splice_shift (xs ys repl : List CChar) (a b : Nat) :
    splice (xs ++ ys) (a + xs.length) (b + xs.length) repl =
      xs ++ splice ys a b repl := by
  unfold splice
  rw [Nat.add_comm a xs.length, Nat.add_comm b xs.length]
  rw [List.take_append, List.drop_append]
  simp only [List.append_assoc]

theorem applyRuns_shift (em : EntityMap) (T : TitleMap) :
    ∀ (rs : List (Nat × Nat × Nat)) (xs ys : List CChar),
      applyRuns em T (xs ++ ys)
        (rs.map (fun r => (r.1 + xs.length, r.2.1 + xs.length, r.2.2))) =
        xs ++ applyRuns em T ys rs := by
  intro rs
  induction rs with
  | nil => intro xs ys; rfl
  | cons r rest ih =>
    intro xs ys
    show applyRuns em T
      (splice (xs ++ ys) (r.1 + xs.length) (r.2.1 + xs.length)
        (spanFor em T r.2.2))
      (rest.map (fun r => (r.1 + xs.length, r.2.1 + xs.length, r.2.2))) =
      xs ++ applyRuns em T (splice ys r.1 r.2.1 (spanFor em T r.2.2)) rest
    rw [splice_shift]
    exact ih xs (splice ys r.1 r.2.1 (spanFor em T r.2.2))

theorem applyRuns_append (em : EntityMap) (T : TitleMap) (cs : List CChar)
    (l1 l2 : List (Nat × Nat × Nat)) :
    applyRuns em T cs (l1 ++ l2) =
      applyRuns em T (applyRuns em T cs l1) l2 := by
  unfold applyRuns
  rw [List.foldl_append]

/-- Processing a block's NOTE_LINK ranges in descending-start order replaces
each run by its span: the pure splice fold computes `settleChars`. -/
theorem applyRuns_settle_fuel (em : EntityMap) (T : TitleMap) :
    ∀ (n : Nat) (cs : List CChar), cs.length ≤ n →
      applyRuns em T cs (sortDescBy (fun r => r.1) (linkRuns em cs)) =
        settleChars em T cs := by
  intro n
  induction n with
  | zero =>
    intro cs hlen
    have hnil : cs = [] := List.eq_nil_of_length_eq_zero (Nat.le_zero.mp hlen)
    subst hnil
    rfl
  | succ n ih =>
    intro cs hlen
    cases hruns : linkRuns em cs with
    | nil =>
      show cs = settleChars em T cs
      exact (settleGo_no_runs em T cs 0 hruns).symm
    | cons r rs =>
      obtain ⟨pre, u, rest, k, hcs, hpre, hu, hune, hr, hrs, hbd⟩ :=
        linkRunsGo_none_inv em cs 0 r rs hruns
      obtain ⟨c0, utail, hu0⟩ : ∃ c0 utail, u = c0 :: utail := by
        cases u with
        | nil => exact absurd rfl hune
        | cons a b => exact ⟨a, b, rfl⟩
      have hpair : List.Pairwise (fun a b => a.1 < b.1) (r :: rs) := by
        rw [← hruns]
        exact (linkRunsGo_pairwise em cs 0).1
      have hsort : sortDescBy (fun x => x.1) (r :: rs) = rs.reverse ++ [r] := by
        rw [sortDescBy_of_pairwise (fun x => x.1) (r :: rs) hpair,
          List.reverse_cons]
      rw [hsort, applyRuns_append]
      have e1 : 0 + pre.length + u.length = 0 + (pre.length + u.length) := by
        omega
      rw [e1] at hrs
      have hshift : rs = (linkRuns em rest).map
          (fun q => (q.1 + (pre.length + u.length),
            q.2.1 + (pre.length + u.length), q.2.2)) := by
        rw [← hrs]
        have h2 : linkRunsGo em (0 + (pre.length + u.length)) none rest =
            (linkRunsGo em 0 none rest).map
              (fun q => (q.1 + (pre.length + u.length),
                q.2.1 + (pre.length + u.length), q.2.2)) :=
          linkRunsGo_shift em (pre.length + u.length) rest 0 none
        exact h2
      have hcs2 : cs = (pre ++ u) ++ rest := by
        rw [hcs, List.append_assoc]
      have hrev : rs.reverse = ((linkRuns em rest).reverse).map
          (fun q => (q.1 + (pre.length + u.length),
            q.2.1 + (pre.length + u.length), q.2.2)) := by
        rw [hshift, List.reverse_map]
      have happly1 : applyRuns em T cs rs.reverse =
          (pre ++ u) ++ applyRuns em T rest (linkRuns em rest).reverse := by
        rw [hcs2, hrev]
        have hlen2 : pre.length + u.length = (pre ++ u).length := by
          rw [List.length_append]
        rw [hlen2]
        exact applyRuns_shift em T (linkRuns em rest).reverse (pre ++ u) rest
      rw [happly1]
      have hlenrest : rest.length ≤ n := by
        rw [hcs, hu0] at hlen
        simp only [List.length_append, List.length_cons] at hlen
        omega
      have hIH := ih rest hlenrest
      have hsortrest : sortDescBy (fun x => x.1) (linkRuns em rest) =
          (linkRuns em rest).reverse :=
        sortDescBy_of_pairwise _ _ ((linkRunsGo_pairwise em rest 0).1)
      rw [hsortrest] at hIH
      rw [hIH, hr]
      show splice ((pre ++ u) ++ settleChars em T rest)
        (0 + pre.length) (0 + pre.length + u.length) (spanFor em T k) =
        settleChars em T cs
      have e3 : 0 + pre.length + u.length = (pre ++ u).length := by
        rw [List.length_append]
        omega
      have e2 : 0 + pre.length = pre.length := by omega
      rw [e3, e2]
      unfold splice
      rw [List.drop_left, List.append_assoc pre u (settleChars em T rest),
        List.take_left,
        List.append_assoc pre (spanFor em T k) (settleChars em T rest),
        hcs, List.append_assoc pre u rest]
      show pre ++ (spanFor em T k ++ settleChars em T rest) =
        settleGo em T none (pre ++ (u ++ rest))
      rw [settleGo_nonlink_append em T pre hpre (u ++ rest)]
      subst hu0
      rw [settleGo_open_append em T c0 utail k hu rest hbd]
      rw [show settleChars em T rest = settleGo em T none rest from rfl]

theorem applyRuns_settle (em : EntityMap) (T : TitleMap) (cs : List CChar) :
    applyRuns em T cs (sortDescBy (fun r => r.1) (linkRuns em cs)) =
      settleChars em T cs :=
  applyRuns_settle_fuel em T cs.length cs (Nat.le_refl _)

/-! ### Spans and heads of settled character lists -/

theorem spanFor_live {em : EntityMap} {T : TitleMap} {k : Nat} {id : String}
    (h : runLive em T k = some id) : spanFor em T k = liveSpan T id k := by
  unfold spanFor
  rw [h]

theorem spanFor_broken {em : EntityMap} {T : TitleMap} {k : Nat}
    (h : runLive em T k = none) : spanFor em T k = brokenSpan em k := by
  unfold spanFor
  rw [h]

theorem bracket_data (x : String) :
    ("[[" ++ x ++ "]]").data = '[' :: '[' :: (x.data ++ [']', ']']) := by
  simp [String.data_append]

theorem liveSpan_entity (T : TitleMap) (id : String) (k : Nat) :
    ∀ c ∈ liveSpan T id k, c.entity = some k := by
  intro c hc
  unfold liveSpan at hc
  obtain ⟨ch, _, rfl⟩ := List.mem_map.mp hc
  rfl

theorem brokenSpan_entity (em : EntityMap) (k : Nat) :
    ∀ c ∈ brokenSpan em k, c.entity = none := by
  intro c hc
  unfold brokenSpan at hc
  obtain ⟨ch, _, rfl⟩ := List.mem_map.mp hc
  rfl

theorem liveSpan_ne_nil (T : TitleMap) (id : String) (k : Nat) :
    liveSpan T id k ≠ [] := by
  unfold liveSpan
  rw [bracket_data]
  simp

theorem brokenSpan_ne_nil (em : EntityMap) (k : Nat) : brokenSpan em k ≠ [] := by
  unfold brokenSpan
  rw [bracket_data]
  simp

theorem spanFor_ne_nil (em : EntityMap) (T : TitleMap) (k : Nat) :
    spanFor em T k ≠ [] := by
  unfold spanFor
  cases runLive em T k with
  | some id => exact liveSpan_ne_nil T id k
  | none => exact brokenSpan_ne_nil em k

theorem isLinkChar_entity_none {em : EntityMap} {c : CChar}
    (h : c.entity = none) : isLinkChar em c = none := by
  unfold isLinkChar
  rw [h]

theorem isLinkChar_entity_some {em : EntityMap} {c : CChar} {k : Nat}
    (h : c.entity = some k) :
    isLinkChar em c = none ∨ isLinkChar em c = some k := by
  have h2 : isLinkChar em c = (match em.lookup k with
      | some e => if e.etype = "NOTE_LINK" then some k else none
      | none => none) := by
    rw [show isLinkChar em c = (match c.entity with
      | some j =>
        match em.lookup j with
        | some e => if e.etype = "NOTE_LINK" then some j else none
        | none => none
      | none => none) from rfl, h]
  rw [h2]
  cases em.lookup k with
  | none => left; rfl
  | some e =>
    by_cases he : e.etype = "NOTE_LINK"
    · right
      show (if e.etype = "NOTE_LINK" then some k else none) = some k
      rw [if_pos he]
    · left
      show (if e.etype = "NOTE_LINK" then some k else none) = none
      rw [if_neg he]

theorem isLinkChar_some_elim {em : EntityMap} {c : CChar} {k : Nat}
    (h : isLinkChar em c = some k) :
    c.entity = some k ∧ ∃ e, em.lookup k = some e ∧ e.etype = "NOTE_LINK" := by
  cases hc : c.entity with
  | none =>
    rw [isLinkChar_entity_none hc] at h
    cases h
  | some j =>
    have h2 : (match em.lookup j with
        | some e => if e.etype = "NOTE_LINK" then some j else none
        | none => none) = some k := by
      rw [show isLinkChar em c = (match c.entity with
        | some j =>
          match em.lookup j with
          | some e => if e.etype = "NOTE_LINK" then some j else none
          | none => none
        | none => none) from rfl, hc] at h
      exact h
    cases hl : em.lookup j with
    | none => rw [hl] at h2; cases h2
    | some e =>
      rw [hl] at h2
      have h3 : (if e.etype = "NOTE_LINK" then some j else none) = some k := h2
      by_cases he : e.etype = "NOTE_LINK"
      · rw [if_pos he] at h3
        injection h3 with hjk
        subst hjk
        exact ⟨rfl, e, hl, he⟩
      · rw [if_neg he] at h3
        cases h3

theorem span_live_all_link {em : EntityMap} {T : TitleMap} {k : Nat}
    {id : String} {e : Entity} (hl : runLive em T k = some id)
    (he : em.lookup k = some e) (hety : e.etype = "NOTE_LINK") :
    ∀ c ∈ spanFor em T k, isLinkChar em c = some k := by
  intro c hc
  rw [spanFor_live hl] at hc
  have hent := liveSpan_entity T id k c hc
  rw [show isLinkChar em c = (match c.entity with
    | some j =>
      match em.lookup j with
      | some e => if e.etype = "NOTE_LINK" then some j else none
      | none => none
    | none => none) from rfl, hent]
  show (match em.lookup k with
    | some e => if e.etype = "NOTE_LINK" then some k else none
    | none => none) = some k
  rw [he]
  show (if e.etype = "NOTE_LINK" then some k else none) = some k
  rw [if_pos hety]

theorem span_not_link {em : EntityMap} {T : TitleMap} {k j : Nat} (hkj : k ≠ j) :
    ∀ d ∈ spanFor em T k, isLinkChar em d ≠ some j := by
  intro d hd
  unfold spanFor at hd
  cases hrl : runLive em T k with
  | some id =>
    rw [hrl] at hd
    have hent := liveSpan_entity T id k d hd
    rcases @isLinkChar_entity_some em d k hent with h1 | h1
    · rw [h1]
      intro hcon
      cases hcon
    · rw [h1]
      intro hcon
      injection hcon with hcon
      exact hkj hcon
  | none =>
    rw [hrl] at hd
    have hent := brokenSpan_entity em k d hd
    rw [isLinkChar_entity_none hent]
    intro hcon
    cases hcon

theorem settleGo_some_head (em : EntityMap) (T : TitleMap) :
    ∀ (cs : List CChar) (k : Nat),
      (settleGo em T (some k) cs).head? = (spanFor em T k).head? := by
  intro cs
  induction cs with
  | nil => intro k; rfl
  | cons c cs ih =>
    intro k
    obtain ⟨a, ha⟩ : ∃ a, (spanFor em T k).head? = some a := by
      cases hsp : spanFor em T k with
      | nil => exact absurd hsp (spanFor_ne_nil em T k)
      | cons a l => exact ⟨a, rfl⟩
    rw [show settleGo em T (some k) (c :: cs) = (match isLinkChar em c with
      | none => spanFor em T k ++ c :: settleGo em T none cs
      | some k2 =>
        if k2 = k then settleGo em T (some k) cs
        else spanFor em T k ++ settleGo em T (some k2) cs) from rfl]
    cases hc : isLinkChar em c with
    | none =>
      show (spanFor em T k ++ c :: settleGo em T none cs).head? = _
      rw [List.head?_append, ha]
      rfl
    | some k2 =>
      show (if k2 = k then settleGo em T (some k) cs
        else spanFor em T k ++ settleGo em T (some k2) cs).head? = _
      by_cases hk : k2 = k
      · rw [if_pos hk]
        exact ih k
      · rw [if_neg hk]
        rw [List.head?_append, ha]
        rfl

theorem settle_head_not (em : EntityMap) (T : TitleMap) (cs : List CChar)
    (j : Nat) (h : ∀ d ∈ cs.head?, isLinkChar em d ≠ some j) :
    ∀ d ∈ (settleChars em T cs).head?, isLinkChar em d ≠ some j := by
  cases cs with
  | nil => intro d hd; cases hd
  | cons c cs =>
    have hc0 := h c (by rw [List.head?_cons]; rfl)
    rw [show settleChars em T (c :: cs) = (match isLinkChar em c with
      | none => c :: settleGo em T none cs
      | some k2 => settleGo em T (some k2) cs) from rfl]
    cases hc : isLinkChar em c with
    | none =>
      intro d hd
      rw [List.head?_cons] at hd
      have hdc : d = c := by
        simp only [Option.mem_def, Option.some.injEq] at hd
        exact hd.symm
      rw [hdc, hc]
      intro hcon
      cases hcon
    | some k2 =>
      have hk2j : k2 ≠ j := fun he => hc0 (by rw [hc, he])
      intro d hd
      rw [settleGo_some_head em T cs k2] at hd
      exact span_not_link hk2j d (List.mem_of_mem_head? hd)

/-- Settling a decomposed character list. -/
theorem settle_decomp (em : EntityMap) (T : TitleMap)
    (pre u rest : List CChar) (k : Nat)
    (hpre : ∀ c ∈ pre, isLinkChar em c = none)
    (hu : ∀ c ∈ u, isLinkChar em c = some k) (hune : u ≠ [])
    (hbd : ∀ d ∈ rest.head?, isLinkChar em d ≠ some k) :
    settleChars em T (pre ++ u ++ rest) =
      pre ++ (spanFor em T k ++ settleChars em T rest) := by
  obtain ⟨c0, utail, rfl⟩ : ∃ c0 utail, u = c0 :: utail := by
    cases u with
    | nil => exact absurd rfl hune
    | cons a b => exact ⟨a, b, rfl⟩
  rw [show settleChars em T ((pre ++ (c0 :: utail)) ++ rest) =
    settleGo em T none ((pre ++ (c0 :: utail)) ++ rest) from rfl]
  rw [List.append_assoc]
  rw [settleGo_nonlink_append em T pre hpre ((c0 :: utail) ++ rest)]
  rw [settleGo_open_append em T c0 utail k hu rest hbd]
  rw [show settleChars em T rest = settleGo em T none rest from rfl]

/-! ### Live id sequences -/

theorem liveIdsOf_cons_live {em : EntityMap} {T : TitleMap}
    {r : Nat × Nat × Nat} {id : String} (rs : List (Nat × Nat × Nat))
    (h : runLive em T r.2.2 = some id) :
    liveIdsOf em T (r :: rs) = id :: liveIdsOf em T rs := by
  unfold liveIdsOf
  simp only [List.filterMap_cons]
  rw [h]

theorem liveIdsOf_cons_broken {em : EntityMap} {T : TitleMap}
    {r : Nat × Nat × Nat} (rs : List (Nat × Nat × Nat))
    (h : runLive em T r.2.2 = none) :
    liveIdsOf em T (r :: rs) = liveIdsOf em T rs := by
  unfold liveIdsOf
  simp only [List.filterMap_cons]
  rw [h]

theorem liveIdsOf_map_shift (em : EntityMap) (T : TitleMap)
    (rs : List (Nat × Nat × Nat)) (n : Nat) :
    liveIdsOf em T (rs.map (fun q => (q.1 + n, q.2.1 + n, q.2.2))) =
      liveIdsOf em T rs := by
  unfold liveIdsOf
  rw [List.filterMap_map]
  congr 1

/-- Live runs of a run list, as `(entity key, target id)` pairs in run
order. -/
def livePairsOf (em : EntityMap) (T : TitleMap)
    (rs : List (Nat × Nat × Nat)) : List (Nat × String) :=
  rs.filterMap (fun r => (runLive em T r.2.2).map (fun id => (r.2.2, id)))

theorem livePairsOf_cons_live {em : EntityMap} {T : TitleMap}
    {r : Nat × Nat × Nat} {id : String} (rs : List (Nat × Nat × Nat))
    (h : runLive em T r.2.2 = some id) :
    livePairsOf em T (r :: rs) = (r.2.2, id) :: livePairsOf em T rs := by
  unfold livePairsOf
  simp only [List.filterMap_cons]
  rw [h]
  rfl

theorem livePairsOf_cons_broken {em : EntityMap} {T : TitleMap}
    {r : Nat × Nat × Nat} (rs : List (Nat × Nat × Nat))
    (h : runLive em T r.2.2 = none) :
    livePairsOf em T (r :: rs) = livePairsOf em T rs := by
  unfold livePairsOf
  simp only [List.filterMap_cons]
  rw [h]
  rfl

theorem livePairsOf_map_shift (em : EntityMap) (T : TitleMap)
    (rs : List (Nat × Nat × Nat)) (n : Nat) :
    livePairsOf em T (rs.map (fun q => (q.1 + n, q.2.1 + n, q.2.2))) =
      livePairsOf em T rs := by
  unfold livePairsOf
  rw [List.filterMap_map]
  congr 1

theorem liveIdsOf_eq_pairs (em : EntityMap) (T : TitleMap)
    (rs : List (Nat × Nat × Nat)) :
    liveIdsOf em T rs = (livePairsOf em T rs).map Prod.snd := by
  induction rs with
  | nil => rfl
  | cons r rest ih =>
    cases h : runLive em T r.2.2 with
    | some id =>
      rw [liveIdsOf_cons_live rest h, livePairsOf_cons_live rest h,
        List.map_cons, ih]
    | none =>
      rw [liveIdsOf_cons_broken rest h, livePairsOf_cons_broken rest h, ih]

/-- Settling is idempotent and preserves the live run pairs. -/
theorem settle_idem_fuel (em : EntityMap) (T : TitleMap) :
    ∀ (n : Nat) (cs : List CChar), cs.length ≤ n →
      settleChars em T (settleChars em T cs) = settleChars em T cs ∧
      livePairsOf em T (linkRuns em (settleChars em T cs)) =
        livePairsOf em T (linkRuns em cs) := by
  intro n
  induction n with
  | zero =>
    intro cs hlen
    have hnil : cs = [] := List.eq_nil_of_length_eq_zero (Nat.le_zero.mp hlen)
    subst hnil
    exact ⟨rfl, rfl⟩
  | succ n ih =>
    intro cs hlen
    cases hruns : linkRuns em cs with
    | nil =>
      have hset : settleChars em T cs = cs := settleGo_no_runs em T cs 0 hruns
      rw [hset, hset, hruns]
      exact ⟨rfl, rfl⟩
    | cons r rs =>
      obtain ⟨pre, u, rest, k, hcs, hpre, hu, hune, hr, hrs, hbd⟩ :=
        linkRunsGo_none_inv em cs 0 r rs hruns
      obtain ⟨c0, utail, hu0⟩ : ∃ c0 utail, u = c0 :: utail := by
        cases u with
        | nil => exact absurd rfl hune
        | cons a b => exact ⟨a, b, rfl⟩
      have hNL := isLinkChar_some_elim
        (hu c0 (by rw [hu0]; exact List.mem_cons_self c0 utail))
      obtain ⟨-, e0, he0, hety0⟩ := hNL
      have hdec : settleChars em T cs =
          pre ++ (spanFor em T k ++ settleChars em T rest) := by
        rw [hcs]
        exact settle_decomp em T pre u rest k hpre hu hune hbd
      have hlenrest : rest.length ≤ n := by
        rw [hcs, hu0] at hlen
        simp only [List.length_append, List.length_cons] at hlen
        omega
      obtain ⟨ihA, ihB⟩ := ih rest hlenrest
      have hbd2 : ∀ d ∈ (settleChars em T rest).head?,
          isLinkChar em d ≠ some k := settle_head_not em T rest k hbd
      -- the tail of the original run list is the shifted run list of `rest`
      have e1 : 0 + pre.length + u.length = 0 + (pre.length + u.length) := by
        omega
      rw [e1] at hrs
      have hshift : rs = (linkRuns em rest).map
          (fun q => (q.1 + (pre.length + u.length),
            q.2.1 + (pre.length + u.length), q.2.2)) := by
        rw [← hrs]
        exact linkRunsGo_shift em (pre.length + u.length) rest 0 none
      have hids_rs : livePairsOf em T rs =
          livePairsOf em T (linkRuns em rest) := by
        rw [hshift]
        exact livePairsOf_map_shift em T (linkRuns em rest)
          (pre.length + u.length)
      cases hrl : runLive em T k with
      | some id =>
        have hall : ∀ c ∈ spanFor em T k, isLinkChar em c = some k :=
          span_live_all_link hrl he0 hety0
        obtain ⟨sc, stl, hsp⟩ : ∃ sc stl, spanFor em T k = sc :: stl := by
          cases hspn : spanFor em T k with
          | nil => exact absurd hspn (spanFor_ne_nil em T k)
          | cons a l => exact ⟨a, l, rfl⟩
        have hall2 : ∀ x ∈ sc :: stl, isLinkChar em x = some k := by
          rw [← hsp]
          exact hall
        constructor
        · rw [hdec]
          show settleGo em T none
            (pre ++ (spanFor em T k ++ settleChars em T rest)) = _
          rw [settleGo_nonlink_append em T pre hpre
            (spanFor em T k ++ settleChars em T rest)]
          rw [hsp]
          rw [settleGo_open_append em T sc stl k hall2
            (settleChars em T rest) hbd2]
          rw [show settleGo em T none (settleChars em T rest) =
            settleChars em T (settleChars em T rest) from rfl, ihA, ← hsp]
        · rw [hdec]
          have hF1 : linkRuns em
              (pre ++ (spanFor em T k ++ settleChars em T rest)) =
              linkRunsGo em (0 + pre.length) none
                (spanFor em T k ++ settleChars em T rest) :=
            linkRunsGo_nonlink_append em pre hpre
              (spanFor em T k ++ settleChars em T rest) 0
          rw [hF1, hsp]
          rw [linkRunsGo_open_append em sc stl k hall2
            (settleChars em T rest) hbd2 (0 + pre.length)]
          rw [livePairsOf_cons_live _ (show runLive em T
            ((0 + pre.length, 0 + pre.length + (sc :: stl).length, k) :
              Nat × Nat × Nat).2.2 = some id from hrl)]
          have e2 : 0 + pre.length + (sc :: stl).length =
              0 + (pre.length + (sc :: stl).length) := by omega
          rw [e2]
          have hsh2 : linkRunsGo em (0 + (pre.length + (sc :: stl).length))
              none (settleChars em T rest) =
              (linkRuns em (settleChars em T rest)).map
                (fun q => (q.1 + (pre.length + (sc :: stl).length),
                  q.2.1 + (pre.length + (sc :: stl).length), q.2.2)) :=
            linkRunsGo_shift em (pre.length + (sc :: stl).length)
              (settleChars em T rest) 0 none
          rw [hsh2, livePairsOf_map_shift, ihB]
          rw [hr]
          rw [livePairsOf_cons_live rs (show runLive em T
            ((0 + pre.length, 0 + pre.length + u.length, k) :
              Nat × Nat × Nat).2.2 = some id from hrl), hids_rs]
      | none =>
        have hbn : ∀ c ∈ spanFor em T k, isLinkChar em c = none := by
          intro c hc
          rw [spanFor_broken hrl] at hc
          exact isLinkChar_entity_none (brokenSpan_entity em k c hc)
        have hprespan : ∀ c ∈ pre ++ spanFor em T k, isLinkChar em c = none := by
          intro c hc
          rcases List.mem_append.mp hc with h1 | h1
          · exact hpre c h1
          · exact hbn c h1
        constructor
        · rw [hdec, ← List.append_assoc]
          show settleGo em T none
            ((pre ++ spanFor em T k) ++ settleChars em T rest) = _
          rw [settleGo_nonlink_append em T (pre ++ spanFor em T k) hprespan
            (settleChars em T rest)]
          rw [show settleGo em T none (settleChars em T rest) =
            settleChars em T (settleChars em T rest) from rfl, ihA]
        · rw [hdec, ← List.append_assoc]
          have hF1 : linkRuns em
              ((pre ++ spanFor em T k) ++ settleChars em T rest) =
              linkRunsGo em (0 + (pre ++ spanFor em T k).length) none
                (settleChars em T rest) :=
            linkRunsGo_nonlink_append em (pre ++ spanFor em T k) hprespan
              (settleChars em T rest) 0
          rw [hF1]
          have hsh2 : linkRunsGo em (0 + (pre ++ spanFor em T k).length)
              none (settleChars em T rest) =
              (linkRuns em (settleChars em T rest)).map
                (fun q => (q.1 + (pre ++ spanFor em T k).length,
                  q.2.1 + (pre ++ spanFor em T k).length, q.2.2)) :=
            linkRunsGo_shift em (pre ++ spanFor em T k).length
              (settleChars em T rest) 0 none
          rw [hsh2, livePairsOf_map_shift, ihB]
          rw [hr]
          rw [livePairsOf_cons_broken rs (show runLive em T
            ((0 + pre.length, 0 + pre.length + u.length, k) :
              Nat × Nat × Nat).2.2 = none from hrl), hids_rs]

theorem settle_idem (em : EntityMap) (T : TitleMap) (cs : List CChar) :
    settleChars em T (settleChars em T cs) = settleChars em T cs :=
  (settle_idem_fuel em T cs.length cs (Nat.le_refl _)).1

theorem settle_livePairs (em : EntityMap) (T : TitleMap) (cs : List CChar) :
    livePairsOf em T (linkRuns em (settleChars em T cs)) =
      livePairsOf em T (linkRuns em cs) :=
  (settle_idem_fuel em T cs.length cs (Nat.le_refl _)).2

/-! ### The stateful range fold, characterised purely -/

/-- The pure effect of a run-list fold on the outbound id set. -/
def applyOut (em0 : EntityMap) (T : TitleMap) (o : List String)
    (rs : List (Nat × Nat × Nat)) : List String :=
  rs.foldl (fun o r =>
    match runLive em0 T r.2.2 with
    | some id => setAdd o id
    | none => o) o

theorem processRange_eq_live (T : TitleMap) (bk : String) (acc : AnalyzeAcc)
    (r : Nat × Nat × Nat) {em0 : EntityMap} {id t : String}
    (hev : EmEvolved T em0 acc.state.entityMap)
    (hrl : runLive em0 T r.2.2 = some id) (ht : T.lookup id = some t) :
    processRange T bk acc r =
      ⟨setAdd acc.outbound id,
        ⟨acc.state.blocks.map (fun b =>
            if b.key = bk then
              { b with chars := splice b.chars r.1 r.2.1 (spanFor em0 T r.2.2) }
            else b),
          mergeEmData acc.state.entityMap r.2.2 (livePayload id t)⟩⟩ := by
  have hrlacc : runLive acc.state.entityMap T r.2.2 = some id :=
    (emEvolved_runLive hev r.2.2).trans hrl
  obtain ⟨hnid, htis, htrim⟩ := runLive_eq_some hrlacc
  have hP : processRange T bk acc r =
      (match sanitizeLinkId
        ((entityData acc.state.entityMap r.2.2).lookup "noteId") with
       | some id =>
         match T.lookup id with
         | some t =>
           { outbound := setAdd acc.outbound id,
             state := replaceTextM (mergeEntityDataM acc.state r.2.2
               [("noteId", DVal.str id), ("title", DVal.str t)]) bk r.1 r.2.1
               (some r.2.2) ("[[" ++ t ++ "]]") }
         | none =>
           { acc with state := replaceTextM acc.state bk r.1 r.2.1 none
                        ("[[" ++ (storedTitleOf
                          (entityData acc.state.entityMap r.2.2)).getD
                          "Untitled" ++ "]]") }
       | none =>
         { acc with state := replaceTextM acc.state bk r.1 r.2.1 none
                      ("[[" ++ (storedTitleOf
                        (entityData acc.state.entityMap r.2.2)).getD
                        "Untitled" ++ "]]") }) := by
    rw [entityData_eq]
    rfl
  rw [hP, hnid]
  have hsan : sanitizeLinkId (some (DVal.str id)) = some id := by
    show (if (jsTrim id).length > 0 then some id else none) = some id
    rw [if_pos htrim]
  rw [hsan]
  show (match T.lookup id with
    | some t =>
      { outbound := setAdd acc.outbound id,
        state := replaceTextM (mergeEntityDataM acc.state r.2.2
          [("noteId", DVal.str id), ("title", DVal.str t)]) bk r.1 r.2.1
          (some r.2.2) ("[[" ++ t ++ "]]") }
    | none =>
      { acc with state := replaceTextM acc.state bk r.1 r.2.1 none
                   ("[[" ++ (storedTitleOf
                     (entityData acc.state.entityMap r.2.2)).getD
                     "Untitled" ++ "]]") } : AnalyzeAcc) = _
  rw [ht, spanFor_live hrl]
  rw [show liveSpan T id r.2.2 =
    ("[[" ++ (T.lookup id).getD "" ++ "]]").data.map
      (fun c => (⟨c, [], some r.2.2⟩ : CChar)) from rfl, ht]
  rfl

theorem processRange_eq_broken (T : TitleMap) (bk : String) (acc : AnalyzeAcc)
    (r : Nat × Nat × Nat) {em0 : EntityMap}
    (hev : EmEvolved T em0 acc.state.entityMap)
    (hrl : runLive em0 T r.2.2 = none) :
    processRange T bk acc r =
      ⟨acc.outbound,
        ⟨acc.state.blocks.map (fun b =>
            if b.key = bk then
              { b with chars := splice b.chars r.1 r.2.1 (spanFor em0 T r.2.2) }
            else b),
          acc.state.entityMap⟩⟩ := by
  have hED : entityData acc.state.entityMap r.2.2 = entityData em0 r.2.2 := by
    unfold entityData
    rw [hev.2.2 r.2.2 hrl]
  have hP : processRange T bk acc r =
      (match sanitizeLinkId
        ((entityData acc.state.entityMap r.2.2).lookup "noteId") with
       | some id =>
         match T.lookup id with
         | some t =>
           { outbound := setAdd acc.outbound id,
             state := replaceTextM (mergeEntityDataM acc.state r.2.2
               [("noteId", DVal.str id), ("title", DVal.str t)]) bk r.1 r.2.1
               (some r.2.2) ("[[" ++ t ++ "]]") }
         | none =>
           { acc with state := replaceTextM acc.state bk r.1 r.2.1 none
                        ("[[" ++ (storedTitleOf
                          (entityData acc.state.entityMap r.2.2)).getD
                          "Untitled" ++ "]]") }
       | none =>
         { acc with state := replaceTextM acc.state bk r.1 r.2.1 none
                      ("[[" ++ (storedTitleOf
                        (entityData acc.state.entityMap r.2.2)).getD
                        "Untitled" ++ "]]") }) := by
    rw [entityData_eq]
    rfl
  rw [hP, hED, spanFor_broken hrl]
  have hrl2 : runLive em0 T r.2.2 = none := hrl
  unfold runLive at hrl2
  cases hs : sanitizeLinkId ((entityData em0 r.2.2).lookup "noteId") with
  | none => rfl
  | some id2 =>
    rw [hs] at hrl2
    have hrl3 : (if (T.lookup id2).isSome = true then some id2 else none) =
        (none : Option String) := hrl2
    by_cases hT : (T.lookup id2).isSome = true
    · rw [if_pos hT] at hrl3
      cases hrl3
    · have hTn : T.lookup id2 = none := by
        cases hTl : T.lookup id2 with
        | none => rfl
        | some t2 => rw [hTl] at hT; exact absurd rfl hT
      show (match T.lookup id2 with
        | some t =>
          { outbound := setAdd acc.outbound id2,
            state := replaceTextM (mergeEntityDataM acc.state r.2.2
              [("noteId", DVal.str id2), ("title", DVal.str t)]) bk r.1 r.2.1
              (some r.2.2) ("[[" ++ t ++ "]]") }
        | none =>
          { acc with state := replaceTextM acc.state bk r.1 r.2.1 none
                       ("[[" ++ (storedTitleOf (entityData em0 r.2.2)).getD
                         "Untitled" ++ "]]") } : AnalyzeAcc) = _
      rw [hTn]
      rfl

theorem emEvolved_applyMerges (T : TitleMap) {em0 : EntityMap} :
    ∀ (rs : List (Nat × Nat × Nat)) (em : EntityMap),
      EmEvolved T em0 em → EmEvolved T em0 (applyMerges em0 T em rs) := by
  intro rs
  induction rs with
  | nil => intro em h; exact h
  | cons r rest ih =>
    intro em h
    show EmEvolved T em0 (applyMerges em0 T
      (match runLive em0 T r.2.2 with
       | some id => mergeEmData em r.2.2 (livePayload id ((T.lookup id).getD ""))
       | none => em) rest)
    cases hrl : runLive em0 T r.2.2 with
    | some id => exact ih _ (emEvolved_merge ((T.lookup id).getD "") h hrl)
    | none => exact ih _ h

theorem map_replace_compose (bk : String) (g1 g2 : List CChar → List CChar)
    (bs : List CBlock) :
    (bs.map (fun b => if b.key = bk then { b with chars := g1 b.chars }
        else b)).map
      (fun b => if b.key = bk then { b with chars := g2 b.chars } else b) =
      bs.map (fun b =>
        if b.key = bk then { b with chars := g2 (g1 b.chars) } else b) := by
  rw [List.map_map]
  apply List.map_congr_left
  intro b _
  show (fun b => if b.key = bk then { b with chars := g2 b.chars } else b)
    ((fun b => if b.key = bk then { b with chars := g1 b.chars } else b) b) = _
  by_cases h : b.key = bk
  · simp only [if_pos h]
  · simp only [if_neg h]

theorem foldl_processRange_eq (T : TitleMap) (bk : String) {em0 : EntityMap} :
    ∀ (rs : List (Nat × Nat × Nat)) (acc : AnalyzeAcc),
      EmEvolved T em0 acc.state.entityMap →
      rs.foldl (processRange T bk) acc =
        ⟨applyOut em0 T acc.outbound rs,
          ⟨acc.state.blocks.map (fun b =>
              if b.key = bk then { b with chars := applyRuns em0 T b.chars rs }
              else b),
            applyMerges em0 T acc.state.entityMap rs⟩⟩ := by
  intro rs
  induction rs with
  | nil =>
    intro acc hev
    have hbmap : acc.state.blocks.map (fun b =>
        if b.key = bk then { b with chars := applyRuns em0 T b.chars [] }
        else b) = acc.state.blocks := by
      have hcongr : ∀ b ∈ acc.state.blocks,
          (if b.key = bk then { b with chars := applyRuns em0 T b.chars [] }
            else b) = b := by
        intro b _
        by_cases h : b.key = bk
        · rw [if_pos h]
          rfl
        · rw [if_neg h]
      rw [List.map_congr_left hcongr]
      exact List.map_id _
    show acc = _
    rw [hbmap]
    rfl
  | cons r rest ih =>
    intro acc hev
    show rest.foldl (processRange T bk) (processRange T bk acc r) = _
    cases hrl : runLive em0 T r.2.2 with
    | some id =>
      obtain ⟨hnid, htis, htrim⟩ := runLive_eq_some hrl
      obtain ⟨t, ht⟩ : ∃ t, T.lookup id = some t := by
        cases hTl : T.lookup id with
        | none => rw [hTl] at htis; cases htis
        | some t2 => exact ⟨t2, rfl⟩
      rw [processRange_eq_live T bk acc r hev hrl ht]
      rw [ih ⟨setAdd acc.outbound id,
          ⟨acc.state.blocks.map (fun b =>
            if b.key = bk then
              { b with chars := splice b.chars r.1 r.2.1 (spanFor em0 T r.2.2) }
            else b),
          mergeEmData acc.state.entityMap r.2.2 (livePayload id t)⟩⟩
        (emEvolved_merge t hev hrl)]
      rw [map_replace_compose bk
        (fun cs => splice cs r.1 r.2.1 (spanFor em0 T r.2.2))
        (fun cs => applyRuns em0 T cs rest) acc.state.blocks]
      have hO : applyOut em0 T acc.outbound (r :: rest) =
          applyOut em0 T (setAdd acc.outbound id) rest := by
        show applyOut em0 T
          (match runLive em0 T r.2.2 with
           | some id => setAdd acc.outbound id
           | none => acc.outbound) rest = _
        rw [hrl]
      have hM : applyMerges em0 T acc.state.entityMap (r :: rest) =
          applyMerges em0 T
            (mergeEmData acc.state.entityMap r.2.2
              (livePayload id ((T.lookup id).getD ""))) rest := by
        show applyMerges em0 T
          (match runLive em0 T r.2.2 with
           | some id =>
             mergeEmData acc.state.entityMap r.2.2
               (livePayload id ((T.lookup id).getD ""))
           | none => acc.state.entityMap) rest = _
        rw [hrl]
      rw [hO, hM, ht]
      rfl
    | none =>
      rw [processRange_eq_broken T bk acc r hev hrl]
      rw [ih ⟨acc.outbound,
          ⟨acc.state.blocks.map (fun b =>
            if b.key = bk then
              { b with chars := splice b.chars r.1 r.2.1 (spanFor em0 T r.2.2) }
            else b),
          acc.state.entityMap⟩⟩ hev]
      rw [map_replace_compose bk
        (fun cs => splice cs r.1 r.2.1 (spanFor em0 T r.2.2))
        (fun cs => applyRuns em0 T cs rest) acc.state.blocks]
      have hO : applyOut em0 T acc.outbound (r :: rest) =
          applyOut em0 T acc.outbound rest := by
        show applyOut em0 T
          (match runLive em0 T r.2.2 with
           | some id => setAdd acc.outbound id
           | none => acc.outbound) rest = _
        rw [hrl]
      have hM : applyMerges em0 T acc.state.entityMap (r :: rest) =
          applyMerges em0 T acc.state.entityMap rest := by
        show applyMerges em0 T
          (match runLive em0 T r.2.2 with
           | some id =>
             mergeEmData acc.state.entityMap r.2.2
               (livePayload id ((T.lookup id).getD ""))
           | none => acc.state.entityMap) rest = _
        rw [hrl]
      rw [hO, hM]
      rfl

/-! ### The block fold, characterised purely -/

def blockRuns (em0 : EntityMap) (b : CBlock) : List (Nat × Nat × Nat) :=
  sortDescBy (fun r => r.1) (linkRuns em0 b.chars)

def settleBlock (em0 : EntityMap) (T : TitleMap) (b : CBlock) : CBlock :=
  { b with chars := settleChars em0 T b.chars }

def docMerges (em0 : EntityMap) (T : TitleMap) (em : EntityMap)
    (bs : List CBlock) : EntityMap :=
  bs.foldl (fun em b => applyMerges em0 T em (blockRuns em0 b)) em

def docOut (em0 : EntityMap) (T : TitleMap) (o : List String)
    (bs : List CBlock) : List String :=
  bs.foldl (fun o b => applyOut em0 T o (blockRuns em0 b)) o

theorem processBlock_eq (T : TitleMap) {em0 : EntityMap} (acc : AnalyzeAcc)
    (bk : String) (b : CBlock)
    (hev : EmEvolved T em0 acc.state.entityMap)
    (hfind : acc.state.blocks.find? (fun x => x.key = bk) = some b)
    (hone : ∀ x ∈ acc.state.blocks, x.key = bk → x = b) :
    processBlock T acc bk =
      ⟨applyOut em0 T acc.outbound (blockRuns em0 b),
        ⟨acc.state.blocks.map (fun x =>
            if x.key = bk then { x with chars := settleChars em0 T x.chars }
            else x),
          applyMerges em0 T acc.state.entityMap (blockRuns em0 b)⟩⟩ := by
  have hPB : processBlock T acc bk =
      (if (linkRuns acc.state.entityMap b.chars).isEmpty then acc
        else (sortDescBy (fun r => r.1)
          (linkRuns acc.state.entityMap b.chars)).foldl
            (processRange T bk) acc) := by
    rw [show processBlock T acc bk =
      (match acc.state.blocks.find? (fun x => x.key = bk) with
       | none => acc
       | some b =>
         if (linkRuns acc.state.entityMap b.chars).isEmpty then acc
         else (sortDescBy (fun r => r.1)
           (linkRuns acc.state.entityMap b.chars)).foldl
             (processRange T bk) acc) from rfl, hfind]
  rw [emEvolved_linkRuns hev b.chars] at hPB
  by_cases hemp : (linkRuns em0 b.chars).isEmpty
  · rw [if_pos hemp] at hPB
    have hnil : linkRuns em0 b.chars = [] := List.isEmpty_iff.mp hemp
    have hbr : blockRuns em0 b = [] := by
      unfold blockRuns
      rw [hnil]
      rfl
    have hbmap : acc.state.blocks.map (fun x =>
        if x.key = bk then { x with chars := settleChars em0 T x.chars }
        else x) = acc.state.blocks := by
      have hcongr : ∀ x ∈ acc.state.blocks,
          (if x.key = bk then { x with chars := settleChars em0 T x.chars }
            else x) = x := by
        intro x hx
        by_cases h : x.key = bk
        · rw [if_pos h]
          have hxb : x = b := hone x hx h
          subst hxb
          have hset : settleChars em0 T x.chars = x.chars :=
            settleGo_no_runs em0 T x.chars 0 hnil
          rw [hset]
        · rw [if_neg h]
      rw [List.map_congr_left hcongr]
      exact List.map_id _
    rw [hPB, hbr, hbmap]
    rfl
  · rw [if_neg hemp] at hPB
    rw [hPB, foldl_processRange_eq T bk
      (sortDescBy (fun r => r.1) (linkRuns em0 b.chars)) acc hev]
    have hbmap : acc.state.blocks.map (fun x =>
        if x.key = bk then
          { x with chars := applyRuns em0 T x.chars
                              (sortDescBy (fun r => r.1)
                                (linkRuns em0 b.chars)) }
        else x) =
        acc.state.blocks.map (fun x =>
          if x.key = bk then { x with chars := settleChars em0 T x.chars }
          else x) := by
      apply List.map_congr_left
      intro x hx
      by_cases h : x.key = bk
      · rw [if_pos h, if_pos h]
        have hxb : x = b := hone x hx h
        subst hxb
        rw [applyRuns_settle em0 T x.chars]
      · rw [if_neg h, if_neg h]
    rw [hbmap]
    rfl

theorem foldl_processBlock_eq (T : TitleMap) {em0 : EntityMap} :
    ∀ (todo done : List CBlock) (o : List String) (em : EntityMap),
      ((done ++ todo).map CBlock.key).Nodup →
      EmEvolved T em0 em →
      ((todo.map CBlock.key).foldl (processBlock T)
        ⟨o, ⟨done.map (settleBlock em0 T) ++ todo, em⟩⟩ : AnalyzeAcc) =
        ⟨docOut em0 T o todo,
          ⟨(done ++ todo).map (settleBlock em0 T),
            docMerges em0 T em todo⟩⟩ := by
  intro todo
  induction todo with
  | nil =>
    intro done o em hnd hev
    show (⟨o, ⟨done.map (settleBlock em0 T) ++ [], em⟩⟩ : AnalyzeAcc) = _
    rw [List.append_nil, List.append_nil]
    rfl
  | cons t0 todo ih =>
    intro done o em hnd hev
    have hndm := hnd
    rw [List.map_append] at hndm
    obtain ⟨hnd_done, hnd_cons, hdisj⟩ := List.nodup_append.mp hndm
    have hnotin_todo : t0.key ∉ todo.map CBlock.key :=
      (List.nodup_cons.mp hnd_cons).1
    have hnotin_done : t0.key ∉ done.map CBlock.key := by
      intro hmem
      exact absurd (List.mem_cons_self t0.key (todo.map CBlock.key))
        (hdisj hmem)
    have hfind : (done.map (settleBlock em0 T) ++ t0 :: todo).find?
        (fun x => x.key = t0.key) = some t0 := by
      rw [List.find?_append]
      have h1 : (done.map (settleBlock em0 T)).find?
          (fun x => x.key = t0.key) = none := by
        rw [List.find?_eq_none]
        intro x hx
        obtain ⟨d, hd, rfl⟩ := List.mem_map.mp hx
        have hkey : (settleBlock em0 T d).key = d.key := rfl
        rw [hkey]
        simp only [decide_eq_true_eq]
        intro hdk
        exact hnotin_done (hdk ▸ List.mem_map_of_mem CBlock.key hd)
      rw [h1]
      have h2 : (t0 :: todo).find? (fun x => x.key = t0.key) = some t0 :=
        List.find?_cons_of_pos todo (by simp)
      rw [h2]
      rfl
    have hone : ∀ x ∈ done.map (settleBlock em0 T) ++ t0 :: todo,
        x.key = t0.key → x = t0 := by
      intro x hx hxk
      rcases List.mem_append.mp hx with h1 | h1
      · obtain ⟨d, hd, rfl⟩ := List.mem_map.mp h1
        have : d.key = t0.key := hxk
        exact absurd (this ▸ List.mem_map_of_mem CBlock.key hd) hnotin_done
      · rcases List.mem_cons.mp h1 with rfl | h1
        · rfl
        · exact absurd (hxk ▸ List.mem_map_of_mem CBlock.key h1) hnotin_todo
    show (todo.map CBlock.key).foldl (processBlock T)
      (processBlock T
        ⟨o, ⟨done.map (settleBlock em0 T) ++ t0 :: todo, em⟩⟩ t0.key) = _
    rw [processBlock_eq T
      ⟨o, ⟨done.map (settleBlock em0 T) ++ t0 :: todo, em⟩⟩ t0.key t0
      hev hfind hone]
    have hblocks : (done.map (settleBlock em0 T) ++ t0 :: todo).map
        (fun x => if x.key = t0.key then
          { x with chars := settleChars em0 T x.chars } else x) =
        (done ++ [t0]).map (settleBlock em0 T) ++ todo := by
      rw [List.map_append, List.map_append]
      have hd : (done.map (settleBlock em0 T)).map
          (fun x => if x.key = t0.key then
            { x with chars := settleChars em0 T x.chars } else x) =
          done.map (settleBlock em0 T) := by
        have hcg : ∀ x ∈ done.map (settleBlock em0 T),
            (if x.key = t0.key then
              { x with chars := settleChars em0 T x.chars } else x) = x := by
          intro x hx
          obtain ⟨d, hd2, rfl⟩ := List.mem_map.mp hx
          have hne : (settleBlock em0 T d).key ≠ t0.key := by
            show d.key ≠ t0.key
            intro hdk
            exact hnotin_done (hdk ▸ List.mem_map_of_mem CBlock.key hd2)
          rw [if_neg hne]
        rw [List.map_congr_left hcg]
        exact List.map_id _
      have ht : (t0 :: todo).map
          (fun x => if x.key = t0.key then
            { x with chars := settleChars em0 T x.chars } else x) =
          settleBlock em0 T t0 :: todo := by
        rw [List.map_cons, if_pos rfl]
        have htodo : todo.map (fun x => if x.key = t0.key then
            { x with chars := settleChars em0 T x.chars } else x) = todo := by
          have hcg : ∀ x ∈ todo,
              (if x.key = t0.key then
                { x with chars := settleChars em0 T x.chars } else x) = x := by
            intro x hx
            have hne : x.key ≠ t0.key := by
              intro hxk
              exact hnotin_todo (hxk ▸ List.mem_map_of_mem CBlock.key hx)
            rw [if_neg hne]
          rw [List.map_congr_left hcg]
          exact List.map_id _
        rw [htodo]
        rfl
      rw [hd, ht]
      rw [List.append_assoc]
      rfl
    rw [hblocks]
    have hnd3 : (((done ++ [t0]) ++ todo).map CBlock.key).Nodup := by
      rw [← List.append_cons done t0 todo]
      exact hnd
    have hres := ih (done ++ [t0]) (applyOut em0 T o (blockRuns em0 t0))
      (applyMerges em0 T em (blockRuns em0 t0)) hnd3
      (emEvolved_applyMerges T (blockRuns em0 t0) em hev)
    rw [hres]
    rw [← List.append_cons done t0 todo]
    rfl

/-! ### Key uniqueness after cleanup -/

theorem upsertBlock_keys_of_mem (acc : List CBlock) (b : CBlock)
    (h : acc.any (fun x => x.key = b.key)) :
    (upsertBlock acc b).map CBlock.key = acc.map CBlock.key := by
  unfold upsertBlock
  rw [if_pos h, List.map_map]
  apply List.map_congr_left
  intro x _
  show (if x.key = b.key then b else x).key = x.key
  by_cases hx : x.key = b.key
  · rw [if_pos hx]
    exact hx.symm
  · rw [if_neg hx]

theorem foldl_upsertBlock_keys_nodup :
    ∀ (bs : List CBlock) (acc : List CBlock),
      (acc.map CBlock.key).Nodup →
      ((bs.foldl upsertBlock acc).map CBlock.key).Nodup := by
  intro bs
  induction bs with
  | nil => intro acc h; exact h
  | cons b bs ih =>
    intro acc h
    show ((bs.foldl upsertBlock (upsertBlock acc b)).map CBlock.key).Nodup
    apply ih
    by_cases hmem : acc.any (fun x => x.key = b.key)
    · rw [upsertBlock_keys_of_mem acc b hmem]
      exact h
    · unfold upsertBlock
      rw [if_neg hmem, List.map_append]
      rw [List.nodup_append]
      refine ⟨h, List.nodup_singleton _, ?_⟩
      intro a ha hb
      rcases List.mem_singleton.mp hb with rfl
      obtain ⟨x, hx, hxk⟩ := List.mem_map.mp ha
      rw [List.any_eq_true] at hmem
      exact hmem ⟨x, hx, by simp [hxk]⟩

theorem dedupBlocks_keys_nodup (bs : List CBlock) :
    ((dedupBlocks bs).map CBlock.key).Nodup :=
  foldl_upsertBlock_keys_nodup bs [] List.nodup_nil

theorem convertFromRawM_keys_nodup (r : ContentState) :
    ((convertFromRawM r).blocks.map CBlock.key).Nodup :=
  dedupBlocks_keys_nodup _

/-! ### The scan of a parsed note, characterised purely -/

theorem analyze_jsonOf_eq (n : MNote) (T : TitleMap) (r : ContentState)
    (bb : Bool) (hc : n.content = .jsonOf r bb) :
    analyzeNoteContent n T =
      (docOut (convertFromRawM r).entityMap T [] (convertFromRawM r).blocks,
       .jsonOf (convertToRawM
         ⟨(convertFromRawM r).blocks.map
             (settleBlock (convertFromRawM r).entityMap T),
           docMerges (convertFromRawM r).entityMap T
             (convertFromRawM r).entityMap (convertFromRawM r).blocks⟩)
         true) := by
  unfold analyzeNoteContent
  rw [hc]
  show ((((convertFromRawM r).blocks.map CBlock.key).foldl (processBlock T)
      ⟨[], convertFromRawM r⟩).outbound,
    ContentStr.jsonOf (convertToRawM
      ((((convertFromRawM r).blocks.map CBlock.key).foldl (processBlock T)
        ⟨[], convertFromRawM r⟩).state)) true) = _
  have hfold : (((convertFromRawM r).blocks.map CBlock.key).foldl
      (processBlock T) ⟨[], convertFromRawM r⟩ : AnalyzeAcc) =
      ⟨docOut (convertFromRawM r).entityMap T [] (convertFromRawM r).blocks,
        ⟨(convertFromRawM r).blocks.map
            (settleBlock (convertFromRawM r).entityMap T),
          docMerges (convertFromRawM r).entityMap T
            (convertFromRawM r).entityMap (convertFromRawM r).blocks⟩⟩ :=
    foldl_processBlock_eq T (convertFromRawM r).blocks [] []
      (convertFromRawM r).entityMap (convertFromRawM_keys_nodup r)
      (emEvolved_refl T (convertFromRawM r).entityMap)
  rw [hfold]

/-! ### Canonical style lists -/

theorem charListLt_irrefl : ∀ l : List Char, charListLt l l = false := by
  intro l
  induction l with
  | nil => rfl
  | cons a as ih =>
    show (if a.val < a.val then true
      else if a.val < a.val then false else charListLt as as) = false
    rw [if_neg (UInt32.lt_irrefl a.val), if_neg (UInt32.lt_irrefl a.val)]
    exact ih

theorem charListLt_trichotomy : ∀ a b : List Char,
    charListLt a b = true ∨ a = b ∨ charListLt b a = true := by
  intro a
  induction a with
  | nil =>
    intro b
    cases b with
    | nil => right; left; rfl
    | cons y ys => left; rfl
  | cons x xs ih =>
    intro b
    cases b with
    | nil => right; right; rfl
    | cons y ys =>
      show (if x.val < y.val then true
          else if y.val < x.val then false else charListLt xs ys) = true ∨ _
      by_cases h1 : x.val < y.val
      · left
        rw [if_pos h1]
      · by_cases h2 : y.val < x.val
        · right; right
          show (if y.val < x.val then true
            else if x.val < y.val then false else charListLt ys xs) = true
          rw [if_pos h2]
        · have hxy : x = y := Char.ext
            (UInt32.le_antisymm (UInt32.not_lt.mp h2) (UInt32.not_lt.mp h1))
          rcases ih ys with h | h | h
          · left
            rw [if_neg h1, if_neg h2]
            exact h
          · right; left
            rw [hxy, h]
          · right; right
            show (if y.val < x.val then true
              else if x.val < y.val then false else charListLt ys xs) = true
            rw [if_neg h2, if_neg h1]
            exact h

theorem strLtB_irrefl (s : String) : strLtB s s = false :=
  charListLt_irrefl s.data

theorem strLtB_total (a b : String) :
    strLtB a b = true ∨ a = b ∨ strLtB b a = true := by
  rcases charListLt_trichotomy a.data b.data with h | h | h
  · left; exact h
  · right; left; exact strData_inj h
  · right; right; exact h

theorem insertStr_chain (x : String) :
    ∀ l, List.Chain' (fun a b => strLtB a b = true) l →
      List.Chain' (fun a b => strLtB a b = true) (insertStr x l) := by
  intro l
  induction l with
  | nil =>
    intro _
    exact List.chain'_singleton x
  | cons y ys ih =>
    intro hch
    obtain ⟨hhead, htail⟩ := List.chain'_cons'.mp hch
    show List.Chain' _ (if x = y then y :: ys
      else if strLtB x y then x :: y :: ys else y :: insertStr x ys)
    by_cases hxy : x = y
    · rw [if_pos hxy]
      exact hch
    · rw [if_neg hxy]
      by_cases hlt : strLtB x y = true
      · rw [if_pos hlt]
        exact List.chain'_cons.mpr ⟨hlt, hch⟩
      · rw [if_neg hlt]
      
        have hyx : strLtB y x = true := by
          rcases strLtB_total x y with h | h | h
          · exact absurd h hlt
          · exact absurd h hxy
          · exact h
        refine List.chain'_cons'.mpr ⟨?_, ih htail⟩
        intro z hz
        cases ys with
        | nil =>
          have : z = x := by
            simp only [show insertStr x [] = [x] from rfl,
              List.head?_cons, Option.mem_def, Option.some.injEq] at hz
            exact hz.symm
          rw [this]
          exact hyx
        | cons w ws =>
          have hz2 : z ∈ (if x = w then w :: ws
              else if strLtB x w then x :: w :: ws
              else w :: insertStr x ws).head? := hz
          by_cases hxw : x = w
          · rw [if_pos hxw] at hz2
            have : z = w := by
              simp only [List.head?_cons, Option.mem_def,
                Option.some.injEq] at hz2
              exact hz2.symm
            rw [this]
            exact hhead w (by rw [List.head?_cons]; rfl)
          · rw [if_neg hxw] at hz2
            by_cases hltw : strLtB x w = true
            · rw [if_pos hltw] at hz2
              have : z = x := by
                simp only [List.head?_cons, Option.mem_def,
                  Option.some.injEq] at hz2
                exact hz2.symm
              rw [this]
              exact hyx
            · rw [if_neg hltw] at hz2
              have : z = w := by
                simp only [List.head?_cons, Option.mem_def,
                  Option.some.injEq] at hz2
                exact hz2.symm
              rw [this]
              exact hhead w (by rw [List.head?_cons]; rfl)

theorem sortDedupStr_chain (l : List String) :
    List.Chain' (fun a b => strLtB a b = true) (sortDedupStr l) := by
  induction l with
  | nil => exact List.chain'_nil
  | cons x xs ih =>
    show List.Chain' _ (insertStr x (sortDedupStr xs))
    exact insertStr_chain x (sortDedupStr xs) ih

theorem sortDedupStr_of_chain :
    ∀ l, List.Chain' (fun a b => strLtB a b = true) l →
      sortDedupStr l = l := by
  intro l
  induction l with
  | nil => intro _; rfl
  | cons x xs ih =>
    intro hch
    obtain ⟨hhead, htail⟩ := List.chain'_cons'.mp hch
    show insertStr x (sortDedupStr xs) = x :: xs
    rw [ih htail]
    cases xs with
    | nil => rfl
    | cons y ys =>
      have hlt : strLtB x y = true := hhead y (by rw [List.head?_cons]; rfl)
      have hne : x ≠ y := by
        intro he
        rw [he, strLtB_irrefl] at hlt
        cases hlt
      show (if x = y then y :: ys
        else if strLtB x y then x :: y :: ys else y :: insertStr x ys) = _
      rw [if_neg hne, if_pos hlt]

theorem sortDedupStr_idem (l : List String) :
    sortDedupStr (sortDedupStr l) = sortDedupStr l :=
  sortDedupStr_of_chain (sortDedupStr l) (sortDedupStr_chain l)


/-! ### Used entity keys: membership, liveness, uniqueness -/

/-- One step of the `usedEntityKeys` character fold. -/
def collectChar (em : EntityMap) (acc : List Nat) (c : CChar) : List Nat :=
  match c.entity with
  | some k =>
    if (em.lookup k).isSome ∧ ¬ acc.contains k then acc ++ [k] else acc
  | none => acc

/-- One step of the `usedEntityKeys` block fold. -/
def collectBlock (em : EntityMap) (acc : List Nat) (b : CBlock) : List Nat :=
  b.chars.foldl (collectChar em) acc

theorem usedEntityKeys_eq (S : ContentState) :
    usedEntityKeys S = S.blocks.foldl (collectBlock S.entityMap) [] := rfl

theorem collectChar_mem (em : EntityMap) (acc : List Nat) (c : CChar)
    (x : Nat) (hx : x ∈ acc) : x ∈ collectChar em acc c := by
  unfold collectChar
  cases hc : c.entity with
  | none => exact hx
  | some k =>
    show x ∈ (if (em.lookup k).isSome ∧ ¬ acc.contains k
      then acc ++ [k] else acc)
    by_cases h : (em.lookup k).isSome ∧ ¬ acc.contains k
    · rw [if_pos h]; exact List.mem_append_left _ hx
    · rw [if_neg h]; exact hx

theorem foldl_collectChar_mem (em : EntityMap) :
    ∀ (cs : List CChar) (acc : List Nat) (x : Nat), x ∈ acc →
      x ∈ cs.foldl (collectChar em) acc := by
  intro cs
  induction cs with
  | nil => intro acc x hx; exact hx
  | cons c rest ih =>
    intro acc x hx
    exact ih _ _ (collectChar_mem em acc c x hx)

theorem foldl_collectBlock_mem (em : EntityMap) :
    ∀ (bs : List CBlock) (acc : List Nat) (x : Nat), x ∈ acc →
      x ∈ bs.foldl (collectBlock em) acc := by
  intro bs
  induction bs with
  | nil => intro acc x hx; exact hx
  | cons b rest ih =>
    intro acc x hx
    exact ih _ _ (foldl_collectChar_mem em b.chars acc x hx)

theorem collectChar_isSome (em : EntityMap) (acc : List Nat) (c : CChar)
    (x : Nat) (hx : x ∈ collectChar em acc c) :
    x ∈ acc ∨ (em.lookup x).isSome = true := by
  unfold collectChar at hx
  cases hc : c.entity with
  | none => rw [hc] at hx; exact Or.inl hx
  | some k =>
    rw [hc] at hx
    have hx2 : x ∈ (if (em.lookup k).isSome ∧ ¬ acc.contains k
        then acc ++ [k] else acc) := hx
    by_cases h : (em.lookup k).isSome ∧ ¬ acc.contains k
    · rw [if_pos h] at hx2
      rcases List.mem_append.mp hx2 with h1 | h1
      · exact Or.inl h1
      · have hxk : x = k := List.mem_singleton.mp h1
        subst hxk
        exact Or.inr h.1
    · rw [if_neg h] at hx2; exact Or.inl hx2

theorem foldl_collectChar_isSome (em : EntityMap) :
    ∀ (cs : List CChar) (acc : List Nat) (x : Nat),
      x ∈ cs.foldl (collectChar em) acc →
      x ∈ acc ∨ (em.lookup x).isSome = true := by
  intro cs
  induction cs with
  | nil => intro acc x hx; exact Or.inl hx
  | cons c rest ih =>
    intro acc x hx
    rcases ih _ _ hx with h1 | h1
    · exact collectChar_isSome em acc c x h1
    · exact Or.inr h1

theorem foldl_collectBlock_isSome (em : EntityMap) :
    ∀ (bs : List CBlock) (acc : List Nat) (x : Nat),
      x ∈ bs.foldl (collectBlock em) acc →
      x ∈ acc ∨ (em.lookup x).isSome = true := by
  intro bs
  induction bs with
  | nil => intro acc x hx; exact Or.inl hx
  | cons b rest ih =>
    intro acc x hx
    rcases ih _ _ hx with h1 | h1
    · exact foldl_collectChar_isSome em b.chars acc x h1
    · exact Or.inr h1

theorem usedEntityKeys_isSome (S : ContentState) (k : Nat)
    (hk : k ∈ usedEntityKeys S) : (S.entityMap.lookup k).isSome = true := by
  rw [usedEntityKeys_eq] at hk
  rcases foldl_collectBlock_isSome S.entityMap S.blocks [] k hk with h | h
  · exact absurd h (List.not_mem_nil k)
  · exact h

theorem collectChar_nodup (em : EntityMap) (acc : List Nat) (c : CChar)
    (h : acc.Nodup) : (collectChar em acc c).Nodup := by
  unfold collectChar
  cases hc : c.entity with
  | none => exact h
  | some k =>
    show ((if (em.lookup k).isSome ∧ ¬ acc.contains k
      then acc ++ [k] else acc) : List Nat).Nodup
    by_cases hcond : (em.lookup k).isSome ∧ ¬ acc.contains k
    · rw [if_pos hcond]
      rw [List.nodup_append]
      refine ⟨h, List.nodup_singleton k, ?_⟩
      intro a ha hb
      have hak : a = k := List.mem_singleton.mp hb
      subst hak
      exact hcond.2 (List.elem_iff.mpr ha)
    · rw [if_neg hcond]; exact h

theorem foldl_collectChar_nodup (em : EntityMap) :
    ∀ (cs : List CChar) (acc : List Nat), acc.Nodup →
      (cs.foldl (collectChar em) acc).Nodup := by
  intro cs
  induction cs with
  | nil => intro acc h; exact h
  | cons c rest ih =>
    intro acc h
    exact ih _ (collectChar_nodup em acc c h)

theorem foldl_collectBlock_nodup (em : EntityMap) :
    ∀ (bs : List CBlock) (acc : List Nat), acc.Nodup →
      (bs.foldl (collectBlock em) acc).Nodup := by
  intro bs
  induction bs with
  | nil => intro acc h; exact h
  | cons b rest ih =>
    intro acc h
    exact ih _ (foldl_collectChar_nodup em b.chars acc h)

theorem usedEntityKeys_nodup (S : ContentState) : (usedEntityKeys S).Nodup := by
  rw [usedEntityKeys_eq]
  exact foldl_collectBlock_nodup S.entityMap S.blocks [] List.nodup_nil

theorem collectChar_mem_self (em : EntityMap) (acc : List Nat) (c : CChar)
    (k : Nat) (hc : c.entity = some k) (hl : (em.lookup k).isSome = true) :
    k ∈ collectChar em acc c := by
  unfold collectChar
  rw [hc]
  show k ∈ (if (em.lookup k).isSome ∧ ¬ acc.contains k
    then acc ++ [k] else acc)
  by_cases hcond : (em.lookup k).isSome ∧ ¬ acc.contains k
  · rw [if_pos hcond]
    exact List.mem_append_right _ (List.mem_singleton.mpr rfl)
  · rw [if_neg hcond]
    by_cases hmem : k ∈ acc
    · exact hmem
    · exact absurd ⟨hl, fun hcon => hmem (List.elem_iff.mp hcon)⟩ hcond

theorem foldl_collectChar_mem_self (em : EntityMap) :
    ∀ (cs : List CChar) (acc : List Nat) (c : CChar) (k : Nat),
      c ∈ cs → c.entity = some k → (em.lookup k).isSome = true →
      k ∈ cs.foldl (collectChar em) acc := by
  intro cs
  induction cs with
  | nil => intro acc c k hmem _ _; exact absurd hmem (List.not_mem_nil c)
  | cons c0 rest ih =>
    intro acc c k hmem hc hl
    rcases List.mem_cons.mp hmem with h1 | h1
    · subst h1
      exact foldl_collectChar_mem em rest _ k
        (collectChar_mem_self em acc c k hc hl)
    · exact ih _ c k h1 hc hl

theorem foldl_collectBlock_mem_self (em : EntityMap) :
    ∀ (bs : List CBlock) (acc : List Nat) (b : CBlock) (c : CChar) (k : Nat),
      b ∈ bs → c ∈ b.chars → c.entity = some k →
      (em.lookup k).isSome = true →
      k ∈ bs.foldl (collectBlock em) acc := by
  intro bs
  induction bs with
  | nil => intro acc b c k hmem _ _ _; exact absurd hmem (List.not_mem_nil b)
  | cons b0 rest ih =>
    intro acc b c k hmem hcm hc hl
    rcases List.mem_cons.mp hmem with h1 | h1
    · subst h1
      exact foldl_collectBlock_mem em rest _ k
        (foldl_collectChar_mem_self em b.chars acc c k hcm hc hl)
    · exact ih _ b c k h1 hcm hc hl

theorem usedEntityKeys_mem (S : ContentState) (b : CBlock) (c : CChar)
    (k : Nat) (hb : b ∈ S.blocks) (hc : c ∈ b.chars) (he : c.entity = some k)
    (hl : (S.entityMap.lookup k).isSome = true) : k ∈ usedEntityKeys S := by
  rw [usedEntityKeys_eq]
  exact foldl_collectBlock_mem_self S.entityMap S.blocks [] b c k hb hc he hl
/-! ### Index-of and enumeration lemmas for the renumbering -/

theorem indexOf_cons_self (x : Nat) (xs : List Nat) :
    (x :: xs).indexOf? x = some 0 := by
  show List.findIdx? (fun y => y == x) (x :: xs) 0 = some 0
  rw [List.findIdx?_cons, if_pos (by simp)]

theorem indexOf_cons_ne {x k : Nat} (xs : List Nat) (h : x ≠ k) :
    (x :: xs).indexOf? k = (xs.indexOf? k).map (fun i => i + 1) := by
  show List.findIdx? (fun y => y == k) (x :: xs) 0 = _
  rw [List.findIdx?_cons, if_neg (by simp [h]), List.findIdx?_succ]
  rfl

theorem mem_indexOf {k : Nat} :
    ∀ {l : List Nat}, k ∈ l → ∃ m, l.indexOf? k = some m ∧ m < l.length := by
  intro l
  induction l with
  | nil => intro h; exact absurd h (List.not_mem_nil k)
  | cons x xs ih =>
    intro h
    by_cases hxk : x = k
    · subst hxk
      exact ⟨0, indexOf_cons_self x xs, by simp⟩
    · have hmem : k ∈ xs := by
        rcases List.mem_cons.mp h with h1 | h1
        · exact absurd h1.symm hxk
        · exact h1
      rcases ih hmem with ⟨m, hm, hlt⟩
      refine ⟨m + 1, ?_, by simp; omega⟩
      rw [indexOf_cons_ne xs hxk, hm]
      rfl

theorem indexOf_eq_none {k : Nat} :
    ∀ {l : List Nat}, k ∉ l → l.indexOf? k = none := by
  intro l
  induction l with
  | nil => intro _; rfl
  | cons x xs ih =>
    intro h
    have hxk : x ≠ k := fun he => h (he ▸ List.mem_cons_self x xs)
    have hmem : k ∉ xs := fun hm => h (List.mem_cons_of_mem x hm)
    rw [indexOf_cons_ne xs hxk, ih hmem]
    rfl

theorem indexOf_inj :
    ∀ (l : List Nat) {k j : Nat}, k ∈ l → j ∈ l →
      l.indexOf? k = l.indexOf? j → k = j := by
  intro l
  induction l with
  | nil => intro k j hk _ _; exact absurd hk (List.not_mem_nil k)
  | cons x xs ih =>
    intro k j hk hj heq
    by_cases hxk : x = k <;> by_cases hxj : x = j
    · rw [← hxk, ← hxj]
    · have hjm : j ∈ xs := by
        rcases List.mem_cons.mp hj with h1 | h1
        · exact absurd h1.symm hxj
        · exact h1
      subst hxk
      rw [indexOf_cons_self] at heq
      rw [indexOf_cons_ne xs hxj] at heq
      rcases mem_indexOf hjm with ⟨m, hm, _⟩
      rw [hm] at heq
      exact absurd heq (by simp)
    · have hkm : k ∈ xs := by
        rcases List.mem_cons.mp hk with h1 | h1
        · exact absurd h1.symm hxk
        · exact h1
      subst hxj
      rw [indexOf_cons_self] at heq
      rw [indexOf_cons_ne xs hxk] at heq
      rcases mem_indexOf hkm with ⟨m, hm, _⟩
      rw [hm] at heq
      exact absurd heq (by simp)
    · have hkm : k ∈ xs := by
        rcases List.mem_cons.mp hk with h1 | h1
        · exact absurd h1.symm hxk
        · exact h1
      have hjm : j ∈ xs := by
        rcases List.mem_cons.mp hj with h1 | h1
        · exact absurd h1.symm hxj
        · exact h1
      rw [indexOf_cons_ne xs hxk, indexOf_cons_ne xs hxj] at heq
      rcases mem_indexOf hkm with ⟨m, hm, _⟩
      rcases mem_indexOf hjm with ⟨m2, hm2, _⟩
      rw [hm, hm2] at heq
      have hmm : m = m2 := by
        have h2 : some (m + 1) = some (m2 + 1) := heq
        injection h2 with h3
        omega
      refine ih hkm hjm ?_
      rw [hm, hm2, hmm]

theorem map_indexOf_self :
    ∀ (l : List Nat), l.Nodup →
      l.map (fun k => (l.indexOf? k).getD 0) = List.range l.length := by
  intro l
  induction l with
  | nil => intro _; rfl
  | cons x xs ih =>
    intro h
    have hx : x ∉ xs := (List.nodup_cons.mp h).1
    have hxs : xs.Nodup := (List.nodup_cons.mp h).2
    have hcg : ∀ k ∈ xs, (fun k => (((x :: xs).indexOf? k).getD 0)) k =
        (fun k => ((xs.indexOf? k).getD 0) + 1) k := by
      intro k hk
      have hne : x ≠ k := fun he => hx (he ▸ hk)
      show (((x :: xs).indexOf? k).getD 0) = ((xs.indexOf? k).getD 0) + 1
      rw [indexOf_cons_ne xs hne]
      rcases mem_indexOf hk with ⟨m, hm, _⟩
      rw [hm]
      rfl
    rw [List.map_cons, indexOf_cons_self]
    have h2 : xs.map (fun k => (((x :: xs).indexOf? k).getD 0)) =
        xs.map (fun k => ((xs.indexOf? k).getD 0) + 1) :=
      List.map_congr_left hcg
    have h3 : xs.map (fun k => ((xs.indexOf? k).getD 0) + 1) =
        (xs.map (fun k => (xs.indexOf? k).getD 0)).map (fun i => i + 1) := by
      rw [List.map_map]
      rfl
    rw [h2, h3, ih hxs, List.length_cons, List.range_succ_eq_map]
    rfl

theorem lookup_enumFrom_indexOf {β : Type} (g : Nat → β) :
    ∀ (l : List Nat) (i0 k m : Nat), l.indexOf? k = some m →
      List.lookup (i0 + m) (List.enumFrom i0 (l.map g)) = some (g k) := by
  intro l
  induction l with
  | nil =>
    intro i0 k m hm
    have hm2 : (none : Option Nat) = some m := hm
    exact absurd hm2 (by simp)
  | cons x xs ih =>
    intro i0 k m hm
    by_cases hxk : x = k
    · subst hxk
      rw [indexOf_cons_self] at hm
      have hm0 : m = 0 := by
        have h2 : some 0 = some m := hm
        injection h2 with h3
        omega
      subst hm0
      rw [List.map_cons, List.enumFrom_cons, List.lookup_cons]
      have hb : ((i0 + 0) == i0) = true := by simp
      rw [hb]
    · rw [indexOf_cons_ne xs hxk] at hm
      cases hxs : xs.indexOf? k with
      | none =>
        rw [hxs] at hm
        exact absurd hm (by simp)
      | some m0 =>
        rw [hxs] at hm
        have hm0 : m = m0 + 1 := by
          have h2 : some (m0 + 1) = some m := hm
          injection h2 with h3
          omega
        subst hm0
        rw [List.map_cons, List.enumFrom_cons, List.lookup_cons]
        have hb : ((i0 + (m0 + 1)) == i0) = false :=
          beq_eq_false_iff_ne.mpr (by omega)
        rw [hb]
        have harith : i0 + (m0 + 1) = (i0 + 1) + m0 := by omega
        rw [harith]
        exact ih (i0 + 1) k m0 hxs

theorem enumFrom_map_fst {β : Type} :
    ∀ (l : List β) (i0 : Nat),
      (List.enumFrom i0 l).map Prod.fst = List.range' i0 l.length := by
  intro l
  induction l with
  | nil => intro i0; rfl
  | cons x xs ih =>
    intro i0
    rw [List.enumFrom_cons, List.map_cons, List.length_cons,
      List.range'_succ]
    rw [ih (i0 + 1)]

theorem filterMap_lookup_self {β : Type} :
    ∀ (em : List (Nat × β)), (em.map Prod.fst).Nodup →
      (em.map Prod.fst).filterMap
        (fun k => (List.lookup k em).map (fun e => (k, e))) = em := by
  intro em
  induction em with
  | nil => intro _; rfl
  | cons p rest ih =>
    intro h
    obtain ⟨k, e⟩ := p
    rw [List.map_cons] at h ⊢
    have hk : k ∉ rest.map Prod.fst := (List.nodup_cons.mp h).1
    have hrest : (rest.map Prod.fst).Nodup := (List.nodup_cons.mp h).2
    rw [List.filterMap_cons]
    rw [List.lookup_cons_self]
    have hcg : ∀ k2 ∈ rest.map Prod.fst,
        (fun k2 => (List.lookup k2 ((k, e) :: rest)).map
          (fun e2 => (k2, e2))) k2 =
        (fun k2 => (List.lookup k2 rest).map (fun e2 => (k2, e2))) k2 := by
      intro k2 hk2
      have hne : k2 ≠ k := fun he => hk (he ▸ hk2)
      show (List.lookup k2 ((k, e) :: rest)).map (fun e2 => (k2, e2)) = _
      rw [List.lookup_cons]
      have hb : (k2 == k) = false := beq_eq_false_iff_ne.mpr hne
      rw [hb]
    rw [List.filterMap_congr hcg, ih hrest]
    rfl

/-! ### Deduplication is the identity on key-unique inputs -/

theorem foldl_upsertEntity_of_nodup :
    ∀ (em acc : EntityMap), ((acc ++ em).map Prod.fst).Nodup →
      em.foldl upsertEntity acc = acc ++ em := by
  intro em
  induction em with
  | nil => intro acc _; rw [List.append_nil]; rfl
  | cons p rest ih =>
    intro acc h
    have hmap : (acc.map Prod.fst ++ p.1 :: rest.map Prod.fst).Nodup := by
      have h2 := h
      rw [List.map_append, List.map_cons] at h2
      exact h2
    have hnotin : p.1 ∉ acc.map Prod.fst := by
      intro hmem
      have hdisj := (List.nodup_append.mp hmap).2.2
      exact hdisj hmem (List.mem_cons_self _ _)
    have hany : acc.any (fun x => decide (x.1 = p.1)) = false := by
      rw [List.any_eq_false]
      intro x hx
      simp only [decide_eq_true_eq]
      intro hxe
      exact hnotin (hxe ▸ List.mem_map_of_mem Prod.fst hx)
    have hstep : upsertEntity acc p = acc ++ [p] := by
      unfold upsertEntity
      rw [if_neg]
      intro hcond
      rw [hany] at hcond
      exact Bool.false_ne_true hcond
    show rest.foldl upsertEntity (upsertEntity acc p) = acc ++ p :: rest
    rw [hstep]
    have h2 : (((acc ++ [p]) ++ rest).map Prod.fst).Nodup := by
      rw [List.append_assoc, List.singleton_append]
      exact h
    rw [ih (acc ++ [p]) h2, List.append_assoc, List.singleton_append]

theorem dedupEntityMap_of_nodup (em : EntityMap)
    (h : (em.map Prod.fst).Nodup) : dedupEntityMap em = em := by
  unfold dedupEntityMap
  have h2 : ((([] : EntityMap) ++ em).map Prod.fst).Nodup := by
    rw [List.nil_append]
    exact h
  rw [foldl_upsertEntity_of_nodup em [] h2, List.nil_append]

theorem foldl_upsertBlock_of_nodup :
    ∀ (bs acc : List CBlock), ((acc ++ bs).map CBlock.key).Nodup →
      bs.foldl upsertBlock acc = acc ++ bs := by
  intro bs
  induction bs with
  | nil => intro acc _; rw [List.append_nil]; rfl
  | cons b rest ih =>
    intro acc h
    have hmap : (acc.map CBlock.key ++ b.key :: rest.map CBlock.key).Nodup := by
      have h2 := h
      rw [List.map_append, List.map_cons] at h2
      exact h2
    have hnotin : b.key ∉ acc.map CBlock.key := by
      intro hmem
      have hdisj := (List.nodup_append.mp hmap).2.2
      exact hdisj hmem (List.mem_cons_self _ _)
    have hany : acc.any (fun x => decide (x.key = b.key)) = false := by
      rw [List.any_eq_false]
      intro x hx
      simp only [decide_eq_true_eq]
      intro hxe
      exact hnotin (hxe ▸ List.mem_map_of_mem CBlock.key hx)
    have hstep : upsertBlock acc b = acc ++ [b] := by
      unfold upsertBlock
      rw [if_neg]
      intro hcond
      rw [hany] at hcond
      exact Bool.false_ne_true hcond
    show rest.foldl upsertBlock (upsertBlock acc b) = acc ++ b :: rest
    rw [hstep]
    have h2 : (((acc ++ [b]) ++ rest).map CBlock.key).Nodup := by
      rw [List.append_assoc, List.singleton_append]
      exact h
    rw [ih (acc ++ [b]) h2, List.append_assoc, List.singleton_append]

theorem dedupBlocks_of_nodup (bs : List CBlock)
    (h : (bs.map CBlock.key).Nodup) : dedupBlocks bs = bs := by
  unfold dedupBlocks
  have h2 : ((([] : List CBlock) ++ bs).map CBlock.key).Nodup := by
    rw [List.nil_append]
    exact h
  rw [foldl_upsertBlock_of_nodup bs [] h2, List.nil_append]
/-! ### The renumbering map of `convertToRaw` -/

/-- Per-character key renumbering of `convertToRaw`. -/
def renChar (used : List Nat) (c : CChar) : CChar :=
  { c with entity := match c.entity with
      | some k => renumberKey used k
      | none => none }

/-- Per-block key renumbering of `convertToRaw`. -/
def renBlock (used : List Nat) (b : CBlock) : CBlock :=
  { b with chars := b.chars.map (renChar used) }

/-- The entity stored for key `k` (its lookup, with a junk default). -/
def emOf (em : EntityMap) (k : Nat) : Entity :=
  (em.lookup k).getD ⟨"", "", []⟩

theorem convertToRawM_blocks (S : ContentState) :
    (convertToRawM S).blocks =
      S.blocks.map (renBlock (usedEntityKeys S)) := rfl

theorem convertToRawM_entityMap (S : ContentState) :
    (convertToRawM S).entityMap =
      ((usedEntityKeys S).enum).filterMap (fun p =>
        (S.entityMap.lookup p.2).map (fun e => (p.1, e))) := rfl

theorem filterMap_enumFrom_lookup (em : EntityMap) :
    ∀ (l : List Nat) (i0 : Nat), (∀ k ∈ l, (em.lookup k).isSome = true) →
      (List.enumFrom i0 l).filterMap (fun p =>
        (em.lookup p.2).map (fun e => (p.1, e))) =
        List.enumFrom i0 (l.map (emOf em)) := by
  intro l
  induction l with
  | nil => intro i0 _; rfl
  | cons k ks ih =>
    intro i0 h
    have hk := h k (List.mem_cons_self k ks)
    have hlk : em.lookup k = some (emOf em k) := by
      cases hl : em.lookup k with
      | none => rw [hl] at hk; exact absurd hk (by simp)
      | some e => unfold emOf; rw [hl]; rfl
    simp only [List.enumFrom_cons, List.filterMap_cons, hlk,
      Option.map_some']
    rw [List.map_cons, List.enumFrom_cons,
      ih (i0 + 1) (fun k2 hk2 => h k2 (List.mem_cons_of_mem k hk2))]

theorem convertToRawM_em_enum (S : ContentState) :
    (convertToRawM S).entityMap =
      List.enumFrom 0 ((usedEntityKeys S).map (emOf S.entityMap)) := by
  rw [convertToRawM_entityMap]
  exact filterMap_enumFrom_lookup S.entityMap (usedEntityKeys S) 0
    (fun k hk => usedEntityKeys_isSome S k hk)

theorem toRaw_em_keys (S : ContentState) :
    ((convertToRawM S).entityMap.map Prod.fst) =
      List.range' 0 (usedEntityKeys S).length := by
  rw [convertToRawM_em_enum, enumFrom_map_fst, List.length_map]

theorem toRaw_em_nodup (S : ContentState) :
    ((convertToRawM S).entityMap.map Prod.fst).Nodup := by
  rw [toRaw_em_keys]
  exact List.nodup_range' 0 _

theorem toRaw_em_lookup (S : ContentState) (k m : Nat)
    (hm : (usedEntityKeys S).indexOf? k = some m) :
    List.lookup m (convertToRawM S).entityMap =
      some (emOf S.entityMap k) := by
  rw [convertToRawM_em_enum]
  have h := lookup_enumFrom_indexOf (emOf S.entityMap)
    (usedEntityKeys S) 0 k m hm
  rw [Nat.zero_add] at h
  exact h

theorem toRaw_blocks_keys (S : ContentState) :
    ((convertToRawM S).blocks.map CBlock.key) = S.blocks.map CBlock.key := by
  rw [convertToRawM_blocks, List.map_map]
  rfl

/-! ### Indices into ranges -/

theorem indexOf_range' :
    ∀ (n i j : Nat), i ≤ j → j < i + n →
      (List.range' i n).indexOf? j = some (j - i) := by
  intro n
  induction n with
  | zero => intro i j h1 h2; omega
  | succ n ih =>
    intro i j h1 h2
    rw [List.range'_succ]
    by_cases hij : i = j
    · subst hij
      rw [indexOf_cons_self, Nat.sub_self]
    · have h3 : i + 1 ≤ j := by omega
      rw [indexOf_cons_ne _ hij, ih (i + 1) j h3 (by omega)]
      show some ((j - (i + 1)) + 1) = some (j - i)
      congr 1
      omega

theorem indexOf_range (n j : Nat) (h : j < n) :
    (List.range n).indexOf? j = some j := by
  rw [List.range_eq_range', indexOf_range' n 0 j (Nat.zero_le j) (by omega),
    Nat.sub_zero]

theorem enumFrom_range' :
    ∀ (n i : Nat), List.enumFrom i (List.range' i n) =
      (List.range' i n).map (fun j => (j, j)) := by
  intro n
  induction n with
  | zero => intro i; rfl
  | succ n ih =>
    intro i
    rw [List.range'_succ, List.enumFrom_cons, List.map_cons, ih (i + 1)]
/-! ### `usedEntityKeys` of a renumbered document -/

theorem collectChar_mem_inv (em : EntityMap) (acc : List Nat) (c : CChar)
    (x : Nat) (hx : x ∈ collectChar em acc c) :
    x ∈ acc ∨ (c.entity = some x ∧ (em.lookup x).isSome = true) := by
  unfold collectChar at hx
  cases hc : c.entity with
  | none => rw [hc] at hx; exact Or.inl hx
  | some k =>
    rw [hc] at hx
    have hx2 : x ∈ (if (em.lookup k).isSome ∧ ¬ acc.contains k
        then acc ++ [k] else acc) := hx
    by_cases h : (em.lookup k).isSome ∧ ¬ acc.contains k
    · rw [if_pos h] at hx2
      rcases List.mem_append.mp hx2 with h1 | h1
      · exact Or.inl h1
      · have hxk : x = k := List.mem_singleton.mp h1
        subst hxk
        exact Or.inr ⟨rfl, h.1⟩
    · rw [if_neg h] at hx2; exact Or.inl hx2

theorem foldl_collectChar_inv (em : EntityMap) :
    ∀ (cs : List CChar) (acc : List Nat) (x : Nat),
      x ∈ cs.foldl (collectChar em) acc →
      x ∈ acc ∨ ∃ c ∈ cs, c.entity = some x ∧ (em.lookup x).isSome = true := by
  intro cs
  induction cs with
  | nil => intro acc x hx; exact Or.inl hx
  | cons c rest ih =>
    intro acc x hx
    rcases ih _ _ hx with h1 | h1
    · rcases collectChar_mem_inv em acc c x h1 with h2 | h2
      · exact Or.inl h2
      · exact Or.inr ⟨c, List.mem_cons_self c rest, h2⟩
    · rcases h1 with ⟨c2, hc2, h3⟩
      exact Or.inr ⟨c2, List.mem_cons_of_mem c hc2, h3⟩

theorem collectChar_renum (S : ContentState) (acc : List Nat) (c : CChar)
    (hkc : ∀ k, c.entity = some k → (S.entityMap.lookup k).isSome = true →
      k ∈ usedEntityKeys S)
    (hacc : ∀ x ∈ acc, x ∈ usedEntityKeys S) :
    collectChar (convertToRawM S).entityMap
      (acc.map (fun k => ((usedEntityKeys S).indexOf? k).getD 0))
      (renChar (usedEntityKeys S) c) =
    (collectChar S.entityMap acc c).map
      (fun k => ((usedEntityKeys S).indexOf? k).getD 0) := by
  obtain ⟨ch0, st0, ent0⟩ := c
  cases hce : ent0 with
  | none => rfl
  | some k =>
    subst hce
    cases hl : S.entityMap.lookup k with
    | none =>
      have hnotin : k ∉ usedEntityKeys S := by
        intro hmem
        have := usedEntityKeys_isSome S k hmem
        rw [hl] at this
        exact absurd this (by simp)
      have hren : renumberKey (usedEntityKeys S) k = none :=
        indexOf_eq_none hnotin
      have hlhs : collectChar (convertToRawM S).entityMap
          (acc.map (fun k => ((usedEntityKeys S).indexOf? k).getD 0))
          (renChar (usedEntityKeys S) ⟨ch0, st0, some k⟩) =
          acc.map (fun k => ((usedEntityKeys S).indexOf? k).getD 0) := by
        show (match (renChar (usedEntityKeys S)
            ⟨ch0, st0, some k⟩).entity with
          | some k2 =>
            if ((convertToRawM S).entityMap.lookup k2).isSome ∧
              ¬ (acc.map (fun k =>
                ((usedEntityKeys S).indexOf? k).getD 0)).contains k2 then
              acc.map (fun k => ((usedEntityKeys S).indexOf? k).getD 0)
                ++ [k2]
            else acc.map (fun k => ((usedEntityKeys S).indexOf? k).getD 0)
          | none => acc.map
              (fun k => ((usedEntityKeys S).indexOf? k).getD 0)) = _
        have hent : (renChar (usedEntityKeys S)
            ⟨ch0, st0, some k⟩).entity = none := by
          show renumberKey (usedEntityKeys S) k = none
          exact hren
        rw [hent]
      rw [hlhs]
      have hrhs : collectChar S.entityMap acc ⟨ch0, st0, some k⟩ = acc := by
        show (if (S.entityMap.lookup k).isSome ∧ ¬ acc.contains k
          then acc ++ [k] else acc) = acc
        rw [if_neg]
        intro hcond
        rw [hl] at hcond
        exact absurd hcond.1 (by simp)
      rw [hrhs]
    | some e =>
      have hk : k ∈ usedEntityKeys S := hkc k rfl (by rw [hl]; rfl)
      rcases mem_indexOf hk with ⟨m, hm, _⟩
      have hgd : ((usedEntityKeys S).indexOf? k).getD 0 = m := by
        rw [hm]; rfl
      have hent : (renChar (usedEntityKeys S)
          ⟨ch0, st0, some k⟩).entity = some m := by
        show renumberKey (usedEntityKeys S) k = some m
        exact hm
      have hlook : ((convertToRawM S).entityMap.lookup m).isSome = true := by
        rw [toRaw_em_lookup S k m hm]; rfl
      have hlhs0 : collectChar (convertToRawM S).entityMap
          (acc.map (fun k => ((usedEntityKeys S).indexOf? k).getD 0))
          (renChar (usedEntityKeys S) ⟨ch0, st0, some k⟩) =
          (if ((convertToRawM S).entityMap.lookup m).isSome ∧
            ¬ (acc.map (fun k =>
              ((usedEntityKeys S).indexOf? k).getD 0)).contains m then
            acc.map (fun k => ((usedEntityKeys S).indexOf? k).getD 0) ++ [m]
          else acc.map (fun k =>
            ((usedEntityKeys S).indexOf? k).getD 0)) := by
        show (match (renChar (usedEntityKeys S)
            ⟨ch0, st0, some k⟩).entity with
          | some k2 =>
            if ((convertToRawM S).entityMap.lookup k2).isSome ∧
              ¬ (acc.map (fun k =>
                ((usedEntityKeys S).indexOf? k).getD 0)).contains k2 then
              acc.map (fun k => ((usedEntityKeys S).indexOf? k).getD 0)
                ++ [k2]
            else acc.map (fun k => ((usedEntityKeys S).indexOf? k).getD 0)
          | none => acc.map
              (fun k => ((usedEntityKeys S).indexOf? k).getD 0)) = _
        rw [hent]
      have hrhs0 : collectChar S.entityMap acc ⟨ch0, st0, some k⟩ =
          (if (S.entityMap.lookup k).isSome ∧ ¬ acc.contains k
            then acc ++ [k] else acc) := rfl
      rw [hlhs0, hrhs0]
      have hmem_iff : m ∈ acc.map
          (fun k => ((usedEntityKeys S).indexOf? k).getD 0) ↔ k ∈ acc := by
        constructor
        · intro hmm
          rcases List.mem_map.mp hmm with ⟨a, ha, hae⟩
          have haU : a ∈ usedEntityKeys S := hacc a ha
          rcases mem_indexOf haU with ⟨ma, hma, _⟩
          have : ma = m := by rw [hma] at hae; exact hae
          subst this
          have : a = k := indexOf_inj (usedEntityKeys S) haU hk
            (by rw [hma, hm])
          subst this
          exact ha
        · intro hkk
          have h5 : ((usedEntityKeys S).indexOf? k).getD 0 ∈ acc.map
              (fun k => ((usedEntityKeys S).indexOf? k).getD 0) :=
            List.mem_map_of_mem
              (fun k => ((usedEntityKeys S).indexOf? k).getD 0) hkk
          rw [hgd] at h5
          exact h5
      by_cases hmem : k ∈ acc
      · rw [if_neg, if_neg]
        · intro hcond
          exact hcond.2 (List.elem_iff.mpr hmem)
        · intro hcond
          exact hcond.2 (List.elem_iff.mpr (hmem_iff.mpr hmem))
      · rw [if_pos, if_pos]
        · rw [List.map_append]
          show _ = acc.map (fun k =>
            ((usedEntityKeys S).indexOf? k).getD 0) ++
              [((usedEntityKeys S).indexOf? k).getD 0]
          rw [hgd]
        · refine ⟨by rw [hl]; rfl, ?_⟩
          intro hcon
          exact hmem (List.elem_iff.mp hcon)
        · refine ⟨hlook, ?_⟩
          intro hcon
          exact hmem (hmem_iff.mp (List.elem_iff.mp hcon))

theorem foldl_collectChar_renum (S : ContentState) :
    ∀ (cs : List CChar) (acc : List Nat),
      (∀ c ∈ cs, ∀ k, c.entity = some k →
        (S.entityMap.lookup k).isSome = true → k ∈ usedEntityKeys S) →
      (∀ x ∈ acc, x ∈ usedEntityKeys S) →
      (cs.map (renChar (usedEntityKeys S))).foldl
        (collectChar (convertToRawM S).entityMap)
        (acc.map (fun k => ((usedEntityKeys S).indexOf? k).getD 0)) =
      (cs.foldl (collectChar S.entityMap) acc).map
        (fun k => ((usedEntityKeys S).indexOf? k).getD 0) := by
  intro cs
  induction cs with
  | nil => intro acc _ _; rfl
  | cons c rest ih =>
    intro acc hkc hacc
    rw [List.map_cons, List.foldl_cons, List.foldl_cons]
    rw [collectChar_renum S acc c
      (hkc c (List.mem_cons_self c rest)) hacc]
    refine ih _ (fun c2 hc2 => hkc c2 (List.mem_cons_of_mem c hc2)) ?_
    intro x hx
    rcases collectChar_mem_inv S.entityMap acc c x hx with h1 | h1
    · exact hacc x h1
    · exact hkc c (List.mem_cons_self c rest) x h1.1 h1.2

theorem foldl_collectBlock_renum (S : ContentState) :
    ∀ (bs : List CBlock) (acc : List Nat),
      (∀ b ∈ bs, ∀ c ∈ b.chars, ∀ k, c.entity = some k →
        (S.entityMap.lookup k).isSome = true → k ∈ usedEntityKeys S) →
      (∀ x ∈ acc, x ∈ usedEntityKeys S) →
      (bs.map (renBlock (usedEntityKeys S))).foldl
        (collectBlock (convertToRawM S).entityMap)
        (acc.map (fun k => ((usedEntityKeys S).indexOf? k).getD 0)) =
      (bs.foldl (collectBlock S.entityMap) acc).map
        (fun k => ((usedEntityKeys S).indexOf? k).getD 0) := by
  intro bs
  induction bs with
  | nil => intro acc _ _; rfl
  | cons b rest ih =>
    intro acc hkc hacc
    rw [List.map_cons, List.foldl_cons, List.foldl_cons]
    have hstep : collectBlock (convertToRawM S).entityMap
        (acc.map (fun k => ((usedEntityKeys S).indexOf? k).getD 0))
        (renBlock (usedEntityKeys S) b) =
        (collectBlock S.entityMap acc b).map
          (fun k => ((usedEntityKeys S).indexOf? k).getD 0) := by
      show ((renBlock (usedEntityKeys S) b).chars).foldl
          (collectChar (convertToRawM S).entityMap)
          (acc.map (fun k => ((usedEntityKeys S).indexOf? k).getD 0)) = _
      have hch : (renBlock (usedEntityKeys S) b).chars =
          b.chars.map (renChar (usedEntityKeys S)) := rfl
      rw [hch]
      exact foldl_collectChar_renum S b.chars acc
        (fun c hc => hkc b (List.mem_cons_self b rest) c hc) hacc
    rw [hstep]
    refine ih _ (fun b2 hb2 => hkc b2 (List.mem_cons_of_mem b hb2)) ?_
    intro x hx
    rcases foldl_collectChar_inv S.entityMap b.chars acc x hx with h1 | h1
    · exact hacc x h1
    · rcases h1 with ⟨c2, hc2, h3⟩
      exact hkc b (List.mem_cons_self b rest) c2 hc2 x h3.1 h3.2

theorem usedEntityKeys_toRaw (S : ContentState) :
    usedEntityKeys (convertToRawM S) =
      List.range (usedEntityKeys S).length := by
  have h1 : usedEntityKeys (convertToRawM S) =
      (usedEntityKeys S).map
        (fun k => ((usedEntityKeys S).indexOf? k).getD 0) := by
    rw [usedEntityKeys_eq (convertToRawM S), convertToRawM_blocks]
    have h2 := foldl_collectBlock_renum S S.blocks []
      (fun b hb c hc k he hl => usedEntityKeys_mem S b c k hb hc he hl)
      (fun x hx => absurd hx (List.not_mem_nil x))
    have h3 : (([] : List Nat).map
        (fun k => ((usedEntityKeys S).indexOf? k).getD 0)) = [] := rfl
    rw [h3] at h2
    rw [h2, ← usedEntityKeys_eq]
  rw [h1, map_indexOf_self (usedEntityKeys S) (usedEntityKeys_nodup S)]
/-! ### `convertFromRaw` after `convertToRaw` is the identity -/

theorem cleanupChar_renChar (S : ContentState) (c : CChar)
    (hcanon : sortDedupStr c.styles = c.styles)
    (hkc : ∀ k, c.entity = some k →
      (S.entityMap.lookup k).isSome = true → k ∈ usedEntityKeys S) :
    ({ ch := (renChar (usedEntityKeys S) c).ch
       styles := sortDedupStr (renChar (usedEntityKeys S) c).styles
       entity := match (renChar (usedEntityKeys S) c).entity with
         | some k =>
           if (((convertToRawM S).entityMap).lookup k).isSome
           then some k else none
         | none => none } : CChar) = renChar (usedEntityKeys S) c := by
  obtain ⟨ch0, st0, ent0⟩ := c
  cases ent0 with
  | none =>
    show ({ ch := ch0, styles := sortDedupStr st0, entity := none } :
      CChar) = ⟨ch0, st0, none⟩
    rw [hcanon]
  | some k =>
    cases hl : S.entityMap.lookup k with
    | none =>
      have hnotin : k ∉ usedEntityKeys S := by
        intro hmem
        have h2 := usedEntityKeys_isSome S k hmem
        rw [hl] at h2
        exact absurd h2 (by simp)
      have hentc : renChar (usedEntityKeys S) ⟨ch0, st0, some k⟩ =
          ⟨ch0, st0, none⟩ := by
        show ({ ch := ch0, styles := st0,
                entity := renumberKey (usedEntityKeys S) k } : CChar) = _
        rw [show renumberKey (usedEntityKeys S) k = none from
          indexOf_eq_none hnotin]
      rw [hentc]
      show ({ ch := ch0, styles := sortDedupStr st0, entity := none } :
        CChar) = ⟨ch0, st0, none⟩
      rw [hcanon]
    | some e =>
      have hk : k ∈ usedEntityKeys S := hkc k rfl (by rw [hl]; rfl)
      rcases mem_indexOf hk with ⟨m, hm, _⟩
      have hentc : renChar (usedEntityKeys S) ⟨ch0, st0, some k⟩ =
          ⟨ch0, st0, some m⟩ := by
        show ({ ch := ch0, styles := st0,
                entity := renumberKey (usedEntityKeys S) k } : CChar) = _
        rw [show renumberKey (usedEntityKeys S) k = some m from hm]
      rw [hentc]
      show ({ ch := ch0, styles := sortDedupStr st0,
              entity := if (((convertToRawM S).entityMap).lookup m).isSome
                then some m else none } : CChar) = ⟨ch0, st0, some m⟩
      rw [toRaw_em_lookup S k m hm, hcanon,
        if_pos (show (some (emOf S.entityMap k)).isSome = true from rfl)]

theorem fromRaw_toRaw (S : ContentState)
    (hbk : (S.blocks.map CBlock.key).Nodup)
    (hcanon : ∀ b ∈ S.blocks, ∀ c ∈ b.chars,
      sortDedupStr c.styles = c.styles) :
    convertFromRawM (convertToRawM S) = convertToRawM S := by
  have hdem : dedupEntityMap (convertToRawM S).entityMap =
      (convertToRawM S).entityMap :=
    dedupEntityMap_of_nodup _ (toRaw_em_nodup S)
  show ({ blocks := dedupBlocks ((convertToRawM S).blocks.map (fun b =>
      { b with chars := b.chars.map (fun c =>
          { ch := c.ch
            styles := sortDedupStr c.styles
            entity := match c.entity with
              | some k =>
                if ((dedupEntityMap (convertToRawM S).entityMap).lookup
                    k).isSome then some k else none
              | none => none }) })),
          entityMap := dedupEntityMap (convertToRawM S).entityMap } :
      ContentState) = convertToRawM S
  rw [hdem]
  have hmapb : (convertToRawM S).blocks.map (fun b =>
      { b with chars := b.chars.map (fun c =>
          ({ ch := c.ch
             styles := sortDedupStr c.styles
             entity := match c.entity with
               | some k =>
                 if (((convertToRawM S).entityMap).lookup k).isSome
                 then some k else none
               | none => none } : CChar)) }) = (convertToRawM S).blocks := by
    rw [convertToRawM_blocks, List.map_map]
    refine List.map_congr_left ?_
    intro b hb
    show ({ renBlock (usedEntityKeys S) b with chars :=
        (renBlock (usedEntityKeys S) b).chars.map (fun c =>
          ({ ch := c.ch
             styles := sortDedupStr c.styles
             entity := match c.entity with
               | some k =>
                 if (((convertToRawM S).entityMap).lookup k).isSome
                 then some k else none
               | none => none } : CChar)) } : CBlock) =
      renBlock (usedEntityKeys S) b
    have hchars : (renBlock (usedEntityKeys S) b).chars.map (fun c =>
        ({ ch := c.ch
           styles := sortDedupStr c.styles
           entity := match c.entity with
             | some k =>
               if (((convertToRawM S).entityMap).lookup k).isSome
               then some k else none
             | none => none } : CChar)) =
        (renBlock (usedEntityKeys S) b).chars := by
      have hc2 : (renBlock (usedEntityKeys S) b).chars =
          b.chars.map (renChar (usedEntityKeys S)) := rfl
      rw [hc2, List.map_map]
      refine List.map_congr_left ?_
      intro c hc
      exact cleanupChar_renChar S c (hcanon b hb c hc)
        (fun k he hl => usedEntityKeys_mem S b c k hb hc he hl)
    rw [hchars]
  rw [hmapb]
  have hkeys : (((convertToRawM S).blocks).map CBlock.key).Nodup := by
    rw [toRaw_blocks_keys]
    exact hbk
  rw [dedupBlocks_of_nodup _ hkeys]
/-! ### `convertToRaw` is idempotent -/

theorem indexOf_some_lt :
    ∀ (l : List Nat) (k m : Nat), l.indexOf? k = some m → m < l.length := by
  intro l
  induction l with
  | nil =>
    intro k m hm
    exact absurd (show (none : Option Nat) = some m from hm) (by simp)
  | cons x xs ih =>
    intro k m hm
    by_cases hxk : x = k
    · subst hxk
      rw [indexOf_cons_self] at hm
      have h2 : (0 : Nat) = m := by injection hm
      rw [List.length_cons]
      omega
    · rw [indexOf_cons_ne xs hxk] at hm
      cases hxs : xs.indexOf? k with
      | none => rw [hxs] at hm; exact absurd hm (by simp)
      | some m0 =>
        rw [hxs] at hm
        have h2 : m0 + 1 = m := by injection hm
        have h3 := ih k m0 hxs
        rw [List.length_cons]
        omega

theorem renChar_range_renChar (S : ContentState) (c : CChar) :
    renChar (List.range (usedEntityKeys S).length)
      (renChar (usedEntityKeys S) c) = renChar (usedEntityKeys S) c := by
  obtain ⟨ch0, st0, ent0⟩ := c
  cases ent0 with
  | none => rfl
  | some k =>
    cases hik : (usedEntityKeys S).indexOf? k with
    | none =>
      have h1 : renChar (usedEntityKeys S) ⟨ch0, st0, some k⟩ =
          ⟨ch0, st0, none⟩ := by
        show ({ ch := ch0, styles := st0,
                entity := renumberKey (usedEntityKeys S) k } : CChar) = _
        rw [show renumberKey (usedEntityKeys S) k = none from hik]
      rw [h1]
      rfl
    | some m =>
      have hlt : m < (usedEntityKeys S).length := indexOf_some_lt _ _ _ hik
      have h1 : renChar (usedEntityKeys S) ⟨ch0, st0, some k⟩ =
          ⟨ch0, st0, some m⟩ := by
        show ({ ch := ch0, styles := st0,
                entity := renumberKey (usedEntityKeys S) k } : CChar) = _
        rw [show renumberKey (usedEntityKeys S) k = some m from hik]
      rw [h1]
      show ({ ch := ch0, styles := st0,
              entity :=
                renumberKey (List.range (usedEntityKeys S).length) m } :
        CChar) = _
      rw [show renumberKey (List.range (usedEntityKeys S).length) m = some m
        from indexOf_range _ m hlt]

theorem toRaw_idem (S : ContentState) :
    convertToRawM (convertToRawM S) = convertToRawM S := by
  have hused2 : usedEntityKeys (convertToRawM S) =
      List.range (usedEntityKeys S).length := usedEntityKeys_toRaw S
  have hbl2 : (convertToRawM (convertToRawM S)).blocks =
      (convertToRawM S).blocks := by
    rw [convertToRawM_blocks (convertToRawM S), hused2,
      convertToRawM_blocks S, List.map_map]
    refine List.map_congr_left ?_
    intro b _
    obtain ⟨k0, t0, d0, a0, cs0⟩ := b
    show (⟨k0, t0, d0, a0, (cs0.map (renChar (usedEntityKeys S))).map
      (renChar (List.range (usedEntityKeys S).length))⟩ : CBlock) =
      ⟨k0, t0, d0, a0, cs0.map (renChar (usedEntityKeys S))⟩
    rw [List.map_map]
    have h4 : List.map (renChar (List.range (usedEntityKeys S).length) ∘
        renChar (usedEntityKeys S)) cs0 =
        List.map (renChar (usedEntityKeys S)) cs0 :=
      List.map_congr_left (fun c _ => renChar_range_renChar S c)
    rw [h4]
  have hem2 : (convertToRawM (convertToRawM S)).entityMap =
      (convertToRawM S).entityMap := by
    rw [convertToRawM_entityMap (convertToRawM S), hused2]
    have h1 : (List.range (usedEntityKeys S).length).enum =
        (List.range' 0 (usedEntityKeys S).length).map (fun j => (j, j)) := by
      rw [List.range_eq_range']
      exact enumFrom_range' (usedEntityKeys S).length 0
    rw [h1, List.filterMap_map]
    have h2 : ∀ x ∈ List.range' 0 (usedEntityKeys S).length,
        ((fun p => ((convertToRawM S).entityMap.lookup p.2).map
          (fun e => (p.1, e))) ∘ (fun j => (j, j))) x =
        (fun k => (List.lookup k (convertToRawM S).entityMap).map
          (fun e => (k, e))) x := fun x _ => rfl
    rw [List.filterMap_congr h2]
    rw [← toRaw_em_keys S]
    exact filterMap_lookup_self (convertToRawM S).entityMap (toRaw_em_nodup S)
  have hsplit : convertToRawM (convertToRawM S) =
      (⟨(convertToRawM (convertToRawM S)).blocks,
        (convertToRawM (convertToRawM S)).entityMap⟩ : ContentState) := rfl
  rw [hsplit, hbl2, hem2]
/-! ### The scan commutes with the renumbering -/

theorem isLinkChar_entity_some_eq {em : EntityMap} {c : CChar} {k : Nat}
    (h : c.entity = some k) :
    isLinkChar em c = (match em.lookup k with
      | some e => if e.etype = "NOTE_LINK" then some k else none
      | none => none) := by
  rw [show isLinkChar em c = (match c.entity with
    | some j =>
      match em.lookup j with
      | some e => if e.etype = "NOTE_LINK" then some j else none
      | none => none
    | none => none) from rfl, h]

theorem entityData_toRaw (S : ContentState) (k : Nat)
    (hk : k ∈ usedEntityKeys S) :
    entityData (convertToRawM S).entityMap
      (((usedEntityKeys S).indexOf? k).getD 0) =
      entityData S.entityMap k := by
  rcases mem_indexOf hk with ⟨m, hm, _⟩
  have hg : ((usedEntityKeys S).indexOf? k).getD 0 = m := by rw [hm]; rfl
  rw [hg]
  unfold entityData
  rw [toRaw_em_lookup S k m hm]
  have hsome := usedEntityKeys_isSome S k hk
  cases hl : S.entityMap.lookup k with
  | none => rw [hl] at hsome; exact absurd hsome (by simp)
  | some e =>
    have he : emOf S.entityMap k = e := by unfold emOf; rw [hl]; rfl
    rw [he]

theorem runLive_toRaw (S : ContentState) (T : TitleMap) (k : Nat)
    (hk : k ∈ usedEntityKeys S) :
    runLive (convertToRawM S).entityMap T
      (((usedEntityKeys S).indexOf? k).getD 0) =
      runLive S.entityMap T k := by
  unfold runLive
  rw [entityData_toRaw S k hk]

theorem brokenSpan_toRaw (S : ContentState) (k : Nat)
    (hk : k ∈ usedEntityKeys S) :
    brokenSpan (convertToRawM S).entityMap
      (((usedEntityKeys S).indexOf? k).getD 0) =
      (brokenSpan S.entityMap k).map (renChar (usedEntityKeys S)) := by
  unfold brokenSpan
  rw [entityData_toRaw S k hk, List.map_map]
  exact List.map_congr_left (fun c _ => rfl)

theorem liveSpan_toRaw (S : ContentState) (T : TitleMap) (id : String)
    (k m : Nat) (hm : (usedEntityKeys S).indexOf? k = some m) :
    liveSpan T id m = (liveSpan T id k).map (renChar (usedEntityKeys S)) := by
  unfold liveSpan
  rw [List.map_map]
  refine List.map_congr_left ?_
  intro c _
  show (⟨c, [], some m⟩ : CChar) = renChar (usedEntityKeys S) ⟨c, [], some k⟩
  show (⟨c, [], some m⟩ : CChar) =
    ⟨c, [], renumberKey (usedEntityKeys S) k⟩
  rw [show renumberKey (usedEntityKeys S) k = some m from hm]

theorem spanFor_toRaw (S : ContentState) (T : TitleMap) (k : Nat)
    (hk : k ∈ usedEntityKeys S) :
    spanFor (convertToRawM S).entityMap T
      (((usedEntityKeys S).indexOf? k).getD 0) =
      (spanFor S.entityMap T k).map (renChar (usedEntityKeys S)) := by
  unfold spanFor
  rw [runLive_toRaw S T k hk]
  cases hr : runLive S.entityMap T k with
  | some id =>
    rcases mem_indexOf hk with ⟨m, hm, _⟩
    have hg : ((usedEntityKeys S).indexOf? k).getD 0 = m := by rw [hm]; rfl
    rw [hg]
    exact liveSpan_toRaw S T id k m hm
  | none => exact brokenSpan_toRaw S k hk

theorem isLinkChar_toRaw (S : ContentState) (c : CChar)
    (hkc : ∀ k, c.entity = some k →
      (S.entityMap.lookup k).isSome = true → k ∈ usedEntityKeys S) :
    isLinkChar (convertToRawM S).entityMap (renChar (usedEntityKeys S) c) =
      (isLinkChar S.entityMap c).map
        (fun k => ((usedEntityKeys S).indexOf? k).getD 0) := by
  obtain ⟨ch0, st0, ent0⟩ := c
  cases ent0 with
  | none => rfl
  | some k =>
    cases hl : S.entityMap.lookup k with
    | none =>
      have hnotin : k ∉ usedEntityKeys S := by
        intro hmem
        have h2 := usedEntityKeys_isSome S k hmem
        rw [hl] at h2
        exact absurd h2 (by simp)
      have h1 : renChar (usedEntityKeys S) ⟨ch0, st0, some k⟩ =
          ⟨ch0, st0, none⟩ := by
        show ({ ch := ch0, styles := st0,
                entity := renumberKey (usedEntityKeys S) k } : CChar) = _
        rw [show renumberKey (usedEntityKeys S) k = none from
          indexOf_eq_none hnotin]
      rw [h1]
      have h2 : isLinkChar S.entityMap ⟨ch0, st0, some k⟩ = none := by
        rw [isLinkChar_entity_some_eq rfl, hl]
      rw [h2]
      rfl
    | some e =>
      have hk : k ∈ usedEntityKeys S := hkc k rfl (by rw [hl]; rfl)
      rcases mem_indexOf hk with ⟨m, hm, _⟩
      have hg : ((usedEntityKeys S).indexOf? k).getD 0 = m := by
        rw [hm]; rfl
      have h1 : renChar (usedEntityKeys S) ⟨ch0, st0, some k⟩ =
          ⟨ch0, st0, some m⟩ := by
        show ({ ch := ch0, styles := st0,
                entity := renumberKey (usedEntityKeys S) k } : CChar) = _
        rw [show renumberKey (usedEntityKeys S) k = some m from hm]
      rw [h1]
      have hemof : emOf S.entityMap k = e := by unfold emOf; rw [hl]; rfl
      have h2 : isLinkChar (convertToRawM S).entityMap ⟨ch0, st0, some m⟩ =
          (if e.etype = "NOTE_LINK" then some m else none) := by
        rw [isLinkChar_entity_some_eq rfl, toRaw_em_lookup S k m hm, hemof]
      have h3 : isLinkChar S.entityMap ⟨ch0, st0, some k⟩ =
          (if e.etype = "NOTE_LINK" then some k else none) := by
        rw [isLinkChar_entity_some_eq rfl, hl]
      rw [h2, h3]
      by_cases he : e.etype = "NOTE_LINK"
      · rw [if_pos he, if_pos he]
        show some m = some (((usedEntityKeys S).indexOf? k).getD 0)
        rw [hg]
      · rw [if_neg he, if_neg he]
        rfl
theorem linkRunsGo_keys (em : EntityMap) (P : Nat → Prop) :
    ∀ (cs : List CChar) (i : Nat) (st : Option (Nat × Nat)),
      (∀ c ∈ cs, ∀ k, isLinkChar em c = some k → P k) →
      (∀ s k, st = some (s, k) → P k) →
      ∀ r ∈ linkRunsGo em i st cs, P r.2.2 := by
  intro cs
  induction cs with
  | nil =>
    intro i st _ hst r hr
    cases st with
    | none => exact absurd hr (List.not_mem_nil r)
    | some sk =>
      obtain ⟨s, k⟩ := sk
      have h2 : r ∈ [((s, i, k) : Nat × Nat × Nat)] := hr
      have h3 : r = (s, i, k) := List.mem_singleton.mp h2
      subst h3
      exact hst s k rfl
  | cons c cs ih =>
    intro i st hc hst r hr
    have hcc := hc c (List.mem_cons_self c cs)
    have hcs := fun c2 h2 => hc c2 (List.mem_cons_of_mem c h2)
    cases st with
    | none =>
      have he : linkRunsGo em i none (c :: cs) =
          (match isLinkChar em c with
           | none => linkRunsGo em (i + 1) none cs
           | some k => linkRunsGo em (i + 1) (some (i, k)) cs) := rfl
      rw [he] at hr
      cases hlc : isLinkChar em c with
      | none =>
        rw [hlc] at hr
        exact ih (i + 1) none hcs (fun s k h => absurd h (by simp)) r hr
      | some k =>
        rw [hlc] at hr
        exact ih (i + 1) (some (i, k)) hcs
          (fun s k2 h => by cases h; exact hcc k hlc) r hr
    | some sk =>
      obtain ⟨s, k⟩ := sk
      have he : linkRunsGo em i (some (s, k)) (c :: cs) =
          (match isLinkChar em c with
           | none => (s, i, k) :: linkRunsGo em (i + 1) none cs
           | some k2 =>
             if k2 = k then linkRunsGo em (i + 1) (some (s, k)) cs
             else (s, i, k) ::
               linkRunsGo em (i + 1) (some (i, k2)) cs) := rfl
      rw [he] at hr
      cases hlc : isLinkChar em c with
      | none =>
        rw [hlc] at hr
        have hr2 : r ∈ (s, i, k) ::
            linkRunsGo em (i + 1) none cs := hr
        rcases List.mem_cons.mp hr2 with h1 | h1
        · subst h1; exact hst s k rfl
        · exact ih (i + 1) none hcs (fun s2 k2 h => absurd h (by simp)) r h1
      | some k2 =>
        rw [hlc] at hr
        have hr2 : r ∈ (if k2 = k then
            linkRunsGo em (i + 1) (some (s, k)) cs
          else (s, i, k) ::
            linkRunsGo em (i + 1) (some (i, k2)) cs) := hr
        by_cases hkk : k2 = k
        · rw [if_pos hkk] at hr2
          exact ih (i + 1) (some (s, k)) hcs
            (fun s2 k3 h => by cases h; exact hst s k rfl) r hr2
        · rw [if_neg hkk] at hr2
          rcases List.mem_cons.mp hr2 with h1 | h1
          · subst h1; exact hst s k rfl
          · exact ih (i + 1) (some (i, k2)) hcs
              (fun s2 k3 h => by cases h; exact hcc k2 hlc) r h1

theorem linkRunsGo_toRaw (S : ContentState) :
    ∀ (cs : List CChar) (i : Nat) (st : Option (Nat × Nat)),
      (∀ c ∈ cs, ∀ k, c.entity = some k →
        (S.entityMap.lookup k).isSome = true → k ∈ usedEntityKeys S) →
      (∀ s k, st = some (s, k) → k ∈ usedEntityKeys S) →
      linkRunsGo (convertToRawM S).entityMap i
        (st.map (fun p => (p.1, ((usedEntityKeys S).indexOf? p.2).getD 0)))
        (cs.map (renChar (usedEntityKeys S))) =
      (linkRunsGo S.entityMap i st cs).map
        (fun r => (r.1, r.2.1,
          ((usedEntityKeys S).indexOf? r.2.2).getD 0)) := by
  intro cs
  induction cs with
  | nil =>
    intro i st _ _
    cases st with
    | none => rfl
    | some sk => obtain ⟨s, k⟩ := sk; rfl
  | cons c cs ih =>
    intro i st hkc hst
    have hkcc := hkc c (List.mem_cons_self c cs)
    have hkcs := fun c2 h2 => hkc c2 (List.mem_cons_of_mem c h2)
    have hilc := isLinkChar_toRaw S c hkcc
    rw [List.map_cons]
    cases st with
    | none =>
      have heL : linkRunsGo (convertToRawM S).entityMap i none
          (renChar (usedEntityKeys S) c ::
            cs.map (renChar (usedEntityKeys S))) =
          (match isLinkChar (convertToRawM S).entityMap
              (renChar (usedEntityKeys S) c) with
           | none => linkRunsGo (convertToRawM S).entityMap (i + 1) none
               (cs.map (renChar (usedEntityKeys S)))
           | some k2 => linkRunsGo (convertToRawM S).entityMap (i + 1)
               (some (i, k2))
               (cs.map (renChar (usedEntityKeys S)))) := rfl
      have heR : linkRunsGo S.entityMap i none (c :: cs) =
          (match isLinkChar S.entityMap c with
           | none => linkRunsGo S.entityMap (i + 1) none cs
           | some k2 => linkRunsGo S.entityMap (i + 1)
               (some (i, k2)) cs) := rfl
      show linkRunsGo (convertToRawM S).entityMap i none
          (renChar (usedEntityKeys S) c ::
            cs.map (renChar (usedEntityKeys S))) = _
      rw [heL, heR, hilc]
      cases hlc : isLinkChar S.entityMap c with
      | none =>
        show linkRunsGo (convertToRawM S).entityMap (i + 1) none
            (cs.map (renChar (usedEntityKeys S))) = _
        exact ih (i + 1) none hkcs (fun s k h => absurd h (by simp))
      | some k =>
        have hkU : k ∈ usedEntityKeys S := by
          obtain ⟨hce, e, hle, _⟩ := isLinkChar_some_elim hlc
          exact hkcc k hce (by rw [hle]; rfl)
        show linkRunsGo (convertToRawM S).entityMap (i + 1)
            (some (i, ((usedEntityKeys S).indexOf? k).getD 0))
            (cs.map (renChar (usedEntityKeys S))) = _
        exact ih (i + 1) (some (i, k)) hkcs
          (fun s k2 h => by cases h; exact hkU)
    | some sk =>
      obtain ⟨s, k⟩ := sk
      have hkU : k ∈ usedEntityKeys S := hst s k rfl
      have heL : linkRunsGo (convertToRawM S).entityMap i
          (some (s, ((usedEntityKeys S).indexOf? k).getD 0))
          (renChar (usedEntityKeys S) c ::
            cs.map (renChar (usedEntityKeys S))) =
          (match isLinkChar (convertToRawM S).entityMap
              (renChar (usedEntityKeys S) c) with
           | none => (s, i, ((usedEntityKeys S).indexOf? k).getD 0) ::
               linkRunsGo (convertToRawM S).entityMap (i + 1) none
                 (cs.map (renChar (usedEntityKeys S)))
           | some k2 =>
             if k2 = ((usedEntityKeys S).indexOf? k).getD 0 then
               linkRunsGo (convertToRawM S).entityMap (i + 1)
                 (some (s, ((usedEntityKeys S).indexOf? k).getD 0))
                 (cs.map (renChar (usedEntityKeys S)))
             else (s, i, ((usedEntityKeys S).indexOf? k).getD 0) ::
               linkRunsGo (convertToRawM S).entityMap (i + 1)
                 (some (i, k2))
                 (cs.map (renChar (usedEntityKeys S)))) := rfl
      have heR : linkRunsGo S.entityMap i (some (s, k)) (c :: cs) =
          (match isLinkChar S.entityMap c with
           | none => (s, i, k) :: linkRunsGo S.entityMap (i + 1) none cs
           | some k2 =>
             if k2 = k then linkRunsGo S.entityMap (i + 1) (some (s, k)) cs
             else (s, i, k) ::
               linkRunsGo S.entityMap (i + 1) (some (i, k2)) cs) := rfl
      show linkRunsGo (convertToRawM S).entityMap i
          (some (s, ((usedEntityKeys S).indexOf? k).getD 0))
          (renChar (usedEntityKeys S) c ::
            cs.map (renChar (usedEntityKeys S))) = _
      rw [heL, heR, hilc]
      cases hlc : isLinkChar S.entityMap c with
      | none =>
        show ((s, i, ((usedEntityKeys S).indexOf? k).getD 0) ::
            linkRunsGo (convertToRawM S).entityMap (i + 1) none
              (cs.map (renChar (usedEntityKeys S)))) = _
        rw [List.map_cons]
        have htail : linkRunsGo (convertToRawM S).entityMap (i + 1) none
            (cs.map (renChar (usedEntityKeys S))) =
            (linkRunsGo S.entityMap (i + 1) none cs).map
              (fun r => (r.1, r.2.1,
                ((usedEntityKeys S).indexOf? r.2.2).getD 0)) :=
          ih (i + 1) none hkcs (fun s2 k2 h => absurd h (by simp))
        rw [htail]
      | some k2 =>
        have hkU2 : k2 ∈ usedEntityKeys S := by
          obtain ⟨hce, e, hle, _⟩ := isLinkChar_some_elim hlc
          exact hkcc k2 hce (by rw [hle]; rfl)
        show (if ((usedEntityKeys S).indexOf? k2).getD 0 =
            ((usedEntityKeys S).indexOf? k).getD 0 then
            linkRunsGo (convertToRawM S).entityMap (i + 1)
              (some (s, ((usedEntityKeys S).indexOf? k).getD 0))
              (cs.map (renChar (usedEntityKeys S)))
          else (s, i, ((usedEntityKeys S).indexOf? k).getD 0) ::
            linkRunsGo (convertToRawM S).entityMap (i + 1)
              (some (i, ((usedEntityKeys S).indexOf? k2).getD 0))
              (cs.map (renChar (usedEntityKeys S)))) = _
        by_cases hkk : k2 = k
        · subst hkk
          rw [if_pos rfl]
          show linkRunsGo (convertToRawM S).entityMap (i + 1)
              (some (s, ((usedEntityKeys S).indexOf? k2).getD 0))
              (cs.map (renChar (usedEntityKeys S))) =
            (if k2 = k2 then
              linkRunsGo S.entityMap (i + 1) (some (s, k2)) cs
            else (s, i, k2) ::
              linkRunsGo S.entityMap (i + 1) (some (i, k2)) cs).map
              (fun r => (r.1, r.2.1,
                ((usedEntityKeys S).indexOf? r.2.2).getD 0))
          rw [if_pos rfl]
          exact ih (i + 1) (some (s, k2)) hkcs
            (fun s2 k3 h => by cases h; exact hkU)
        · have hrne : ((usedEntityKeys S).indexOf? k2).getD 0 ≠
              ((usedEntityKeys S).indexOf? k).getD 0 := by
            intro he
            rcases mem_indexOf hkU2 with ⟨m2, hm2, _⟩
            rcases mem_indexOf hkU with ⟨m1, hm1, _⟩
            rw [hm2, hm1] at he
            have hmm : m2 = m1 := he
            exact hkk (indexOf_inj (usedEntityKeys S) hkU2 hkU
              (by rw [hm2, hm1, hmm]))
          rw [if_neg hrne]
          show ((s, i, ((usedEntityKeys S).indexOf? k).getD 0) ::
              linkRunsGo (convertToRawM S).entityMap (i + 1)
                (some (i, ((usedEntityKeys S).indexOf? k2).getD 0))
                (cs.map (renChar (usedEntityKeys S)))) =
            (if k2 = k then
              linkRunsGo S.entityMap (i + 1) (some (s, k)) cs
            else (s, i, k) ::
              linkRunsGo S.entityMap (i + 1) (some (i, k2)) cs).map
              (fun r => (r.1, r.2.1,
                ((usedEntityKeys S).indexOf? r.2.2).getD 0))
          rw [if_neg hkk, List.map_cons]
          have htail : linkRunsGo (convertToRawM S).entityMap (i + 1)
              (some (i, ((usedEntityKeys S).indexOf? k2).getD 0))
              (cs.map (renChar (usedEntityKeys S))) =
              (linkRunsGo S.entityMap (i + 1) (some (i, k2)) cs).map
                (fun r => (r.1, r.2.1,
                  ((usedEntityKeys S).indexOf? r.2.2).getD 0)) :=
            ih (i + 1) (some (i, k2)) hkcs
              (fun s2 k3 h => by cases h; exact hkU2)
          rw [htail]

theorem linkRuns_toRaw (S : ContentState) (cs : List CChar)
    (hkc : ∀ c ∈ cs, ∀ k, c.entity = some k →
      (S.entityMap.lookup k).isSome = true → k ∈ usedEntityKeys S) :
    linkRuns (convertToRawM S).entityMap
      (cs.map (renChar (usedEntityKeys S))) =
    (linkRuns S.entityMap cs).map
      (fun r => (r.1, r.2.1,
        ((usedEntityKeys S).indexOf? r.2.2).getD 0)) :=
  linkRunsGo_toRaw S cs 0 none hkc (fun s k h => absurd h (by simp))
theorem emEvolved_settleGo {T : TitleMap} {em0 em : EntityMap}
    (h : EmEvolved T em0 em) :
    ∀ (cs : List CChar) (st : Option Nat),
      settleGo em T st cs = settleGo em0 T st cs := by
  intro cs
  induction cs with
  | nil =>
    intro st
    cases st with
    | none => rfl
    | some k =>
      show spanFor em T k = spanFor em0 T k
      exact emEvolved_spanFor h k
  | cons c cs ih =>
    intro st
    cases st with
    | none =>
      have heL : settleGo em T none (c :: cs) =
          (match isLinkChar em c with
           | none => c :: settleGo em T none cs
           | some k => settleGo em T (some k) cs) := rfl
      have heR : settleGo em0 T none (c :: cs) =
          (match isLinkChar em0 c with
           | none => c :: settleGo em0 T none cs
           | some k => settleGo em0 T (some k) cs) := rfl
      rw [heL, heR, emEvolved_isLinkChar h c]
      cases isLinkChar em0 c with
      | none =>
        show c :: settleGo em T none cs = c :: settleGo em0 T none cs
        rw [ih none]
      | some k =>
        show settleGo em T (some k) cs = settleGo em0 T (some k) cs
        exact ih (some k)
    | some k =>
      have heL : settleGo em T (some k) (c :: cs) =
          (match isLinkChar em c with
           | none => spanFor em T k ++ c :: settleGo em T none cs
           | some k2 =>
             if k2 = k then settleGo em T (some k) cs
             else spanFor em T k ++ settleGo em T (some k2) cs) := rfl
      have heR : settleGo em0 T (some k) (c :: cs) =
          (match isLinkChar em0 c with
           | none => spanFor em0 T k ++ c :: settleGo em0 T none cs
           | some k2 =>
             if k2 = k then settleGo em0 T (some k) cs
             else spanFor em0 T k ++ settleGo em0 T (some k2) cs) := rfl
      rw [heL, heR, emEvolved_isLinkChar h c]
      cases hlc : isLinkChar em0 c with
      | none =>
        show spanFor em T k ++ c :: settleGo em T none cs =
          spanFor em0 T k ++ c :: settleGo em0 T none cs
        rw [emEvolved_spanFor h k, ih none]
      | some k2 =>
        show (if k2 = k then settleGo em T (some k) cs
            else spanFor em T k ++ settleGo em T (some k2) cs) =
          (if k2 = k then settleGo em0 T (some k) cs
            else spanFor em0 T k ++ settleGo em0 T (some k2) cs)
        by_cases hkk : k2 = k
        · rw [if_pos hkk, if_pos hkk]
          exact ih (some k)
        · rw [if_neg hkk, if_neg hkk, emEvolved_spanFor h k, ih (some k2)]

theorem emEvolved_settleChars {T : TitleMap} {em0 em : EntityMap}
    (h : EmEvolved T em0 em) (cs : List CChar) :
    settleChars em T cs = settleChars em0 T cs :=
  emEvolved_settleGo h cs none

theorem emEvolved_livePairsOf {T : TitleMap} {em0 em : EntityMap}
    (h : EmEvolved T em0 em) (rs : List (Nat × Nat × Nat)) :
    livePairsOf em T rs = livePairsOf em0 T rs := by
  unfold livePairsOf
  refine List.filterMap_congr ?_
  intro r _
  rw [emEvolved_runLive h r.2.2]

theorem settleGo_toRaw (S : ContentState) (T : TitleMap) :
    ∀ (cs : List CChar) (st : Option Nat),
      (∀ c ∈ cs, ∀ k, c.entity = some k →
        (S.entityMap.lookup k).isSome = true → k ∈ usedEntityKeys S) →
      (∀ k, st = some k → k ∈ usedEntityKeys S) →
      settleGo (convertToRawM S).entityMap T
        (st.map (fun k => ((usedEntityKeys S).indexOf? k).getD 0))
        (cs.map (renChar (usedEntityKeys S))) =
      (settleGo S.entityMap T st cs).map (renChar (usedEntityKeys S)) := by
  intro cs
  induction cs with
  | nil =>
    intro st _ hst
    cases st with
    | none => rfl
    | some k =>
      show spanFor (convertToRawM S).entityMap T
          (((usedEntityKeys S).indexOf? k).getD 0) = _
      exact spanFor_toRaw S T k (hst k rfl)
  | cons c cs ih =>
    intro st hkc hst
    have hkcc := hkc c (List.mem_cons_self c cs)
    have hkcs := fun c2 h2 => hkc c2 (List.mem_cons_of_mem c h2)
    have hilc := isLinkChar_toRaw S c hkcc
    rw [List.map_cons]
    cases st with
    | none =>
      have heL : settleGo (convertToRawM S).entityMap T none
          (renChar (usedEntityKeys S) c ::
            cs.map (renChar (usedEntityKeys S))) =
          (match isLinkChar (convertToRawM S).entityMap
              (renChar (usedEntityKeys S) c) with
           | none => renChar (usedEntityKeys S) c ::
               settleGo (convertToRawM S).entityMap T none
                 (cs.map (renChar (usedEntityKeys S)))
           | some k2 => settleGo (convertToRawM S).entityMap T (some k2)
               (cs.map (renChar (usedEntityKeys S)))) := rfl
      have heR : settleGo S.entityMap T none (c :: cs) =
          (match isLinkChar S.entityMap c with
           | none => c :: settleGo S.entityMap T none cs
           | some k2 => settleGo S.entityMap T (some k2) cs) := rfl
      show settleGo (convertToRawM S).entityMap T none
          (renChar (usedEntityKeys S) c ::
            cs.map (renChar (usedEntityKeys S))) = _
      rw [heL, heR, hilc]
      cases hlc : isLinkChar S.entityMap c with
      | none =>
        show (renChar (usedEntityKeys S) c ::
            settleGo (convertToRawM S).entityMap T none
              (cs.map (renChar (usedEntityKeys S)))) = _
        rw [List.map_cons]
        have htail : settleGo (convertToRawM S).entityMap T none
            (cs.map (renChar (usedEntityKeys S))) =
            (settleGo S.entityMap T none cs).map
              (renChar (usedEntityKeys S)) :=
          ih none hkcs (fun k h => absurd h (by simp))
        rw [htail]
      | some k =>
        have hkU : k ∈ usedEntityKeys S := by
          obtain ⟨hce, e, hle, _⟩ := isLinkChar_some_elim hlc
          exact hkcc k hce (by rw [hle]; rfl)
        show settleGo (convertToRawM S).entityMap T
            (some (((usedEntityKeys S).indexOf? k).getD 0))
            (cs.map (renChar (usedEntityKeys S))) = _
        exact ih (some k) hkcs (fun k2 h => by cases h; exact hkU)
    | some k =>
      have hkU : k ∈ usedEntityKeys S := hst k rfl
      have heL : settleGo (convertToRawM S).entityMap T
          (some (((usedEntityKeys S).indexOf? k).getD 0))
          (renChar (usedEntityKeys S) c ::
            cs.map (renChar (usedEntityKeys S))) =
          (match isLinkChar (convertToRawM S).entityMap
              (renChar (usedEntityKeys S) c) with
           | none => spanFor (convertToRawM S).entityMap T
               (((usedEntityKeys S).indexOf? k).getD 0) ++
               renChar (usedEntityKeys S) c ::
               settleGo (convertToRawM S).entityMap T none
                 (cs.map (renChar (usedEntityKeys S)))
           | some k2 =>
             if k2 = ((usedEntityKeys S).indexOf? k).getD 0 then
               settleGo (convertToRawM S).entityMap T
                 (some (((usedEntityKeys S).indexOf? k).getD 0))
                 (cs.map (renChar (usedEntityKeys S)))
             else spanFor (convertToRawM S).entityMap T
               (((usedEntityKeys S).indexOf? k).getD 0) ++
               settleGo (convertToRawM S).entityMap T (some k2)
                 (cs.map (renChar (usedEntityKeys S)))) := rfl
      have heR : settleGo S.entityMap T (some k) (c :: cs) =
          (match isLinkChar S.entityMap c with
           | none => spanFor S.entityMap T k ++
               c :: settleGo S.entityMap T none cs
           | some k2 =>
             if k2 = k then settleGo S.entityMap T (some k) cs
             else spanFor S.entityMap T k ++
               settleGo S.entityMap T (some k2) cs) := rfl
      show settleGo (convertToRawM S).entityMap T
          (some (((usedEntityKeys S).indexOf? k).getD 0))
          (renChar (usedEntityKeys S) c ::
            cs.map (renChar (usedEntityKeys S))) = _
      rw [heL, heR, hilc]
      cases hlc : isLinkChar S.entityMap c with
      | none =>
        show (spanFor (convertToRawM S).entityMap T
            (((usedEntityKeys S).indexOf? k).getD 0) ++
            renChar (usedEntityKeys S) c ::
            settleGo (convertToRawM S).entityMap T none
              (cs.map (renChar (usedEntityKeys S)))) = _
        rw [List.map_append, List.map_cons]
        have htail : settleGo (convertToRawM S).entityMap T none
            (cs.map (renChar (usedEntityKeys S))) =
            (settleGo S.entityMap T none cs).map
              (renChar (usedEntityKeys S)) :=
          ih none hkcs (fun k2 h => absurd h (by simp))
        rw [htail, spanFor_toRaw S T k hkU]
      | some k2 =>
        have hkU2 : k2 ∈ usedEntityKeys S := by
          obtain ⟨hce, e, hle, _⟩ := isLinkChar_some_elim hlc
          exact hkcc k2 hce (by rw [hle]; rfl)
        show (if ((usedEntityKeys S).indexOf? k2).getD 0 =
            ((usedEntityKeys S).indexOf? k).getD 0 then
            settleGo (convertToRawM S).entityMap T
              (some (((usedEntityKeys S).indexOf? k).getD 0))
              (cs.map (renChar (usedEntityKeys S)))
          else spanFor (convertToRawM S).entityMap T
            (((usedEntityKeys S).indexOf? k).getD 0) ++
            settleGo (convertToRawM S).entityMap T
              (some (((usedEntityKeys S).indexOf? k2).getD 0))
              (cs.map (renChar (usedEntityKeys S)))) = _
        by_cases hkk : k2 = k
        · subst hkk
          rw [if_pos rfl]
          show settleGo (convertToRawM S).entityMap T
              (some (((usedEntityKeys S).indexOf? k2).getD 0))
              (cs.map (renChar (usedEntityKeys S))) =
            (if k2 = k2 then settleGo S.entityMap T (some k2) cs
              else spanFor S.entityMap T k2 ++
                settleGo S.entityMap T (some k2) cs).map
              (renChar (usedEntityKeys S))
          rw [if_pos rfl]
          exact ih (some k2) hkcs (fun k3 h => by cases h; exact hkU)
        · have hrne : ((usedEntityKeys S).indexOf? k2).getD 0 ≠
              ((usedEntityKeys S).indexOf? k).getD 0 := by
            intro he
            rcases mem_indexOf hkU2 with ⟨m2, hm2, _⟩
            rcases mem_indexOf hkU with ⟨m1, hm1, _⟩
            rw [hm2, hm1] at he
            have hmm : m2 = m1 := he
            exact hkk (indexOf_inj (usedEntityKeys S) hkU2 hkU
              (by rw [hm2, hm1, hmm]))
          rw [if_neg hrne]
          show (spanFor (convertToRawM S).entityMap T
              (((usedEntityKeys S).indexOf? k).getD 0) ++
              settleGo (convertToRawM S).entityMap T
                (some (((usedEntityKeys S).indexOf? k2).getD 0))
                (cs.map (renChar (usedEntityKeys S)))) =
            (if k2 = k then settleGo S.entityMap T (some k) cs
              else spanFor S.entityMap T k ++
                settleGo S.entityMap T (some k2) cs).map
              (renChar (usedEntityKeys S))
          rw [if_neg hkk, List.map_append]
          have htail : settleGo (convertToRawM S).entityMap T
              (some (((usedEntityKeys S).indexOf? k2).getD 0))
              (cs.map (renChar (usedEntityKeys S))) =
              (settleGo S.entityMap T (some k2) cs).map
                (renChar (usedEntityKeys S)) :=
            ih (some k2) hkcs (fun k3 h => by cases h; exact hkU2)
          rw [htail, spanFor_toRaw S T k hkU]

theorem settleChars_toRaw (S : ContentState) (T : TitleMap) (cs : List CChar)
    (hkc : ∀ c ∈ cs, ∀ k, c.entity = some k →
      (S.entityMap.lookup k).isSome = true → k ∈ usedEntityKeys S) :
    settleChars (convertToRawM S).entityMap T
      (cs.map (renChar (usedEntityKeys S))) =
    (settleChars S.entityMap T cs).map (renChar (usedEntityKeys S)) :=
  settleGo_toRaw S T cs none hkc (fun k h => absurd h (by simp))

theorem livePairsOf_toRaw (S : ContentState) (T : TitleMap)
    (rs : List (Nat × Nat × Nat))
    (hmem : ∀ r ∈ rs, r.2.2 ∈ usedEntityKeys S) :
    livePairsOf (convertToRawM S).entityMap T
      (rs.map (fun r => (r.1, r.2.1,
        ((usedEntityKeys S).indexOf? r.2.2).getD 0))) =
    (livePairsOf S.entityMap T rs).map
      (fun p => (((usedEntityKeys S).indexOf? p.1).getD 0, p.2)) := by
  induction rs with
  | nil => rfl
  | cons r rest ih =>
    have hrm := hmem r (List.mem_cons_self r rest)
    have hrest := fun r2 h2 => hmem r2 (List.mem_cons_of_mem r h2)
    have hrho : runLive (convertToRawM S).entityMap T
        ((r.1, r.2.1, ((usedEntityKeys S).indexOf? r.2.2).getD 0) :
          Nat × Nat × Nat).2.2 = runLive S.entityMap T r.2.2 :=
      runLive_toRaw S T r.2.2 hrm
    rw [List.map_cons]
    cases hrl : runLive S.entityMap T r.2.2 with
    | some id =>
      rw [livePairsOf_cons_live _ (hrho.trans hrl),
        livePairsOf_cons_live rest hrl, List.map_cons, ih hrest]
    | none =>
      rw [livePairsOf_cons_broken _ (hrho.trans hrl),
        livePairsOf_cons_broken rest hrl]
      exact ih hrest
/-! ### Merge stability: a second scan has no data left to merge -/

/-- An entity whose data already absorbs its own canonical merge payload. -/
def StableAt (em : EntityMap) (T : TitleMap) (k : Nat) : Prop :=
  ∀ id, runLive em T k = some id →
    mergeData (entityData em k) (livePayload id ((T.lookup id).getD "")) =
      entityData em k

theorem lookup_of_mem_nodup {β : Type} :
    ∀ (em : List (Nat × β)) (p : Nat × β), (em.map Prod.fst).Nodup →
      p ∈ em → List.lookup p.1 em = some p.2 := by
  intro em
  induction em with
  | nil => intro p _ hp; exact absurd hp (List.not_mem_nil p)
  | cons q rest ih =>
    intro p hnd hp
    obtain ⟨qk, qv⟩ := q
    rw [List.map_cons] at hnd
    rcases List.mem_cons.mp hp with h1 | h1
    · subst h1
      exact List.lookup_cons_self
    · have hne : p.1 ≠ qk := by
        intro he
        apply (List.nodup_cons.mp hnd).1
        rw [← he]
        exact @List.mem_map_of_mem _ _ rest p Prod.fst h1
      rw [List.lookup_cons]
      have hb : (p.1 == qk) = false := beq_eq_false_iff_ne.mpr hne
      rw [hb]
      exact ih p (List.nodup_cons.mp hnd).2 h1

theorem mergeEmData_id (em : EntityMap) (k : Nat) (new : DataMap)
    (hnodup : (em.map Prod.fst).Nodup)
    (hstable : mergeData (entityData em k) new = entityData em k) :
    mergeEmData em k new = em := by
  unfold mergeEmData
  have hpt : ∀ p ∈ em,
      (if p.1 = k then (p.1, { p.2 with data := mergeData p.2.data new })
        else p) = p := by
    intro p hp
    by_cases hpk : p.1 = k
    · rw [if_pos hpk]
      have hlp : List.lookup p.1 em = some p.2 :=
        lookup_of_mem_nodup em p hnodup hp
      have hdata : entityData em k = p.2.data := by
        unfold entityData
        rw [← hpk, hlp]
      rw [hdata] at hstable
      rw [hstable]
    · rw [if_neg hpk]
  have hmap : em.map (fun p =>
      if p.1 = k then (p.1, { p.2 with data := mergeData p.2.data new })
      else p) = em.map (fun p => p) := List.map_congr_left hpt
  rw [hmap]
  exact List.map_id em

theorem applyMerges_cons_none (em0 : EntityMap) (T : TitleMap)
    (em : EntityMap) (r : Nat × Nat × Nat) (rest : List (Nat × Nat × Nat))
    (h : runLive em0 T r.2.2 = none) :
    applyMerges em0 T em (r :: rest) = applyMerges em0 T em rest := by
  show applyMerges em0 T
    (match runLive em0 T r.2.2 with
     | some id => mergeEmData em r.2.2
         (livePayload id ((T.lookup id).getD ""))
     | none => em) rest = applyMerges em0 T em rest
  rw [h]

theorem applyMerges_cons_some (em0 : EntityMap) (T : TitleMap)
    (em : EntityMap) (r : Nat × Nat × Nat) (rest : List (Nat × Nat × Nat))
    (id : String) (h : runLive em0 T r.2.2 = some id) :
    applyMerges em0 T em (r :: rest) =
      applyMerges em0 T
        (mergeEmData em r.2.2 (livePayload id ((T.lookup id).getD "")))
        rest := by
  show applyMerges em0 T
    (match runLive em0 T r.2.2 with
     | some id => mergeEmData em r.2.2
         (livePayload id ((T.lookup id).getD ""))
     | none => em) rest = _
  rw [h]

theorem applyMerges_id (em0 : EntityMap) (T : TitleMap) (em : EntityMap)
    (hnodup : (em.map Prod.fst).Nodup) :
    ∀ rs : List (Nat × Nat × Nat),
      (∀ r ∈ rs, ∀ id, runLive em0 T r.2.2 = some id →
        mergeData (entityData em r.2.2)
          (livePayload id ((T.lookup id).getD "")) =
          entityData em r.2.2) →
      applyMerges em0 T em rs = em := by
  intro rs
  induction rs with
  | nil => intro _; rfl
  | cons r rest ih =>
    intro hs
    cases hrl : runLive em0 T r.2.2 with
    | none =>
      rw [applyMerges_cons_none em0 T em r rest hrl]
      exact ih (fun r2 h2 => hs r2 (List.mem_cons_of_mem r h2))
    | some id =>
      rw [applyMerges_cons_some em0 T em r rest id hrl]
      rw [mergeEmData_id em r.2.2 _ hnodup
        (hs r (List.mem_cons_self r rest) id hrl)]
      exact ih (fun r2 h2 => hs r2 (List.mem_cons_of_mem r h2))

theorem entityData_mergeEmData_self (em : EntityMap) (k : Nat)
    (new : DataMap) :
    entityData (mergeEmData em k new) k =
      (match em.lookup k with
       | some e => mergeData e.data new
       | none => []) := by
  unfold entityData
  rw [lookup_mergeEmData_self]
  cases em.lookup k <;> rfl

theorem entityData_mergeEmData_ne (em : EntityMap) (k j : Nat)
    (new : DataMap) (hj : j ≠ k) :
    entityData (mergeEmData em k new) j = entityData em j := by
  unfold entityData
  rw [lookup_mergeEmData_ne em k j new hj]

theorem runLive_entityData_congr (em1 em2 : EntityMap) (T : TitleMap)
    (j : Nat) (h : entityData em1 j = entityData em2 j) :
    runLive em1 T j = runLive em2 T j := by
  unfold runLive
  rw [h]

theorem stableAt_merge {T : TitleMap} {em0 em : EntityMap}
    (h : EmEvolved T em0 em) {k : Nat} {id : String}
    (hrl : runLive em0 T k = some id) (j : Nat)
    (hj : j ≠ k → StableAt em T j) :
    StableAt (mergeEmData em k (livePayload id ((T.lookup id).getD ""))) T
      j := by
  by_cases hjk : j = k
  · subst hjk
    have hrlm : runLive em T j = some id := by
      rw [emEvolved_runLive h j]
      exact hrl
    obtain ⟨hnid, hts, htrim⟩ := runLive_eq_some hrlm
    cases hl : em.lookup j with
    | none =>
      exfalso
      have hed : entityData em j = [] := by unfold entityData; rw [hl]
      rw [hed] at hnid
      exact absurd hnid (by simp [List.lookup])
    | some e =>
      have hed : entityData em j = e.data := by unfold entityData; rw [hl]
      have hed2 : entityData (mergeEmData em j
          (livePayload id ((T.lookup id).getD ""))) j =
          mergeData e.data (livePayload id ((T.lookup id).getD "")) := by
        rw [entityData_mergeEmData_self, hl]
      have hnid2 : (mergeData e.data
          (livePayload id ((T.lookup id).getD ""))).lookup "noteId" =
          some (.str id) := by
        rw [lookup_mergeData]
        rw [hed] at hnid
        rw [hnid, livePayload_noteId]
        rfl
      have hsan : sanitizeLinkId (some (.str id)) = some id := by
        show (if (jsTrim id).length > 0 then some id else none) = some id
        rw [if_pos htrim]
      have hrl2 : runLive (mergeEmData em j
          (livePayload id ((T.lookup id).getD ""))) T j = some id := by
        unfold runLive
        rw [hed2, hnid2, hsan]
        show (if (T.lookup id).isSome = true then some id else none) =
          some id
        rw [if_pos hts]
      intro id2 hrl3
      rw [hrl2] at hrl3
      injection hrl3 with hid2
      subst hid2
      rw [hed2]
      exact mergeData_merge_self e.data _ (livePayload_self id _)
  · have hed : entityData (mergeEmData em k
        (livePayload id ((T.lookup id).getD ""))) j = entityData em j :=
      entityData_mergeEmData_ne em k j _ hjk
    intro id2 hrl2
    rw [runLive_entityData_congr _ em T j hed] at hrl2
    rw [hed]
    exact hj hjk id2 hrl2

theorem applyMerges_stable (T : TitleMap) {em0 : EntityMap} :
    ∀ (rs : List (Nat × Nat × Nat)) (em : EntityMap),
      EmEvolved T em0 em →
      ∀ j, ((∃ r ∈ rs, r.2.2 = j ∧ runLive em0 T j ≠ none) ∨
          StableAt em T j) →
        StableAt (applyMerges em0 T em rs) T j := by
  intro rs
  induction rs with
  | nil =>
    intro em _ j hd
    rcases hd with ⟨r, hr, _⟩ | hs
    · exact absurd hr (List.not_mem_nil r)
    · exact hs
  | cons r rest ih =>
    intro em hev j hd
    cases hrl : runLive em0 T r.2.2 with
    | none =>
      rw [applyMerges_cons_none em0 T em r rest hrl]
      rcases hd with ⟨r2, hr2, hkey, hlive⟩ | hs
      · rcases List.mem_cons.mp hr2 with h1 | h1
        · exfalso
          subst h1
          rw [hkey] at hrl
          exact hlive hrl
        · exact ih em hev j (Or.inl ⟨r2, h1, hkey, hlive⟩)
      · exact ih em hev j (Or.inr hs)
    | some id =>
      rw [applyMerges_cons_some em0 T em r rest id hrl]
      have hev2 : EmEvolved T em0 (mergeEmData em r.2.2
          (livePayload id ((T.lookup id).getD ""))) :=
        emEvolved_merge ((T.lookup id).getD "") hev hrl
      rcases hd with ⟨r2, hr2, hkey, hlive⟩ | hs
      · rcases List.mem_cons.mp hr2 with h1 | h1
        · subst h1
          subst hkey
          exact ih _ hev2 r2.2.2 (Or.inr (stableAt_merge hev hrl r2.2.2
            (fun hne => absurd rfl hne)))
        · exact ih _ hev2 j (Or.inl ⟨r2, h1, hkey, hlive⟩)
      · exact ih _ hev2 j (Or.inr (stableAt_merge hev hrl j
          (fun _ => hs)))

theorem docMerges_cons (em0 : EntityMap) (T : TitleMap) (em : EntityMap)
    (b : CBlock) (rest : List CBlock) :
    docMerges em0 T em (b :: rest) =
      docMerges em0 T (applyMerges em0 T em (blockRuns em0 b)) rest := rfl

theorem docMerges_stable (T : TitleMap) (em0 : EntityMap) :
    ∀ (bs : List CBlock) (em : EntityMap),
      EmEvolved T em0 em →
      ∀ j, ((∃ b ∈ bs, ∃ r ∈ blockRuns em0 b, r.2.2 = j ∧
          runLive em0 T j ≠ none) ∨ StableAt em T j) →
        StableAt (docMerges em0 T em bs) T j := by
  intro bs
  induction bs with
  | nil =>
    intro em _ j hd
    rcases hd with ⟨b, hb, _⟩ | hs
    · exact absurd hb (List.not_mem_nil b)
    · exact hs
  | cons b rest ih =>
    intro em hev j hd
    rw [docMerges_cons]
    have hev2 : EmEvolved T em0 (applyMerges em0 T em (blockRuns em0 b)) :=
      emEvolved_applyMerges T (blockRuns em0 b) em hev
    rcases hd with ⟨b2, hb2, r, hr, hkey, hlive⟩ | hs
    · rcases List.mem_cons.mp hb2 with h1 | h1
      · subst h1
        exact ih _ hev2 j (Or.inr (applyMerges_stable T (blockRuns em0 b2)
          em hev j (Or.inl ⟨r, hr, hkey, hlive⟩)))
      · exact ih _ hev2 j (Or.inl ⟨b2, h1, r, hr, hkey, hlive⟩)
    · exact ih _ hev2 j (Or.inr (applyMerges_stable T (blockRuns em0 b)
        em hev j (Or.inr hs)))

theorem emEvolved_docMerges (T : TitleMap) {em0 : EntityMap} :
    ∀ (bs : List CBlock) (em : EntityMap),
      EmEvolved T em0 em → EmEvolved T em0 (docMerges em0 T em bs) := by
  intro bs
  induction bs with
  | nil => intro em h; exact h
  | cons b rest ih =>
    intro em h
    rw [docMerges_cons]
    exact ih _ (emEvolved_applyMerges T (blockRuns em0 b) em h)
/-! ### Prerequisites for the second-scan fixpoint -/

theorem settleGo_mem (em : EntityMap) (T : TitleMap) :
    ∀ (cs : List CChar) (st : Option Nat) (c : CChar),
      c ∈ settleGo em T st cs →
      c ∈ cs ∨ ∃ k, c ∈ spanFor em T k := by
  intro cs
  induction cs with
  | nil =>
    intro st c hm
    cases st with
    | none => exact absurd hm (List.not_mem_nil c)
    | some k => exact Or.inr ⟨k, hm⟩
  | cons c0 cs ih =>
    intro st c hm
    cases st with
    | none =>
      have he : settleGo em T none (c0 :: cs) =
          (match isLinkChar em c0 with
           | none => c0 :: settleGo em T none cs
           | some k => settleGo em T (some k) cs) := rfl
      rw [he] at hm
      cases hlc : isLinkChar em c0 with
      | none =>
        rw [hlc] at hm
        rcases List.mem_cons.mp hm with h1 | h1
        · exact Or.inl (h1 ▸ List.mem_cons_self c0 cs)
        · rcases ih none c h1 with h2 | h2
          · exact Or.inl (List.mem_cons_of_mem c0 h2)
          · exact Or.inr h2
      | some k =>
        rw [hlc] at hm
        rcases ih (some k) c hm with h2 | h2
        · exact Or.inl (List.mem_cons_of_mem c0 h2)
        · exact Or.inr h2
    | some k =>
      have he : settleGo em T (some k) (c0 :: cs) =
          (match isLinkChar em c0 with
           | none => spanFor em T k ++ c0 :: settleGo em T none cs
           | some k2 =>
             if k2 = k then settleGo em T (some k) cs
             else spanFor em T k ++ settleGo em T (some k2) cs) := rfl
      rw [he] at hm
      cases hlc : isLinkChar em c0 with
      | none =>
        rw [hlc] at hm
        rcases List.mem_append.mp hm with h1 | h1
        · exact Or.inr ⟨k, h1⟩
        · rcases List.mem_cons.mp h1 with h2 | h2
          · exact Or.inl (h2 ▸ List.mem_cons_self c0 cs)
          · rcases ih none c h2 with h3 | h3
            · exact Or.inl (List.mem_cons_of_mem c0 h3)
            · exact Or.inr h3
      | some k2 =>
        rw [hlc] at hm
        have hm2 : c ∈ (if k2 = k then settleGo em T (some k) cs
            else spanFor em T k ++ settleGo em T (some k2) cs) := hm
        by_cases hkk : k2 = k
        · rw [if_pos hkk] at hm2
          rcases ih (some k) c hm2 with h2 | h2
          · exact Or.inl (List.mem_cons_of_mem c0 h2)
          · exact Or.inr h2
        · rw [if_neg hkk] at hm2
          rcases List.mem_append.mp hm2 with h1 | h1
          · exact Or.inr ⟨k, h1⟩
          · rcases ih (some k2) c h1 with h2 | h2
            · exact Or.inl (List.mem_cons_of_mem c0 h2)
            · exact Or.inr h2

theorem spanFor_styles (em : EntityMap) (T : TitleMap) (k : Nat) (c : CChar)
    (hm : c ∈ spanFor em T k) : c.styles = [] := by
  unfold spanFor at hm
  cases hr : runLive em T k with
  | some id =>
    rw [hr] at hm
    unfold liveSpan at hm
    rcases List.mem_map.mp hm with ⟨x, _, hx⟩
    rw [← hx]
  | none =>
    rw [hr] at hm
    unfold brokenSpan at hm
    rcases List.mem_map.mp hm with ⟨x, _, hx⟩
    rw [← hx]

theorem mem_foldl_upsertBlock :
    ∀ (bs acc : List CBlock) (b : CBlock),
      b ∈ bs.foldl upsertBlock acc → b ∈ acc ∨ b ∈ bs := by
  intro bs
  induction bs with
  | nil => intro acc b h; exact Or.inl h
  | cons b0 rest ih =>
    intro acc b h
    rcases ih (upsertBlock acc b0) b h with h1 | h1
    · unfold upsertBlock at h1
      by_cases hc : acc.any (fun x => decide (x.key = b0.key))
      · rw [if_pos hc] at h1
        rcases List.mem_map.mp h1 with ⟨x, hx, hxe⟩
        by_cases hxk : x.key = b0.key
        · rw [if_pos hxk] at hxe
          exact Or.inr (hxe ▸ List.mem_cons_self b0 rest)
        · rw [if_neg hxk] at hxe
          exact Or.inl (hxe ▸ hx)
      · rw [if_neg hc] at h1
        rcases List.mem_append.mp h1 with h2 | h2
        · exact Or.inl h2
        · exact Or.inr ((List.mem_singleton.mp h2) ▸
            List.mem_cons_self b0 rest)
    · exact Or.inr (List.mem_cons_of_mem b0 h1)

theorem mem_dedupBlocks (bs : List CBlock) (b : CBlock)
    (h : b ∈ dedupBlocks bs) : b ∈ bs := by
  rcases mem_foldl_upsertBlock bs [] b h with h1 | h1
  · exact absurd h1 (List.not_mem_nil b)
  · exact h1

theorem convertFromRawM_canon (r : ContentState) :
    ∀ b ∈ (convertFromRawM r).blocks, ∀ c ∈ b.chars,
      sortDedupStr c.styles = c.styles := by
  intro b hb c hc
  have hb2 : b ∈ r.blocks.map (fun b =>
      { b with chars := b.chars.map (fun c =>
          ({ ch := c.ch
             styles := sortDedupStr c.styles
             entity := match c.entity with
               | some k =>
                 if ((dedupEntityMap r.entityMap).lookup k).isSome
                 then some k else none
               | none => none } : CChar)) }) := mem_dedupBlocks _ b hb
  rcases List.mem_map.mp hb2 with ⟨b0, _, hb0⟩
  rw [← hb0] at hc
  have hc2 : c ∈ b0.chars.map (fun c =>
      ({ ch := c.ch
         styles := sortDedupStr c.styles
         entity := match c.entity with
           | some k =>
             if ((dedupEntityMap r.entityMap).lookup k).isSome
             then some k else none
           | none => none } : CChar)) := hc
  rcases List.mem_map.mp hc2 with ⟨c0, _, hc0⟩
  have hst : c.styles = sortDedupStr c0.styles := by rw [← hc0]
  rw [hst, sortDedupStr_idem]

theorem applyOut_cons (em0 : EntityMap) (T : TitleMap) (o : List String)
    (r : Nat × Nat × Nat) (rest : List (Nat × Nat × Nat)) :
    applyOut em0 T o (r :: rest) =
      applyOut em0 T
        (match runLive em0 T r.2.2 with
         | some id => setAdd o id
         | none => o) rest := rfl

theorem applyOut_eq_ids (em0 : EntityMap) (T : TitleMap) :
    ∀ (rs : List (Nat × Nat × Nat)) (o : List String),
      applyOut em0 T o rs = (liveIdsOf em0 T rs).foldl setAdd o := by
  intro rs
  induction rs with
  | nil => intro o; rfl
  | cons r rest ih =>
    intro o
    rw [applyOut_cons]
    cases hrl : runLive em0 T r.2.2 with
    | some id =>
      rw [liveIdsOf_cons_live rest hrl]
      exact ih (setAdd o id)
    | none =>
      rw [liveIdsOf_cons_broken rest hrl]
      exact ih o

theorem docOut_cons (em0 : EntityMap) (T : TitleMap) (o : List String)
    (b : CBlock) (rest : List CBlock) :
    docOut em0 T o (b :: rest) =
      docOut em0 T (applyOut em0 T o (blockRuns em0 b)) rest := rfl

theorem emEvolved_liveIdsOf {T : TitleMap} {em0 em : EntityMap}
    (h : EmEvolved T em0 em) (rs : List (Nat × Nat × Nat)) :
    liveIdsOf em T rs = liveIdsOf em0 T rs := by
  unfold liveIdsOf
  refine List.filterMap_congr ?_
  intro r _
  rw [emEvolved_runLive h r.2.2]

theorem settle_liveIds (em : EntityMap) (T : TitleMap) (cs : List CChar) :
    liveIdsOf em T (linkRuns em (settleChars em T cs)) =
      liveIdsOf em T (linkRuns em cs) := by
  rw [liveIdsOf_eq_pairs, liveIdsOf_eq_pairs, settle_livePairs]

theorem liveIdsOf_toRaw (S : ContentState) (T : TitleMap)
    (rs : List (Nat × Nat × Nat))
    (hmem : ∀ r ∈ rs, r.2.2 ∈ usedEntityKeys S) :
    liveIdsOf (convertToRawM S).entityMap T
      (rs.map (fun r => (r.1, r.2.1,
        ((usedEntityKeys S).indexOf? r.2.2).getD 0))) =
    liveIdsOf S.entityMap T rs := by
  induction rs with
  | nil => rfl
  | cons r rest ih =>
    have hrm := hmem r (List.mem_cons_self r rest)
    have hrest := fun r2 h2 => hmem r2 (List.mem_cons_of_mem r h2)
    have hrho : runLive (convertToRawM S).entityMap T
        ((r.1, r.2.1, ((usedEntityKeys S).indexOf? r.2.2).getD 0) :
          Nat × Nat × Nat).2.2 = runLive S.entityMap T r.2.2 :=
      runLive_toRaw S T r.2.2 hrm
    rw [List.map_cons]
    cases hrl : runLive S.entityMap T r.2.2 with
    | some id =>
      rw [liveIdsOf_cons_live _ (hrho.trans hrl),
        liveIdsOf_cons_live rest hrl, ih hrest]
    | none =>
      rw [liveIdsOf_cons_broken _ (hrho.trans hrl),
        liveIdsOf_cons_broken rest hrl]
      exact ih hrest

theorem blockRuns_eq_reverse (em : EntityMap) (b : CBlock) :
    blockRuns em b = (linkRuns em b.chars).reverse := by
  unfold blockRuns
  exact sortDescBy_of_pairwise _ (linkRuns em b.chars)
    (linkRunsGo_pairwise em b.chars 0).1

theorem liveIdsOf_reverse (em : EntityMap) (T : TitleMap)
    (rs : List (Nat × Nat × Nat)) :
    liveIdsOf em T rs.reverse = (liveIdsOf em T rs).reverse :=
  List.filterMap_reverse _ rs
/-- The rewritten content state after the first scan, before
re-serialization. -/
def scanState (S0 : ContentState) (T : TitleMap) : ContentState :=
  ⟨S0.blocks.map (settleBlock S0.entityMap T),
    docMerges S0.entityMap T S0.entityMap S0.blocks⟩

theorem scanState_em (S0 : ContentState) (T : TitleMap) :
    (scanState S0 T).entityMap =
      docMerges S0.entityMap T S0.entityMap S0.blocks := rfl

theorem scanState_blocks (S0 : ContentState) (T : TitleMap) :
    (scanState S0 T).blocks =
      S0.blocks.map (settleBlock S0.entityMap T) := rfl

theorem scanState_keys_nodup (S0 : ContentState) (T : TitleMap)
    (hbk : (S0.blocks.map CBlock.key).Nodup) :
    ((scanState S0 T).blocks.map CBlock.key).Nodup := by
  rw [scanState_blocks, List.map_map]
  exact hbk

theorem scanState_canon (S0 : ContentState) (T : TitleMap)
    (hcanon : ∀ b ∈ S0.blocks, ∀ c ∈ b.chars,
      sortDedupStr c.styles = c.styles) :
    ∀ b ∈ (scanState S0 T).blocks, ∀ c ∈ b.chars,
      sortDedupStr c.styles = c.styles := by
  intro b hb c hc
  rw [scanState_blocks] at hb
  rcases List.mem_map.mp hb with ⟨b0, hb0, hbe⟩
  rw [← hbe] at hc
  have hc2 : c ∈ settleChars S0.entityMap T b0.chars := hc
  rcases settleGo_mem S0.entityMap T b0.chars none c hc2 with h1 | ⟨k, h1⟩
  · exact hcanon b0 hb0 c h1
  · rw [spanFor_styles S0.entityMap T k c h1]
    rfl

theorem scanState_evolved (S0 : ContentState) (T : TitleMap) :
    EmEvolved T S0.entityMap (scanState S0 T).entityMap :=
  emEvolved_docMerges T S0.blocks S0.entityMap
    (emEvolved_refl T S0.entityMap)

theorem scanState_charkeys (S0 : ContentState) (T : TitleMap) :
    ∀ b ∈ (scanState S0 T).blocks, ∀ c ∈ b.chars, ∀ k,
      c.entity = some k →
      ((scanState S0 T).entityMap.lookup k).isSome = true →
      k ∈ usedEntityKeys (scanState S0 T) :=
  fun b hb c hc k he hl =>
    usedEntityKeys_mem (scanState S0 T) b c k hb hc he hl

theorem scanState_runkeys (S0 : ContentState) (T : TitleMap)
    (b : CBlock) (hb : b ∈ (scanState S0 T).blocks) :
    ∀ r ∈ linkRuns (scanState S0 T).entityMap b.chars,
      r.2.2 ∈ usedEntityKeys (scanState S0 T) := by
  intro r hr
  refine linkRunsGo_keys (scanState S0 T).entityMap
    (fun k => k ∈ usedEntityKeys (scanState S0 T)) b.chars 0 none
    ?_ (fun s k h => absurd h (by simp)) r hr
  intro c hc k hlc
  obtain ⟨hce, e, hle, _⟩ := isLinkChar_some_elim hlc
  exact usedEntityKeys_mem (scanState S0 T) b c k hb hc hce
    (by rw [hle]; rfl)

theorem scanState_settle_id (S0 : ContentState) (T : TitleMap)
    (b : CBlock) (hb : b ∈ (scanState S0 T).blocks) :
    settleChars (convertToRawM (scanState S0 T)).entityMap T
      (b.chars.map (renChar (usedEntityKeys (scanState S0 T)))) =
      b.chars.map (renChar (usedEntityKeys (scanState S0 T))) := by
  rw [settleChars_toRaw (scanState S0 T) T b.chars
    (fun c hc k he hl => scanState_charkeys S0 T b hb c hc k he hl)]
  have h1 : settleChars (scanState S0 T).entityMap T b.chars = b.chars := by
    rw [emEvolved_settleChars (scanState_evolved S0 T) b.chars]
    rw [scanState_blocks] at hb
    rcases List.mem_map.mp hb with ⟨b0, _, hbe⟩
    have hch : b.chars = settleChars S0.entityMap T b0.chars := by
      rw [← hbe]
      rfl
    rw [hch]
    exact settle_idem S0.entityMap T b0.chars
  rw [h1]

theorem scanState_block_ids (S0 : ContentState) (T : TitleMap)
    (b : CBlock) (hb : b ∈ (scanState S0 T).blocks) (b0 : CBlock)
    (hbe : settleBlock S0.entityMap T b0 = b) :
    liveIdsOf (convertToRawM (scanState S0 T)).entityMap T
      (linkRuns (convertToRawM (scanState S0 T)).entityMap
        (b.chars.map (renChar (usedEntityKeys (scanState S0 T))))) =
    liveIdsOf S0.entityMap T (linkRuns S0.entityMap b0.chars) := by
  rw [linkRuns_toRaw (scanState S0 T) b.chars
    (fun c hc k he hl => scanState_charkeys S0 T b hb c hc k he hl)]
  rw [liveIdsOf_toRaw (scanState S0 T) T _
    (scanState_runkeys S0 T b hb)]
  rw [emEvolved_linkRuns (scanState_evolved S0 T) b.chars]
  rw [emEvolved_liveIdsOf (scanState_evolved S0 T)]
  have hch : b.chars = settleChars S0.entityMap T b0.chars := by
    rw [← hbe]
    rfl
  rw [hch]
  exact settle_liveIds S0.entityMap T b0.chars

theorem scanState_pass2_stable (S0 : ContentState) (T : TitleMap)
    (b : CBlock) (hb : b ∈ (scanState S0 T).blocks) (b0 : CBlock)
    (hbe : settleBlock S0.entityMap T b0 = b) (hb0 : b0 ∈ S0.blocks) :
    ∀ r ∈ blockRuns (convertToRawM (scanState S0 T)).entityMap
        (renBlock (usedEntityKeys (scanState S0 T)) b),
      ∀ id, runLive (convertToRawM (scanState S0 T)).entityMap T r.2.2 =
        some id →
      mergeData (entityData (convertToRawM (scanState S0 T)).entityMap
        r.2.2) (livePayload id ((T.lookup id).getD "")) =
        entityData (convertToRawM (scanState S0 T)).entityMap r.2.2 := by
  intro r hr id hrl
  rw [blockRuns_eq_reverse, List.mem_reverse] at hr
  have hrr : r ∈ (linkRuns (scanState S0 T).entityMap b.chars).map
      (fun r => (r.1, r.2.1,
        ((usedEntityKeys (scanState S0 T)).indexOf? r.2.2).getD 0)) := by
    have hch : (renBlock (usedEntityKeys (scanState S0 T)) b).chars =
        b.chars.map (renChar (usedEntityKeys (scanState S0 T))) := rfl
    rw [hch, linkRuns_toRaw (scanState S0 T) b.chars
      (fun c hc k he hl => scanState_charkeys S0 T b hb c hc k he hl)] at hr
    exact hr
  rcases List.mem_map.mp hrr with ⟨r0, hr0, hre⟩
  have hk0 : r0.2.2 ∈ usedEntityKeys (scanState S0 T) :=
    scanState_runkeys S0 T b hb r0 hr0
  subst hre
  show mergeData (entityData (convertToRawM (scanState S0 T)).entityMap
      (((usedEntityKeys (scanState S0 T)).indexOf? r0.2.2).getD 0))
      (livePayload id ((T.lookup id).getD "")) =
    entityData (convertToRawM (scanState S0 T)).entityMap
      (((usedEntityKeys (scanState S0 T)).indexOf? r0.2.2).getD 0)
  have hrl2 : runLive (scanState S0 T).entityMap T r0.2.2 = some id := by
    rw [← runLive_toRaw (scanState S0 T) T r0.2.2 hk0]
    exact hrl
  have hrl0 : runLive S0.entityMap T r0.2.2 = some id := by
    rw [← emEvolved_runLive (scanState_evolved S0 T) r0.2.2]
    exact hrl2
  have hch : b.chars = settleChars S0.entityMap T b0.chars := by
    rw [← hbe]
    rfl
  have hpair : (r0.2.2, id) ∈ livePairsOf S0.entityMap T
      (linkRuns S0.entityMap b0.chars) := by
    rw [← settle_livePairs S0.entityMap T b0.chars]
    have hr0b : r0 ∈ linkRuns S0.entityMap
        (settleChars S0.entityMap T b0.chars) := by
      rw [← hch, ← emEvolved_linkRuns (scanState_evolved S0 T) b.chars]
      exact hr0
    unfold livePairsOf
    refine List.mem_filterMap.mpr ⟨r0, hr0b, ?_⟩
    rw [hrl0]
    rfl
  have hstab : StableAt (scanState S0 T).entityMap T r0.2.2 := by
    rw [scanState_em]
    refine docMerges_stable T S0.entityMap S0.blocks S0.entityMap
      (emEvolved_refl T S0.entityMap) r0.2.2 (Or.inl ?_)
    unfold livePairsOf at hpair
    rcases List.mem_filterMap.mp hpair with ⟨rr, hrr2, hmapv⟩
    cases hrlr : runLive S0.entityMap T rr.2.2 with
    | none => rw [hrlr] at hmapv; exact absurd hmapv (by simp)
    | some id2 =>
      rw [hrlr] at hmapv
      have h3 : some ((rr.2.2, id2) : Nat × String) =
          some (r0.2.2, id) := hmapv
      have h4 : ((rr.2.2, id2) : Nat × String) = (r0.2.2, id) := by
        injection h3
      have hkey : rr.2.2 = r0.2.2 := congrArg Prod.fst h4
      refine ⟨b0, hb0, rr, ?_, hkey, ?_⟩
      · rw [blockRuns_eq_reverse, List.mem_reverse]
        exact hrr2
      · rw [hrl0]
        simp
  have hed := entityData_toRaw (scanState S0 T) r0.2.2 hk0
  rw [hed]
  exact hstab id hrl2
theorem docMerges_id (em : EntityMap) (T : TitleMap)
    (hnodup : (em.map Prod.fst).Nodup) :
    ∀ bs : List CBlock,
      (∀ b ∈ bs, ∀ r ∈ blockRuns em b, ∀ id,
        runLive em T r.2.2 = some id →
        mergeData (entityData em r.2.2)
          (livePayload id ((T.lookup id).getD "")) =
          entityData em r.2.2) →
      docMerges em T em bs = em := by
  intro bs
  induction bs with
  | nil => intro _; rfl
  | cons b rest ih =>
    intro hs
    rw [docMerges_cons]
    rw [applyMerges_id em T em hnodup (blockRuns em b)
      (fun r hr id hrl => hs b (List.mem_cons_self b rest) r hr id hrl)]
    exact ih (fun b2 h2 => hs b2 (List.mem_cons_of_mem b h2))

theorem scanState_merges_id (S0 : ContentState) (T : TitleMap) :
    docMerges (convertToRawM (scanState S0 T)).entityMap T
      (convertToRawM (scanState S0 T)).entityMap
      (convertToRawM (scanState S0 T)).blocks =
      (convertToRawM (scanState S0 T)).entityMap := by
  refine docMerges_id _ T (toRaw_em_nodup (scanState S0 T))
    (convertToRawM (scanState S0 T)).blocks ?_
  intro b2 hb2 r hr id hrl
  rw [convertToRawM_blocks] at hb2
  rcases List.mem_map.mp hb2 with ⟨b, hbSf, hbe2⟩
  have hbSf2 := hbSf
  rw [scanState_blocks] at hbSf2
  rcases List.mem_map.mp hbSf2 with ⟨b0, hb0, hbe0⟩
  subst hbe2
  exact scanState_pass2_stable S0 T b hbSf b0 hbe0 hb0 r hr id hrl

theorem scanState_docOut (S0 : ContentState) (T : TitleMap) :
    ∀ (bs : List CBlock), (∀ b ∈ bs, b ∈ S0.blocks) →
      ∀ o : List String,
      docOut (convertToRawM (scanState S0 T)).entityMap T o
        (bs.map (fun b => renBlock (usedEntityKeys (scanState S0 T))
          (settleBlock S0.entityMap T b))) =
      docOut S0.entityMap T o bs := by
  intro bs
  induction bs with
  | nil => intro _ o; rfl
  | cons b rest ih =>
    intro hmem o
    rw [List.map_cons, docOut_cons, docOut_cons]
    have hb0 : b ∈ S0.blocks := hmem b (List.mem_cons_self b rest)
    have hbSf : settleBlock S0.entityMap T b ∈ (scanState S0 T).blocks := by
      rw [scanState_blocks]
      exact List.mem_map_of_mem _ hb0
    have hids := scanState_block_ids S0 T (settleBlock S0.entityMap T b)
      hbSf b rfl
    have happ : applyOut (convertToRawM (scanState S0 T)).entityMap T o
        (blockRuns (convertToRawM (scanState S0 T)).entityMap
          (renBlock (usedEntityKeys (scanState S0 T))
            (settleBlock S0.entityMap T b))) =
        applyOut S0.entityMap T o (blockRuns S0.entityMap b) := by
      rw [applyOut_eq_ids, applyOut_eq_ids]
      rw [blockRuns_eq_reverse, blockRuns_eq_reverse]
      rw [liveIdsOf_reverse, liveIdsOf_reverse]
      have hch : (renBlock (usedEntityKeys (scanState S0 T))
          (settleBlock S0.entityMap T b)).chars =
          (settleBlock S0.entityMap T b).chars.map
            (renChar (usedEntityKeys (scanState S0 T))) := rfl
      rw [hch, hids]
    rw [happ]
    exact ih (fun b2 h2 => hmem b2 (List.mem_cons_of_mem b h2)) _

theorem scanState_blocks_settle_id (S0 : ContentState) (T : TitleMap) :
    (convertToRawM (scanState S0 T)).blocks.map
      (settleBlock (convertToRawM (scanState S0 T)).entityMap T) =
      (convertToRawM (scanState S0 T)).blocks := by
  rw [convertToRawM_blocks, List.map_map]
  refine List.map_congr_left ?_
  intro b hb
  have hset := scanState_settle_id S0 T b hb
  show settleBlock (convertToRawM (scanState S0 T)).entityMap T
    (renBlock (usedEntityKeys (scanState S0 T)) b) =
    renBlock (usedEntityKeys (scanState S0 T)) b
  obtain ⟨k0, t0, d0, a0, cs0⟩ := b
  show (⟨k0, t0, d0, a0,
      settleChars (convertToRawM (scanState S0 T)).entityMap T
        (cs0.map (renChar (usedEntityKeys (scanState S0 T))))⟩ : CBlock) =
    ⟨k0, t0, d0, a0, cs0.map (renChar (usedEntityKeys (scanState S0 T)))⟩
  rw [hset]

/-- A second run of `analyzeNoteContent` over a first run's output is the
identity: it computes the same outbound set and leaves the content alone. -/
theorem analyze_fixpoint (m m2 : MNote) (T : TitleMap)
    (h : m2.content = (analyzeNoteContent m T).2) :
    analyzeNoteContent m2 T = analyzeNoteContent m T := by
  cases hc : m.content with
  | malformed tag =>
    have h1 : analyzeNoteContent m T = ([], m.content) := by
      unfold analyzeNoteContent
      rw [hc]
    have hc2 : m2.content = ContentStr.malformed tag := by
      rw [h, h1, hc]
    have h2 : analyzeNoteContent m2 T = ([], m2.content) := by
      unfold analyzeNoteContent
      rw [hc2]
    rw [h1, h2, hc, hc2]
  | jsonOf r bb =>
    have hbk0 : ((convertFromRawM r).blocks.map CBlock.key).Nodup :=
      convertFromRawM_keys_nodup r
    have hcanon0 := convertFromRawM_canon r
    have h1 := analyze_jsonOf_eq m T r bb hc
    have hsc : analyzeNoteContent m T =
        (docOut (convertFromRawM r).entityMap T []
          (convertFromRawM r).blocks,
         .jsonOf (convertToRawM (scanState (convertFromRawM r) T))
           true) := h1
    have hc2 : m2.content =
        .jsonOf (convertToRawM (scanState (convertFromRawM r) T)) true := by
      rw [h, hsc]
    have h2 := analyze_jsonOf_eq m2 T
      (convertToRawM (scanState (convertFromRawM r) T)) true hc2
    have hfr : convertFromRawM (convertToRawM
        (scanState (convertFromRawM r) T)) =
        convertToRawM (scanState (convertFromRawM r) T) :=
      fromRaw_toRaw (scanState (convertFromRawM r) T)
        (scanState_keys_nodup (convertFromRawM r) T hbk0)
        (scanState_canon (convertFromRawM r) T hcanon0)
    rw [hfr] at h2
    rw [scanState_blocks_settle_id (convertFromRawM r) T] at h2
    rw [scanState_merges_id (convertFromRawM r) T] at h2
    have heta : (⟨(convertToRawM (scanState (convertFromRawM r) T)).blocks,
        (convertToRawM (scanState (convertFromRawM r) T)).entityMap⟩ :
        ContentState) =
        convertToRawM (scanState (convertFromRawM r) T) := rfl
    rw [heta] at h2
    rw [toRaw_idem (scanState (convertFromRawM r) T)] at h2
    have hout : docOut (convertToRawM (scanState (convertFromRawM r)
        T)).entityMap T []
        (convertToRawM (scanState (convertFromRawM r) T)).blocks =
        docOut (convertFromRawM r).entityMap T []
          (convertFromRawM r).blocks := by
      rw [convertToRawM_blocks, scanState_blocks, List.map_map]
      exact scanState_docOut (convertFromRawM r) T
        (convertFromRawM r).blocks (fun b hb => hb) []
    rw [hout] at h2
    rw [h2, hsc]
/-! ### Last-wins characterisation of the id-keyed `Map` builds -/

theorem any_key_eq_keys {β : Type} (m : List (String × β)) (k : String) :
    (m.any (fun p => decide (p.1 = k))) =
      ((m.map Prod.fst).any (fun x => decide (x = k))) := by
  induction m with
  | nil => rfl
  | cons p rest ih =>
    simp only [List.any_cons, List.map_cons, ih]

theorem keys_mapSet_overwrite {β : Type} (m : List (String × β))
    (k : String) (v : β)
    (hb : m.any (fun p => decide (p.1 = k)) = true) :
    (mapSet m k v).map Prod.fst = m.map Prod.fst := by
  unfold mapSet
  rw [if_pos hb]
  rw [List.map_map]
  refine List.map_congr_left ?_
  intro p _
  show Prod.fst (if p.1 = k then (k, v) else p) = p.1
  by_cases hpk : p.1 = k
  · rw [if_pos hpk, hpk]
  · rw [if_neg hpk]

theorem keys_mapSet_append {β : Type} (m : List (String × β))
    (k : String) (v : β)
    (hb : m.any (fun p => decide (p.1 = k)) = false) :
    (mapSet m k v).map Prod.fst = m.map Prod.fst ++ [k] := by
  unfold mapSet
  rw [if_neg]
  · rw [List.map_append]
    rfl
  · rw [hb]
    exact Bool.false_ne_true

theorem not_mem_keys_of_any_false {β : Type} (m : List (String × β))
    (k : String) (hb : m.any (fun p => decide (p.1 = k)) = false) :
    k ∉ m.map Prod.fst := by
  intro hmem
  rcases List.mem_map.mp hmem with ⟨p, hp, hpe⟩
  have h2 := List.any_eq_false.mp hb p hp
  simp only [decide_eq_true_eq] at h2
  exact h2 hpe

theorem keys_mapSet_nodup {β : Type} (m : List (String × β)) (k : String)
    (v : β) (h : (m.map Prod.fst).Nodup) :
    ((mapSet m k v).map Prod.fst).Nodup := by
  cases hb : m.any (fun p => decide (p.1 = k)) with
  | true => rw [keys_mapSet_overwrite m k v hb]; exact h
  | false =>
    rw [keys_mapSet_append m k v hb, List.nodup_append]
    refine ⟨h, List.nodup_singleton k, ?_⟩
    intro a ha hb2
    have hak : a = k := List.mem_singleton.mp hb2
    subst hak
    exact not_mem_keys_of_any_false m a hb ha

theorem keys_foldl_mapSet_nodup {β : Type} (g : MNote → β) :
    ∀ (l : List MNote) (acc : List (String × β)),
      (acc.map Prod.fst).Nodup →
      ((l.foldl (fun m n => mapSet m n.id (g n)) acc).map Prod.fst).Nodup := by
  intro l
  induction l with
  | nil => intro acc h; exact h
  | cons n rest ih =>
    intro acc h
    exact ih _ (keys_mapSet_nodup acc n.id (g n) h)

theorem keys_foldl_mapSet_eq {β1 β2 : Type} (g1 : MNote → β1)
    (g2 : MNote → β2) :
    ∀ (l1 l2 : List MNote) (acc1 : List (String × β1))
      (acc2 : List (String × β2)),
      l1.map MNote.id = l2.map MNote.id →
      acc1.map Prod.fst = acc2.map Prod.fst →
      (l1.foldl (fun m n => mapSet m n.id (g1 n)) acc1).map Prod.fst =
      (l2.foldl (fun m n => mapSet m n.id (g2 n)) acc2).map Prod.fst := by
  intro l1
  induction l1 with
  | nil =>
    intro l2 acc1 acc2 hids hacc
    have hl2 : l2 = [] := by
      have h2 : l2.map MNote.id = [] := hids.symm
      exact List.map_eq_nil.mp h2
    subst hl2
    exact hacc
  | cons n1 t1 ih =>
    intro l2 acc1 acc2 hids hacc
    cases l2 with
    | nil => exact absurd hids (by simp)
    | cons n2 t2 =>
      rw [List.map_cons, List.map_cons] at hids
      have hn : n1.id = n2.id := by injection hids
      have ht : t1.map MNote.id = t2.map MNote.id := by injection hids
      refine ih t2 _ _ ht ?_
      have hany : (acc1.any (fun p => decide (p.1 = n1.id))) =
          (acc2.any (fun p => decide (p.1 = n2.id))) := by
        rw [any_key_eq_keys, any_key_eq_keys, hacc, hn]
      cases hb : acc2.any (fun p => decide (p.1 = n2.id)) with
      | true =>
        rw [keys_mapSet_overwrite acc1 n1.id (g1 n1) (hany.trans hb),
          keys_mapSet_overwrite acc2 n2.id (g2 n2) hb]
        exact hacc
      | false =>
        rw [keys_mapSet_append acc1 n1.id (g1 n1) (hany.trans hb),
          keys_mapSet_append acc2 n2.id (g2 n2) hb, hacc, hn]

theorem lookup_eq_none_of_not_keys {β : Type} :
    ∀ (m : List (String × β)) (k : String), k ∉ m.map Prod.fst →
      List.lookup k m = none := by
  intro m
  induction m with
  | nil => intro k _; rfl
  | cons p rest ih =>
    intro k h
    obtain ⟨pk, pv⟩ := p
    rw [List.map_cons] at h
    have h1 : k ≠ pk := fun he => h (he ▸ List.mem_cons_self pk _)
    have h2 : k ∉ rest.map Prod.fst := fun hm =>
      h (List.mem_cons_of_mem pk hm)
    rw [List.lookup_cons]
    have hb : (k == pk) = false := beq_eq_false_iff_ne.mpr h1
    rw [hb]
    exact ih k h2

theorem assoc_ext {β : Type} :
    ∀ (l1 l2 : List (String × β)),
      l1.map Prod.fst = l2.map Prod.fst →
      (l1.map Prod.fst).Nodup →
      (∀ k, List.lookup k l1 = List.lookup k l2) → l1 = l2 := by
  intro l1
  induction l1 with
  | nil =>
    intro l2 hk _ _
    have : l2.map Prod.fst = [] := hk.symm
    have h2 : l2 = [] := List.map_eq_nil.mp this
    rw [h2]
  | cons p t1 ih =>
    intro l2 hk hnd hl
    obtain ⟨pk, pv⟩ := p
    cases l2 with
    | nil => exact absurd hk (by simp)
    | cons q t2 =>
      obtain ⟨qk, qv⟩ := q
      rw [List.map_cons, List.map_cons] at hk
      have hkk : pk = qk := by injection hk
      have hkt : t1.map Prod.fst = t2.map Prod.fst := by injection hk
      subst hkk
      have hv : pv = qv := by
        have h1 := hl pk
        rw [List.lookup_cons_self, List.lookup_cons_self] at h1
        injection h1
      subst hv
      rw [List.map_cons] at hnd
      have hnotin : pk ∉ t1.map Prod.fst := (List.nodup_cons.mp hnd).1
      refine congrArg (List.cons (pk, pv)) (ih t2 hkt
        (List.nodup_cons.mp hnd).2 ?_)
      intro k
      by_cases hkp : k = pk
      · subst hkp
        rw [lookup_eq_none_of_not_keys t1 k hnotin,
          lookup_eq_none_of_not_keys t2 k (hkt ▸ hnotin)]
      · have h1 := hl k
        have hb : (k == pk) = false := beq_eq_false_iff_ne.mpr hkp
        rw [List.lookup_cons, List.lookup_cons, hb] at h1
        exact h1

theorem lookup_foldl_mapSet {β : Type} (g : MNote → β) :
    ∀ (l : List MNote) (acc : List (String × β)) (k : String),
      List.lookup k (l.foldl (fun m n => mapSet m n.id (g n)) acc) =
        (match l.reverse.find? (fun n => decide (n.id = k)) with
         | some n => some (g n)
         | none => List.lookup k acc) := by
  intro l
  induction l with
  | nil => intro acc k; rfl
  | cons n t ih =>
    intro acc k
    rw [List.foldl_cons, ih]
    rw [List.reverse_cons, List.find?_append]
    cases hf : t.reverse.find? (fun n => decide (n.id = k)) with
    | some n2 => rfl
    | none =>
      show (List.lookup k (mapSet acc n.id (g n))) =
        (match (Option.none).or (List.find? (fun n => decide (n.id = k))
          [n]) with
         | some n => some (g n)
         | none => List.lookup k acc)
      by_cases hk : n.id = k
      · have hfind : List.find? (fun n => decide (n.id = k)) [n] = some n := by
          rw [List.find?_cons]
          rw [show (decide (n.id = k)) = true from by simp [hk]]
        rw [hfind]
        rw [← hk]
        exact lookup_mapSet_self acc n.id (g n)
      · have hfind : List.find? (fun n => decide (n.id = k)) [n] = none := by
          rw [List.find?_cons]
          rw [show (decide (n.id = k)) = false from by simp [hk]]
          rfl
        rw [hfind]
        exact lookup_mapSet_ne acc n.id k (g n) (fun he => hk he.symm)
theorem foldl_mapSet_map_eq {β : Type} (f : MNote → MNote)
    (g1 g2 : MNote → β) (hid : ∀ n, (f n).id = n.id)
    (notes : List MNote)
    (hg : ∀ k n, notes.reverse.find? (fun n2 => decide (n2.id = k)) =
      some n → g2 (f n) = g1 n) :
    (notes.map f).foldl (fun m n => mapSet m n.id (g2 n)) [] =
    notes.foldl (fun m n => mapSet m n.id (g1 n)) [] := by
  refine assoc_ext _ _ ?_ ?_ ?_
  · exact keys_foldl_mapSet_eq g2 g1 (notes.map f) notes [] []
      (by rw [List.map_map]; exact List.map_congr_left (fun n _ => hid n))
      rfl
  · exact keys_foldl_mapSet_nodup g2 (notes.map f) [] List.nodup_nil
  · intro k
    rw [lookup_foldl_mapSet, lookup_foldl_mapSet]
    have hrev : (notes.map f).reverse = notes.reverse.map f :=
      (List.map_reverse f notes).symm
    rw [hrev, List.find?_map]
    have hpred : ((fun n2 => decide (n2.id = k)) ∘ f) =
        (fun n2 => decide (n2.id = k)) := by
      funext n2
      show decide ((f n2).id = k) = decide (n2.id = k)
      rw [hid n2]
    rw [hpred]
    cases hf : notes.reverse.find? (fun n2 => decide (n2.id = k)) with
    | none => rfl
    | some n =>
      show some (g2 (f n)) = some (g1 n)
      rw [hg k n hf]

/-! ### `finalizeNote` is idempotent for fixed maps -/

theorem finalizeNote_eq (T : TitleMap) (oM iM : List (String × List String))
    (cM : List (String × ContentStr)) (n : MNote) :
    finalizeNote T oM iM cM n =
      (if joinNul (ensureUniqueSorted ((oM.lookup n.id).getD []) T) =
          joinNul (origOutbound n) ∧
        joinNul (ensureUniqueSorted ((iM.lookup n.id).getD []) T) =
          joinNul (origInbound n) ∧
        (cM.lookup n.id).getD n.content = n.content then n
      else { n with
        content := if (cM.lookup n.id).getD n.content = n.content
          then n.content else (cM.lookup n.id).getD n.content
        links := some ⟨ensureUniqueSorted ((oM.lookup n.id).getD []) T,
          ensureUniqueSorted ((iM.lookup n.id).getD []) T⟩ }) := rfl

theorem finalizeNote_id (T : TitleMap) (oM iM : List (String × List String))
    (cM : List (String × ContentStr)) (n : MNote) :
    (finalizeNote T oM iM cM n).id = n.id := by
  rw [finalizeNote_eq]
  split
  · rfl
  · rfl

theorem finalizeNote_title (T : TitleMap)
    (oM iM : List (String × List String))
    (cM : List (String × ContentStr)) (n : MNote) :
    (finalizeNote T oM iM cM n).title = n.title := by
  rw [finalizeNote_eq]
  split
  · rfl
  · rfl

theorem finalizeNote_content (T : TitleMap)
    (oM iM : List (String × List String))
    (cM : List (String × ContentStr)) (n : MNote) :
    (finalizeNote T oM iM cM n).content =
      (cM.lookup n.id).getD n.content := by
  rw [finalizeNote_eq]
  split
  · next h => exact h.2.2.symm
  · next h =>
    show (if (cM.lookup n.id).getD n.content = n.content
      then n.content else (cM.lookup n.id).getD n.content) =
      (cM.lookup n.id).getD n.content
    by_cases h2 : (cM.lookup n.id).getD n.content = n.content
    · rw [if_pos h2, h2]
    · rw [if_neg h2]

theorem finalizeNote_fix (T : TitleMap)
    (oM iM : List (String × List String))
    (cM : List (String × ContentStr)) (n : MNote)
    (hout : joinNul (ensureUniqueSorted ((oM.lookup n.id).getD []) T) =
      joinNul (origOutbound n))
    (hinb : joinNul (ensureUniqueSorted ((iM.lookup n.id).getD []) T) =
      joinNul (origInbound n))
    (hcon : (cM.lookup n.id).getD n.content = n.content) :
    finalizeNote T oM iM cM n = n := by
  rw [finalizeNote_eq, if_pos]
  exact ⟨hout, hinb, hcon⟩

theorem finalizeNote_idem (T : TitleMap)
    (oM iM : List (String × List String))
    (cM : List (String × ContentStr)) (n : MNote) :
    finalizeNote T oM iM cM (finalizeNote T oM iM cM n) =
      finalizeNote T oM iM cM n := by
  by_cases h : joinNul (ensureUniqueSorted ((oM.lookup n.id).getD []) T) =
      joinNul (origOutbound n) ∧
    joinNul (ensureUniqueSorted ((iM.lookup n.id).getD []) T) =
      joinNul (origInbound n) ∧
    (cM.lookup n.id).getD n.content = n.content
  · have h1 : finalizeNote T oM iM cM n = n := by
      rw [finalizeNote_eq, if_pos h]
    rw [h1]
    exact h1
  · have h1 : finalizeNote T oM iM cM n =
        { n with
          content := if (cM.lookup n.id).getD n.content = n.content
            then n.content else (cM.lookup n.id).getD n.content
          links := some ⟨ensureUniqueSorted ((oM.lookup n.id).getD []) T,
            ensureUniqueSorted ((iM.lookup n.id).getD []) T⟩ } := by
      rw [finalizeNote_eq, if_neg h]
    rw [h1]
    refine finalizeNote_fix T oM iM cM _ rfl rfl ?_
    show (cM.lookup n.id).getD
        (if (cM.lookup n.id).getD n.content = n.content
          then n.content else (cM.lookup n.id).getD n.content) =
      (if (cM.lookup n.id).getD n.content = n.content
        then n.content else (cM.lookup n.id).getD n.content)
    cases hcm : cM.lookup n.id with
    | none => rfl
    | some v =>
      show v = (if v = n.content then n.content else v)
      by_cases h3 : v = n.content
      · rw [if_pos h3]
        exact h3
      · rw [if_neg h3]

theorem buildTitleMap_map (notes : List MNote) (f : MNote → MNote)
    (hid : ∀ n, (f n).id = n.id) (htitle : ∀ n, (f n).title = n.title) :
    buildTitleMap (notes.map f) = buildTitleMap notes :=
  foldl_mapSet_map_eq f MNote.title MNote.title hid notes
    (fun _ n _ => htitle n)

theorem buildInboundMap_congr_base (l1 l2 : List MNote)
    (om : List (String × List String))
    (h : l1.foldl (fun m n => mapSet m n.id ([] : List String)) [] =
      l2.foldl (fun m n => mapSet m n.id ([] : List String)) []) :
    buildInboundMap l1 om = buildInboundMap l2 om := by
  unfold buildInboundMap
  rw [h]

/-! ### `reconcileNoteLinks` is idempotent -/

theorem reconcile_map_idem (notes : List MNote) (T : TitleMap)
    (oM iM : List (String × List String)) (cM : List (String × ContentStr))
    (hT : T = buildTitleMap notes)
    (hoM : oM = buildOutboundMap notes T)
    (hcM : cM = buildContentMap notes T)
    (hiM : iM = buildInboundMap notes oM) :
    reconcileNoteLinks (notes.map (finalizeNote T oM iM cM)) =
      notes.map (finalizeNote T oM iM cM) := by
  by_cases hne : notes.isEmpty = true
  · rw [List.isEmpty_iff.mp hne]
    rfl
  · have hid : ∀ n, (finalizeNote T oM iM cM n).id = n.id :=
      fun n => finalizeNote_id T oM iM cM n
    have hne2 : ¬ ((notes.map (finalizeNote T oM iM cM)).isEmpty = true) := by
      intro h2
      rw [List.isEmpty_iff] at h2
      exact hne (by rw [List.isEmpty_iff]; exact List.map_eq_nil.mp h2)
    have h2 : reconcileNoteLinks (notes.map (finalizeNote T oM iM cM)) =
        (notes.map (finalizeNote T oM iM cM)).map
          (finalizeNote
            (buildTitleMap (notes.map (finalizeNote T oM iM cM)))
            (buildOutboundMap (notes.map (finalizeNote T oM iM cM))
              (buildTitleMap (notes.map (finalizeNote T oM iM cM))))
            (buildInboundMap (notes.map (finalizeNote T oM iM cM))
              (buildOutboundMap (notes.map (finalizeNote T oM iM cM))
                (buildTitleMap (notes.map (finalizeNote T oM iM cM)))))
            (buildContentMap (notes.map (finalizeNote T oM iM cM))
              (buildTitleMap (notes.map (finalizeNote T oM iM cM))))) := by
      unfold reconcileNoteLinks
      rw [if_neg hne2]
    have hT2 : buildTitleMap (notes.map (finalizeNote T oM iM cM)) = T := by
      rw [buildTitleMap_map notes (finalizeNote T oM iM cM) hid
        (fun n => finalizeNote_title T oM iM cM n)]
      exact hT.symm
    rw [h2, hT2]
    have hganalyze : ∀ k n,
        notes.reverse.find? (fun n2 => decide (n2.id = k)) = some n →
        analyzeNoteContent (finalizeNote T oM iM cM n) T =
          analyzeNoteContent n T := by
      intro k n hfind
      have hnid : n.id = k := by
        have h3 := List.find?_some hfind
        simpa using h3
      refine analyze_fixpoint n (finalizeNote T oM iM cM n) T ?_
      rw [finalizeNote_content T oM iM cM n]
      have hlook : cM.lookup n.id =
          some ((analyzeNoteContent n T).2) := by
        rw [hcM]
        show List.lookup n.id (notes.foldl
          (fun m n2 => mapSet m n2.id ((analyzeNoteContent n2 T).2)) []) = _
        rw [lookup_foldl_mapSet]
        rw [hnid, hfind]
      rw [hlook]
      rfl
    have hoM2 : buildOutboundMap (notes.map (finalizeNote T oM iM cM)) T =
        buildOutboundMap notes T := by
      show (notes.map (finalizeNote T oM iM cM)).foldl
        (fun m n => mapSet m n.id ((analyzeNoteContent n T).1)) [] =
        notes.foldl (fun m n => mapSet m n.id ((analyzeNoteContent n T).1)) []
      exact foldl_mapSet_map_eq (finalizeNote T oM iM cM)
        (fun n => (analyzeNoteContent n T).1)
        (fun n => (analyzeNoteContent n T).1) hid notes
        (fun k n hfind => by
          show (analyzeNoteContent (finalizeNote T oM iM cM n) T).1 =
            (analyzeNoteContent n T).1
          rw [hganalyze k n hfind])
    have hcM2 : buildContentMap (notes.map (finalizeNote T oM iM cM)) T =
        buildContentMap notes T := by
      show (notes.map (finalizeNote T oM iM cM)).foldl
        (fun m n => mapSet m n.id ((analyzeNoteContent n T).2)) [] =
        notes.foldl (fun m n => mapSet m n.id ((analyzeNoteContent n T).2)) []
      exact foldl_mapSet_map_eq (finalizeNote T oM iM cM)
        (fun n => (analyzeNoteContent n T).2)
        (fun n => (analyzeNoteContent n T).2) hid notes
        (fun k n hfind => by
          show (analyzeNoteContent (finalizeNote T oM iM cM n) T).2 =
            (analyzeNoteContent n T).2
          rw [hganalyze k n hfind])
    rw [hoM2, hcM2, ← hoM, ← hcM]
    have hiM2 : buildInboundMap (notes.map (finalizeNote T oM iM cM)) oM =
        buildInboundMap notes oM := by
      refine buildInboundMap_congr_base _ notes oM ?_
      exact foldl_mapSet_map_eq (finalizeNote T oM iM cM)
        (fun _ => ([] : List String)) (fun _ => ([] : List String))
        hid notes (fun _ _ _ => rfl)
    rw [hiM2, ← hiM]
    rw [List.map_map]
    refine List.map_congr_left ?_
    intro n _
    exact finalizeNote_idem T oM iM cM n

theorem reconcile_idem (notes : List MNote) :
    reconcileNoteLinks (reconcileNoteLinks notes) =
      reconcileNoteLinks notes := by
  by_cases hne : notes.isEmpty = true
  · rw [List.isEmpty_iff.mp hne]
    rfl
  · have h1 : reconcileNoteLinks notes =
        notes.map (finalizeNote (buildTitleMap notes)
          (buildOutboundMap notes (buildTitleMap notes))
          (buildInboundMap notes
            (buildOutboundMap notes (buildTitleMap notes)))
          (buildContentMap notes (buildTitleMap notes))) := by
      unfold reconcileNoteLinks
      rw [if_neg hne]
    rw [h1]
    exact reconcile_map_idem notes _ _ _ _ rfl rfl rfl rfl















end Roam

/-! ## Claims -/

namespace Roam

/-- A note with opaque (unparsable) content, used by the tree-mutation
scenarios, where link reconciliation is a no-op. -/
def plainNote (id : String) (pid : Option String) (ord : Int) : MNote :=
  { id := id, title := id, content := .malformed 0, createdAt := 0,
    updatedAt := 0, parentId := pid, order := ord, links := some ⟨[], []⟩,
    embeds := [] }

/-- C3 failing input: root note `a` with child `b`, and root note `c`. -/
def c3Notes : List MNote :=
  [plainNote "a" none 0, plainNote "b" (some "a") 0, plainNote "c" none 1]

/-- C4 failing input: root notes `a`, `b`; `b` has children `c`, `d`. -/
def c4Db : Db :=
  ⟨[plainNote "a" none 0, plainNote "b" none 1,
    plainNote "c" (some "b") 0, plainNote "d" (some "b") 1]⟩

end Roam

/-- C3: the claim says every sequence of create/update/move operations
preserves the two-level hierarchy, in particular when a note that itself has
children is reparented.  The code violates this: `moveNote` checks only that
the *target* parent is a root, never that the *moved* note is childless, so
moving root `a` (which has child `b`) under root `c` leaves `b` with parent
`a` while `a` now has parent `c` — depth three. -/
theorem c3_move_with_children_breaks_two_level :
    Roam.TwoLevel Roam.c3Notes ∧
    ¬ Roam.TwoLevel (Roam.moveNote Roam.c3Notes "a" (some "c") 0 42) := by
  decide

/-- C4: the claim says every mutation leaves each parent bucket's order
values contiguous (`{0..n-1}`), given a contiguous pre-state.  The service's
`deleteNote` violates this: it reparents the deleted note's children without
recomputing their `order`, so deleting root `b` (orders: root `a`:0, `b`:1;
children `c`:0, `d`:1) yields a root bucket with orders `{0, 0, 1}`. -/
theorem c4_delete_breaks_order_contiguity :
    Roam.BucketContiguous Roam.c4Db.rows none ∧
    Roam.BucketContiguous Roam.c4Db.rows (some "b") ∧
    ¬ Roam.BucketContiguous (Roam.serviceDeleteNote Roam.c4Db "b" 42).rows none := by
  decide

/-- C8: the claim says one round trip stabilises Markdown conversion for the
supported subset.  It does not: the inline parser subtracts its `offset`
bookkeeping from match indices that `exec` already reports relative to the
mutated string, so a paragraph with two italic spans — `*a* and *b*` — is
corrupted, and re-rendering the first round trip's output changes it again. -/
theorem c8_round_trip_not_stable :
    Roam.Md.rawContentToMarkdown (Roam.Md.markdownToRawContent
        (Roam.Md.rawContentToMarkdown (Roam.Md.markdownToRawContent "*a* and *b*"))) ≠
      Roam.Md.rawContentToMarkdown (Roam.Md.markdownToRawContent "*a* and *b*") := by
  decide

namespace Roam

/-- The per-note cleanliness assumption for the NUL-join comparison: note
ids and pre-existing inbound entries are non-empty and NUL-free (the
`join('\u0000')` change detector cannot distinguish lists that collide on
the separator). -/
def CleanNotes (notes : List MNote) : Prop :=
  ∀ n ∈ notes, CleanStr n.id ∧ ∀ s ∈ origInbound n, CleanStr s

instance : DecidablePred CleanNotes := fun notes => by
  unfold CleanNotes; infer_instance

/-- A document whose single character carries a NOTE_LINK entity pointing at
the note `a` itself. -/
def selfDoc : ContentState :=
  { blocks := [⟨"b1", "unstyled", 0, [], [⟨'x', [], some 0⟩]⟩],
    entityMap := [(0, ⟨"NOTE_LINK", "MUTABLE",
      [("noteId", .str "a"), ("title", .str "A")]⟩)] }

/-- A note whose content links to itself. -/
def selfNote : MNote :=
  { id := "a", title := "A", content := .jsonOf selfDoc false,
    createdAt := 0, updatedAt := 0, parentId := none, order := 0,
    links := none, embeds := [] }

end Roam

/-- C1: the claim says no note's own id appears in its outbound nor inbound
array after reconciliation.  This fails for outbound: `analyzeNoteContent`
adds every resolvable target — including the note itself — to the outbound
set, and only the inbound inversion skips self references.  Reconciling a
single note whose content carries a NOTE_LINK to itself yields that note
with its own id in `links.outbound`. -/
theorem c1_self_link_kept_in_outbound :
    (Roam.reconcileNoteLinks [Roam.selfNote]).map
      (fun n => (n.id, Roam.origOutbound n, Roam.origInbound n)) =
      [("a", ["a"], [])] := by
  decide

/-- C1 (amended): self references are excluded from the inbound array —
provided ids and pre-existing inbound entries are non-empty and NUL-free,
since the `join('\u0000')` comparison used to detect "unchanged" notes
cannot otherwise distinguish colliding lists.  Outbound arrays, by contrast,
do keep self links (see the counterexample). -/
theorem c1_amended_inbound_self_free (notes : List Roam.MNote)
    (h : Roam.CleanNotes notes) :
    ∀ n' ∈ Roam.reconcileNoteLinks notes, n'.id ∉ Roam.origInbound n' := by
  intro n' hn'
  unfold Roam.reconcileNoteLinks at hn'
  by_cases hemp : notes.isEmpty
  · rw [if_pos hemp] at hn'
    rw [List.isEmpty_iff.mp hemp] at hn'
    simp at hn'
  · rw [if_neg hemp] at hn'
    simp only [] at hn'
    obtain ⟨n, hn, rfl⟩ := List.mem_map.mp hn'
    set T := Roam.buildTitleMap notes with hT
    set om := Roam.buildOutboundMap notes T with hom
    set im := Roam.buildInboundMap notes om with him
    set cm := Roam.buildContentMap notes T with hcm
    have hinv := Roam.inboundInv_build notes om
    -- the computed inbound array never contains the note's own id,
    -- and all its members are ids of notes in the collection
    have hvals : ∀ l, im.lookup n.id = some l →
        n.id ∉ l ∧ ∀ z ∈ l, z ∈ notes.map Roam.MNote.id := by
      intro l hl
      refine ⟨(hinv n.id l hl).1, fun z hz => ?_⟩
      exact Roam.keys_buildOutboundMap notes T z ((hinv n.id l hl).2 z hz)
    have hnotin : n.id ∉ Roam.ensureUniqueSorted ((im.lookup n.id).getD []) T := by
      intro hmem
      cases hl : im.lookup n.id with
      | none =>
        rw [hl] at hmem
        have := (Roam.mem_ensureUniqueSorted _ T _ hmem).1
        simp at this
      | some l =>
        rw [hl] at hmem
        exact (hvals l hl).1 (Roam.mem_ensureUniqueSorted _ T _ hmem).1
    have hclean : ∀ z ∈ Roam.ensureUniqueSorted ((im.lookup n.id).getD []) T,
        Roam.CleanStr z := by
      intro z hz
      cases hl : im.lookup n.id with
      | none =>
        rw [hl] at hz
        have := (Roam.mem_ensureUniqueSorted _ T _ hz).1
        simp at this
      | some l =>
        rw [hl] at hz
        have hzl := (Roam.mem_ensureUniqueSorted _ T _ hz).1
        rcases List.mem_map.mp ((hvals l hl).2 z hzl) with ⟨m, hm, rfl⟩
        exact (h m hm).1
    unfold Roam.finalizeNote
    simp only []
    split
    · rename_i hcond
      -- unchanged branch: the joins agree, so by injectivity the stored
      -- inbound equals the computed one, which is self-free
      have hinb := hcond.2.1
      have : Roam.ensureUniqueSorted ((im.lookup n.id).getD []) T =
          Roam.origInbound n := by
        apply Roam.joinNul_inj _ _ hclean (fun s hs => (h n hn).2 s hs) hinb
      rw [← this]
      exact hnotin
    · simpa [Roam.origInbound] using hnotin

/-- Witness for the amended C1 theorem at a concrete input. -/
theorem c1_amended_inbound_self_free_witness :
    Roam.CleanNotes [Roam.selfNote] ∧
    ∀ n' ∈ Roam.reconcileNoteLinks [Roam.selfNote],
      n'.id ∉ Roam.origInbound n' :=
  ⟨by decide, c1_amended_inbound_self_free [Roam.selfNote] (by decide)⟩

namespace Roam

/-- A parseable document with no entities at all. -/
def c5Doc : ContentState :=
  { blocks := [⟨"b1", "unstyled", 0, [],
      [⟨'h', [], none⟩, ⟨'i', [], none⟩]⟩],
    entityMap := [] }

/-- The same document stored in a parseable but non-canonical serialization
(e.g. different JSON whitespace or key order than `JSON.stringify` of
`convertToRaw` would produce). -/
def c5Note : MNote :=
  { id := "p", title := "P", content := .jsonOf c5Doc false,
    createdAt := 0, updatedAt := 0, parentId := none, order := 0,
    links := some ⟨[], []⟩, embeds := [] }

/-- The same document stored canonically. -/
def c5NoteCanon : MNote :=
  { c5Note with content := .jsonOf c5Doc true }

end Roam

/-- C5: the claim says content is re-serialized only when at least one
NOTE_LINK range was rewritten, so parseable content without such ranges
stays byte-identical.  The code instead always serializes and compares the
result with the stored string, so a note whose content is a parseable but
non-canonically serialized document — with no NOTE_LINK ranges at all — has
its content replaced by the normalised serialization. -/
theorem c5_noncanonical_content_rewritten :
    Roam.c5Doc.blocks.map
      (fun b => Roam.linkRuns Roam.c5Doc.entityMap b.chars) = [[]] ∧
    (Roam.reconcileNoteLinks [Roam.c5Note]).map Roam.MNote.content ≠
      [Roam.c5Note.content] := by
  decide

/-- C5 (amended): a note's content is left identical exactly when the fresh
serialization coincides with the stored string; in particular, content that
is already the canonical serialization of its parsed document and contains
no NOTE_LINK ranges is untouched, while parseable non-canonical content is
replaced even when nothing was rewritten (see the counterexample). -/
theorem c5_amended_canonical_content_untouched (T : Roam.TitleMap)
    (n : Roam.MNote) (d : Roam.ContentState)
    (hc : n.content = .jsonOf d true)
    (hclean : Roam.convertFromRawM d = d)
    (hnorm : Roam.convertToRawM d = d)
    (hruns : ∀ b ∈ d.blocks, Roam.linkRuns d.entityMap b.chars = []) :
    Roam.analyzeNoteContent n T = ([], n.content) ∧
    ∀ om im (cm : List (String × Roam.ContentStr)),
      (cm.lookup n.id).getD n.content = n.content →
      (Roam.finalizeNote T om im cm n).content = n.content := by
  constructor
  · unfold Roam.analyzeNoteContent
    rw [hc]
    simp only [hclean]
    have hfold : ∀ (keys : List String),
        keys.foldl (Roam.processBlock T) ⟨[], d⟩ = ⟨[], d⟩ := by
      intro keys
      induction keys with
      | nil => rfl
      | cons bk rest ih =>
        simp only [List.foldl_cons]
        rw [Roam.processBlock_no_ranges T ⟨[], d⟩ bk
          (fun b hb _ => hruns b hb), ih]
    rw [hfold]
    simp only [hnorm]
  · intro om im cm hcm
    unfold Roam.finalizeNote
    simp only [hcm]
    split
    · rfl
    · simp

/-- Witness for the amended C5 theorem at a concrete input. -/
theorem c5_amended_canonical_content_untouched_witness :
    Roam.convertFromRawM Roam.c5Doc = Roam.c5Doc ∧
    Roam.convertToRawM Roam.c5Doc = Roam.c5Doc ∧
    Roam.analyzeNoteContent Roam.c5NoteCanon [] =
      ([], Roam.c5NoteCanon.content) :=
  ⟨by decide, by decide,
    (c5_amended_canonical_content_untouched [] Roam.c5NoteCanon Roam.c5Doc
      rfl (by decide) (by decide) (by decide)).1⟩

/-- C6: a NOTE_LINK range whose `data.noteId` does not resolve in the note
collection contributes nothing to the outbound set, and the loop body
replaces the range's text with `[[t]]` — `t` being the entity's stored
`data.title` when it is a string and the literal `"Untitled"` otherwise —
with no entity key on the new characters (inert plain text) and without
touching the entity map. -/
theorem c6_broken_link_demoted :
    (∀ (n : Roam.MNote) (T : Roam.TitleMap) (id : String),
      id ∈ (Roam.analyzeNoteContent n T).1 → (T.lookup id).isSome) ∧
    (∀ (T : Roam.TitleMap) (bk : String) (acc : Roam.AnalyzeAcc)
        (s e k : Nat) (id : String),
      Roam.sanitizeLinkId
        ((((acc.state.entityMap.lookup k).map Roam.Entity.data).getD
          []).lookup "noteId") = some id →
      T.lookup id = none →
      (Roam.processRange T bk acc (s, e, k)).outbound = acc.outbound ∧
      (Roam.processRange T bk acc (s, e, k)).state.entityMap =
        acc.state.entityMap ∧
      (Roam.processRange T bk acc (s, e, k)).state.blocks =
        acc.state.blocks.map (fun b =>
          if b.key = bk then
            { b with chars := b.chars.take s ++
                ("[[" ++
                  ((Roam.storedTitleOf
                    (((acc.state.entityMap.lookup k).map
                      Roam.Entity.data).getD [])).getD "Untitled") ++
                  "]]").data.map (fun c => ⟨c, [], none⟩) ++
                b.chars.drop e }
          else b)) := by
  constructor
  · exact fun n T id h => Roam.analyze_outbound_live n T id h
  · intro T bk acc s e k id hid hmiss
    unfold Roam.processRange
    simp only [hid, hmiss]
    refine ⟨?_, ?_, ?_⟩
    · simp [Roam.replaceTextM]
    · simp [Roam.replaceTextM]
    · simp [Roam.replaceTextM, Roam.replaceInBlock]

namespace Roam

/-- A state whose single block carries a NOTE_LINK range pointing at a
missing note id. -/
def brokenState : AnalyzeAcc :=
  ⟨["pre"],
    { blocks := [⟨"b1", "unstyled", 0, [], [⟨'x', [], some 0⟩]⟩],
      entityMap := [(0, ⟨"NOTE_LINK", "MUTABLE",
        [("noteId", .str "ghost"), ("title", .str "Old")]⟩)] }⟩

end Roam

/-- Witness for the C6 theorem at a concrete input. -/
theorem c6_broken_link_demoted_witness :
    Roam.sanitizeLinkId
      ((((Roam.brokenState.state.entityMap.lookup 0).map
        Roam.Entity.data).getD []).lookup "noteId") = some "ghost" ∧
    (([("x", "X")] : Roam.TitleMap).lookup "ghost" = none) ∧
    (Roam.processRange [("x", "X")] "b1" Roam.brokenState (0, 1, 0)).outbound =
      Roam.brokenState.outbound :=
  ⟨by decide, by decide,
    (c6_broken_link_demoted.2 [("x", "X")] "b1" Roam.brokenState 0 1 0 "ghost"
      (by decide) (by decide)).1⟩

/-- C7: the claim says `isMarkdown` compares the matching-line count against
the number of *non-empty* lines.  The code divides by the length of the full
`split('\n')` array, empty lines included (its own comment says "more than
20% of lines").  For `"# a\n\n\n\n"` the only non-empty line matches — 100%
— yet `isMarkdown` returns false because 1 of 5 total lines is exactly 20%,
not more. -/
theorem c7_empty_lines_in_denominator :
    Roam.Md.isMarkdown "# a\n\n\n\n" = false ∧
    5 * (((Roam.splitLines "# a\n\n\n\n").filter
        (fun l => !(Roam.jsTrim l == ""))).filter
        Roam.Md.matchesMarkdownLine).length >
      ((Roam.splitLines "# a\n\n\n\n").filter
        (fun l => !(Roam.jsTrim l == ""))).length := by
  constructor
  · rw [Bool.eq_false_iff]
    intro htrue
    have hgt := (Roam.Md.isMarkdown_iff "# a\n\n\n\n").mp htrue
    revert hgt
    decide
  · decide

/-- C7 (amended): `isMarkdown` returns true iff strictly more than 20% of
*all* lines of the `split('\n')` array — empty and whitespace-only lines
included in the denominator — match at least one Markdown pattern (each
line is trimmed before the patterns are tested). -/
theorem c7_amended_ratio_over_all_lines (content : String) :
    Roam.Md.isMarkdown content = true ↔
      5 * ((Roam.splitLines content).filter
        Roam.Md.matchesMarkdownLine).length >
        (Roam.splitLines content).length :=
  Roam.Md.isMarkdown_iff content

/-- C2: `LinkService.reconcileNoteLinks` is idempotent — for every note
list, reconciling the reconciled list returns the same list (the same
notes: ids, `links` arrays and `content` strings all included in the
equality). -/
theorem c2_reconcile_idempotent (notes : List Roam.MNote) :
    Roam.reconcileNoteLinks (Roam.reconcileNoteLinks notes) =
      Roam.reconcileNoteLinks notes :=
  Roam.reconcile_idem notes

/-- C9: reconciliation neither adds, removes nor reorders notes — the
output is a pointwise image of the input preserving ids (and every other
field except `content`/`links`) — and a note whose links and content come
out unchanged is returned as the very same value (modelling the source's
reference-equality short-circuit). -/
theorem c9_reconcile_preserves_note_list (notes : List Roam.MNote) :
    ∃ f, Roam.reconcileNoteLinks notes = notes.map f ∧
      ∀ n : Roam.MNote, (f n).id = n.id ∧ (f n).title = n.title ∧
        (f n).createdAt = n.createdAt ∧ (f n).updatedAt = n.updatedAt ∧
        (f n).parentId = n.parentId ∧ (f n).order = n.order ∧
        (f n).embeds = n.embeds ∧
        ((f n).links = n.links ∧ (f n).content = n.content → f n = n) := by
  classical
  refine ⟨Roam.finalizeNote (Roam.buildTitleMap notes)
    (Roam.buildOutboundMap notes (Roam.buildTitleMap notes))
    (Roam.buildInboundMap notes
      (Roam.buildOutboundMap notes (Roam.buildTitleMap notes)))
    (Roam.buildContentMap notes (Roam.buildTitleMap notes)), ?_, ?_⟩
  · unfold Roam.reconcileNoteLinks
    by_cases hemp : notes.isEmpty
    · rw [if_pos hemp, List.isEmpty_iff.mp hemp]
      rfl
    · rw [if_neg hemp]
  · intro n
    unfold Roam.finalizeNote
    simp only []
    split
    · exact ⟨rfl, rfl, rfl, rfl, rfl, rfl, rfl, fun _ => rfl⟩
    · refine ⟨rfl, rfl, rfl, rfl, rfl, rfl, rfl, fun hl => ?_⟩
      obtain ⟨hlinks, hcontent⟩ := hl
      cases n with
      | mk id title content createdAt updatedAt parentId order links embeds =>
        simp only [] at hlinks hcontent ⊢
        rw [hlinks, hcontent]

/-- C10: every ordered-list-item block is rendered with the literal prefix
`"1. "` regardless of its position, so the original ordinal (`"2. "` below)
is not preserved by a round trip — only list membership is: `"2. x"` parses
to an ordered-list-item block and re-renders as `"1. x"`. -/
theorem c10_ordered_list_renders_one :
    (∀ (em : List (Nat × Roam.Md.MdEntity)) (b : Roam.Md.MdBlock),
      b.btype = "ordered-list-item" →
      Roam.Md.renderBlock em b = "1. " ++ Roam.Md.formatInline em b) ∧
    (Roam.Md.markdownToRawContent "2. x").blocks.map Roam.Md.MdBlock.btype =
      ["ordered-list-item"] ∧
    Roam.Md.rawContentToMarkdown (Roam.Md.markdownToRawContent "2. x") =
      "1. x" := by
  refine ⟨?_, by decide, by decide⟩
  intro em b hb
  unfold Roam.Md.renderBlock
  rw [hb]
  simp only [String.reduceEq, if_false, if_true, reduceIte]

/-- Witness for the C10 theorem at a concrete input. -/
theorem c10_ordered_list_renders_one_witness :
    Roam.Md.renderBlock []
        ⟨"k", "ordered-list-item", "x", 0, [], []⟩ =
      "1. " ++ Roam.Md.formatInline []
        ⟨"k", "ordered-list-item", "x", 0, [], []⟩ :=
  c10_ordered_list_renders_one.1 [] _ rfl
